import Mathlib

/-!
# Hamming codec (`src/2/main.go`)

A shallow embedding of the Go program that builds the parity-check table of a
binary Hamming code, encodes an information vector, injects one bit error and
repairs it through the syndrome.

Conventions of the embedding

* Go's `int` is the 64-bit two's-complement integer of the usual targets
  (amd64, arm64).  Values are `Int`; every `+`, `-` and `<<` of the source is
  followed by `wrapInt`, which reduces the mathematical result into
  `[-2^63, 2^63)`.  Bitwise `&` and `^` need no reduction: on in-range values
  Mathlib's two's-complement `Int.land` and `Int.xor` stay in range.
* A slice `[]int` is a `List Int`, a `[][]int` a `List (List Int)`.  Writing
  through an index is `List.set` after the bounds check Go performs.
* Run-time panics are values of `Panic`; every function that can panic returns
  `Except Panic _`.
* Storage is not modelled: `make` fails only on a negative length, as the
  language prescribes, never for lack of memory.
-/

namespace Hamming

/-! ## Go primitives -/

/-- The ways the program can abort. The first three are raised by the Go
runtime, the last one is the explicit `panic("Несоответствие размеров")` of
`hammingEncode`; `intnArgument` is the panic of `rand.Intn` on a non-positive
bound. -/
inductive Panic where
  | negativeShift
  | makeLenOutOfRange
  | indexOutOfRange
  | sizeMismatch
  | intnArgument
  deriving DecidableEq, Repr

instance {ε α : Type} [DecidableEq ε] [DecidableEq α] : DecidableEq (Except ε α)
  | .ok a, .ok b => if h : a = b then isTrue (by rw [h]) else isFalse (by simpa using h)
  | .error a, .error b => if h : a = b then isTrue (by rw [h]) else isFalse (by simpa using h)
  | .ok _, .error _ => isFalse (by simp)
  | .error _, .ok _ => isFalse (by simp)

/-- Reduction of a mathematical integer to the 64-bit `int` it is stored as. -/
def wrapInt (x : Int) : Int := (x + 2 ^ 63) % 2 ^ 64 - 2 ^ 63

/-- Go `x + y` on `int`. -/
def goAdd (x y : Int) : Int := wrapInt (x + y)

/-- Go `x - y` on `int`. -/
def goSub (x y : Int) : Int := wrapInt (x - y)

/-- Go `x << s` on `int` with a run-time shift count: a negative count panics,
bits shifted past bit 63 are lost. -/
def goShl (x s : Int) : Except Panic Int :=
  if s < 0 then .error .negativeShift else .ok (wrapInt (x * 2 ^ s.toNat))

/-- Go `make([]T, n)` with every element the zero value `z`. -/
def goMake {α : Type} (z : α) (n : Int) : Except Panic (List α) :=
  if n < 0 then .error .makeLenOutOfRange else .ok (List.replicate n.toNat z)

/-- Go `v[i]` as an rvalue. -/
def goGet {α : Type} (v : List α) (i : Int) : Except Panic α :=
  if i < 0 then .error .indexOutOfRange
  else match v.get? i.toNat with
    | some x => .ok x
    | none => .error .indexOutOfRange

/-- Go `v[i] = x`. -/
def goSet {α : Type} (v : List α) (i : Int) (x : α) : Except Panic (List α) :=
  if i < 0 then .error .indexOutOfRange
  else if i.toNat < v.length then .ok (v.set i.toNat x)
  else .error .indexOutOfRange

/-- Go `len(v)`. -/
def goLen {α : Type} (v : List α) : Int := (v.length : Int)

/-- The loop `for i := start; i < start + count; i++ { s = body i s }`,
unrolled `count` times. -/
def loopFrom {σ : Type} (body : Int → σ → Except Panic σ) :
    Nat → Int → σ → Except Panic σ
  | 0, _, s => .ok s
  | k + 1, i, s =>
    match body i s with
    | .ok s' => loopFrom body k (i + 1) s'
    | .error e => .error e

/-- The loop `for i := 0; i < n; i++ { s = body i s }`. The counter stays
below `n`, itself an `int`, so `i++` never wraps. -/
def forLoop {σ : Type} (n : Int) (body : Int → σ → Except Panic σ) (s : σ) :
    Except Panic σ :=
  loopFrom body n.toNat 0 s

/-- A counting loop whose body may leave it (`break` or `return`) with a
value: `some r` leaves, `none` goes on to the next index. -/
def searchFrom {ρ : Type} (body : Int → Except Panic (Option ρ)) :
    Nat → Int → Except Panic (Option ρ)
  | 0, _ => .ok none
  | k + 1, i =>
    match body i with
    | .ok none => searchFrom body k (i + 1)
    | .ok (some r) => .ok (some r)
    | .error e => .error e

/-- The loop `for i := 0; i < n; i++ { ... }` with an early exit. -/
def searchLoop {ρ : Type} (n : Int) (body : Int → Except Panic (Option ρ)) :
    Except Panic (Option ρ) :=
  searchFrom body n.toNat 0

/-! ## The program -/

/-- `generateHammingTable(m)`, lines 79-92. -/
def generateHammingTable (m : Int) : Except Panic (List (List Int)) := do
  let n := goSub (← goShl 1 m) 1
  let table ← goMake ([] : List Int) m
  forLoop m (fun i table => do
    let row ← goMake (0 : Int) n
    let table ← goSet table i row
    let pattern ← goShl 1 i
    forLoop n (fun j table =>
      if Int.land (goAdd j 1) pattern ≠ 0 then do
        let row ← goGet table i
        let row ← goSet row j 1
        goSet table i row
      else pure table) table) table

/-- `isPowerOfTwo(n)`, lines 162-164. -/
def isPowerOfTwo (n : Int) : Bool :=
  decide (n > 0) && (Int.land n (goSub n 1) == 0)

/-- The inner loop shared by `hammingEncode` (lines 113-118) and
`findSyndrome` (lines 132-137): the XOR of `encoded[j]` over the columns
`j < bound` where `table[i][j] == 1`. -/
def rowParity (table : List (List Int)) (encoded : List Int) (i bound : Int) :
    Except Panic Int :=
  forLoop bound (fun j parity => do
    let row ← goGet table i
    let t ← goGet row j
    if t = 1 then do
      let b ← goGet encoded j
      pure (Int.xor parity b)
    else pure parity) 0

/-- `hammingEncode(infoBits, table)`, lines 94-126. -/
def hammingEncode (infoBits : List Int) (table : List (List Int)) :
    Except Panic (List Int) := do
  let m := goLen table
  let row0 ← goGet table 0
  let n := goLen row0
  let k := goLen infoBits
  if k ≠ goSub n m then throw Panic.sizeMismatch
  let encoded ← goMake (0 : Int) n
  let (encoded, _) ← forLoop n (fun i (st : List Int × Int) =>
    if !isPowerOfTwo (goAdd i 1) then do
      let b ← goGet infoBits st.2
      let encoded ← goSet st.1 i b
      pure (encoded, goAdd st.2 1)
    else pure st) (encoded, 0)
  forLoop m (fun i encoded => do
    let parity ← rowParity table encoded i n
    let pos := goSub (← goShl 1 i) 1
    if pos < n then goSet encoded pos parity else pure encoded) encoded

/-- `findSyndrome(encoded, table)`, lines 128-141. -/
def findSyndrome (encoded : List Int) (table : List (List Int)) :
    Except Panic (List Int) := do
  let m := goLen table
  let syndrome ← goMake (0 : Int) m
  forLoop m (fun i syndrome => do
    let parity ← rowParity table encoded i (goLen encoded)
    goSet syndrome i parity) syndrome

/-- `isZero(vector)`, lines 166-173. -/
def isZero : List Int → Bool
  | [] => true
  | v :: vs => if v ≠ 0 then false else isZero vs

/-- `findErrorPosition(syndrome, table)`, lines 143-160. The inner loop leaves
with `some ()` at the `break` (where `match` has just become false). -/
def findErrorPosition (syndrome : List Int) (table : List (List Int)) :
    Except Panic Int := do
  if isZero syndrome then return -1
  let row0 ← goGet table 0
  let found ← searchLoop (goLen row0) (fun j => do
    let broke ← searchLoop (goLen syndrome) (fun i => do
      let row ← goGet table i
      let t ← goGet row j
      let s ← goGet syndrome i
      pure (if t ≠ s then some () else none))
    pure (if broke.isNone then some j else none))
  pure (found.getD (-1))

/-- `compareVectors(v1, v2)`, lines 175-185. -/
def compareVectors (v1 v2 : List Int) : Except Panic Bool := do
  if goLen v1 ≠ goLen v2 then return false
  let r ← searchLoop (goLen v1) (fun i => do
    let a ← goGet v1 i
    let b ← goGet v2 i
    pure (if a ≠ b then some false else none))
  pure (r.getD true)

/-- The statement `v[pos] = 1 - v[pos]` of `main` (lines 26 and 32). -/
def flipBit (v : List Int) (pos : Int) : Except Panic (List Int) := do
  let b ← goGet v pos
  goSet v pos (goSub 1 b)

/-- What one run of `main` computes before it writes its report. -/
structure Run where
  table : List (List Int)
  encoded : List Int
  errorPos : Int
  syndrome : List Int
  errorPosition : Int
  encodedWithError : List Int
  same : Bool
  deriving DecidableEq, Repr

/-- Lines 19-33 and 61 of `main`: the run from the slice `infoBits` that
`generateCombination(k)` returned on line 18. `rnd` is the raw draw that
`rand.Intn(len(encoded))` reduces into `[0, len(encoded))`. Lines 16-18 are
in `mainFromK`. -/
def main (m : Int) (infoBits : List Int) (rnd : Nat) : Except Panic Run := do
  let table ← generateHammingTable m
  let encoded ← hammingEncode infoBits table
  if goLen encoded ≤ 0 then throw Panic.intnArgument
  let errorPos : Int := ((rnd % encoded.length : Nat) : Int)
  let encodedWithError ← flipBit encoded errorPos
  let syndrome ← findSyndrome encodedWithError table
  let errorPosition ← findErrorPosition syndrome table
  let encodedWithError ←
    if errorPosition ≠ -1 then flipBit encodedWithError errorPosition
    else pure encodedWithError
  let same ← compareVectors encoded encodedWithError
  pure { table, encoded, errorPos, syndrome, errorPosition, encodedWithError, same }

/-- `generateCombination(size)`, lines 70-76. The draws of `rand.Intn(2)` are
an input: `draws i` is the value drawn for index `i`. -/
def generateCombination (size : Int) (draws : Nat → Int) : Except Panic (List Int) := do
  let combination ← goMake (0 : Int) size
  forLoop size (fun i combination => goSet combination i (draws i.toNat)) combination

/-- Lines 16-33 and 61 of `main`. `k` stands for the value that the conversion
`int(math.Pow(2, float64(m)) - 1 - float64(m))` of line 16 yields: floating
point is not modelled, and the conversion of a float that does not fit an
`int` depends on the target, so `k` is an input. What is proved of this
function is proved for every `k`. -/
def mainFromK (m k : Int) (draws : Nat → Int) (rnd : Nat) : Except Panic Run := do
  let infoBits ← generateCombination k draws
  main m infoBits rnd

/-- Go `copy(dst, src)` on slices that do not overlap: the first
`min(len(dst), len(src))` elements of `dst` are replaced by those of `src`. -/
def goCopy {α : Type} (dst src : List α) : List α :=
  src.take (min dst.length src.length) ++ dst.drop (min dst.length src.length)

/-- Lines 24-26 of `main`: the corrupted copy. `make` returns fresh storage
and no statement of these lines assigns to `encoded`, so the original slice
still holds the argument afterwards; the result is the content of
`encodedWithError`. -/
def injectError (encoded : List Int) (errorPos : Int) : Except Panic (List Int) := do
  let encodedWithError ← goMake (0 : Int) (goLen encoded)
  let encodedWithError := goCopy encodedWithError encoded
  flipBit encodedWithError errorPos

/-- Lines 31-33 of `main`: the correction step. -/
def correctError (encodedWithError : List Int) (errorPosition : Int) :
    Except Panic (List Int) :=
  if errorPosition ≠ -1 then flipBit encodedWithError errorPosition
  else pure encodedWithError

/-! ## Loop states and closed forms

The values the program's loops hold after a given number of passes, and the
results they end with, written as plain functions. The theorems below prove
that the program computes them. -/

/-- Entry `(i, j)` of the table: 1 when bit `i` of the 1-indexed position
`j + 1` is set. -/
def tableEntry (i j : Nat) : Int := if (j + 1).testBit i then 1 else 0

/-- Row `i` of the table once its first `c` columns have been visited. -/
def partialRow (n i c : Nat) : List Int :=
  (List.range n).map (fun j => if j < c then tableEntry i j else 0)

/-- Row `i` of the finished table. -/
def tableRow (n i : Nat) : List Int := (List.range n).map (tableEntry i)

/-- The table once its first `r` rows have been filled. -/
def partialTable (m n r : Nat) : List (List Int) :=
  (List.range m).map (fun i => if i < r then tableRow n i else [])

/-- The finished table for `m` check bits. -/
def closedTable (m : Nat) : List (List Int) :=
  (List.range m).map (tableRow (2 ^ m - 1))

/-- The test `isPowerOfTwo(i + 1)` on the 0-indexed position `j`. -/
def posIsPow (j : Nat) : Bool := isPowerOfTwo ((j + 1 : Nat) : Int)

/-- The value of `infoIndex` when the first loop of `hammingEncode` reaches
position `j`: the number of earlier positions that are not powers of two. -/
def infoIndexAt (j : Nat) : Nat := List.countP (fun q => !posIsPow q) (List.range j)

/-- The value the parity loop has accumulated after `n` columns: the XOR of
`c[j]` over the columns `j < n` with `row[j] == 1`. -/
def parityOf (row c : List Int) : Nat → Int
  | 0 => 0
  | n + 1 =>
    if row.getD n 0 = 1 then Int.xor (parityOf row c n) (c.getD n 0) else parityOf row c n

/-- The codeword buffer once the placement loop has visited `c` positions. -/
def placed (info : List Int) (n c : Nat) : List Int :=
  (List.range n).map (fun j =>
    if j < c ∧ posIsPow j = false then info.getD (infoIndexAt j) 0 else 0)

/-- What the parity loop has established once rows `0 .. r-1` are done: the
information positions are untouched, the parity positions of the remaining
rows are still zero, and the finished rows check to zero. -/
def ParityInv (t : Nat) (info : List Int) (r : Nat) (enc : List Int) : Prop :=
  enc.length = 2 ^ t - 1 ∧
  (∀ j, j < 2 ^ t - 1 → posIsPow j = false → enc.getD j 0 = info.getD (infoIndexAt j) 0) ∧
  (∀ i, r ≤ i → i < t → enc.getD (2 ^ i - 1) 0 = 0) ∧
  (∀ i, i < r → parityOf (tableRow (2 ^ t - 1) i) enc (2 ^ t - 1) = 0) ∧
  ((∀ b ∈ info, b = 0 ∨ b = 1) → ∀ j, j < 2 ^ t - 1 → enc.getD j 0 = 0 ∨ enc.getD j 0 = 1)

/-- The syndrome buffer once rows `0 .. r-1` have been checked. -/
def partialSyndrome (table : List (List Int)) (c : List Int) (r : Nat) : List Int :=
  (List.range table.length).map
    (fun i => if i < r then parityOf (table.getD i []) c c.length else 0)

/-- Column `j` of the generated table, read from row 0 to row `t - 1`. -/
def column (t j : Nat) : List Int := (List.range t).map (fun i => tableEntry i j)

/-- The table of the (7,4) code, used by the worked examples. -/
def table3 : List (List Int) :=
  [[1, 0, 1, 0, 1, 0, 1], [0, 1, 1, 0, 0, 1, 1], [0, 0, 0, 1, 1, 1, 1]]

/-! ## Vocabulary of the specification -/

/-- A syndrome read as a binary number with row 0 as least significant bit:
the sum of `s[i] * 2^i`. -/
def binaryValue (s : List Int) : Int :=
  ((List.range s.length).map (fun i => s.getD i 0 * 2 ^ i)).sum

/-- The XOR of the codeword entries at the listed columns. -/
def xorAt (c : List Int) (cols : List Nat) : Int :=
  cols.foldl (fun acc j => Int.xor acc (c.getD j 0)) 0

/-- The columns, in increasing order, where a row of the table holds 1. -/
def coveredColumns (row : List Int) : List Nat :=
  (List.range row.length).filter (fun j => decide (row.getD j 0 = 1))

/-- Column `j` of a table: entry `j` of every row, from row 0 downwards. -/
def columnOf (table : List (List Int)) (j : Nat) : List Int :=
  table.map (fun row => row.getD j 0)

/-- A 1-indexed position is a power of two. The exponent of a power of two is
smaller than the power, which bounds the search. -/
def isPow2 (p : Nat) : Bool := decide (∃ i, i < p ∧ p = 2 ^ i)

end Hamming

/-!
# Caesar and Vigenere ciphers (`src/7/main.go`)

Conventions of the embedding

* A `rune` is an `Int`. A Go `string` is the list of runes that `range`
  yields on it; `strings.Builder.WriteRune` appends to that list (an invalid
  rune is written as U+FFFD, as in Go), so two strings built by the program are
  equal exactly when their lists are.
* `len(s)` and `s[i]` count and read the bytes of the UTF-8 encoding `utf8 s`.
  The program applies them only to the result of `prepareVigenereKey`, which is
  built by `WriteRune` and hence encoded by `utf8`.
* The tables of package `unicode` are a parameter (`Unicode`).
* Arithmetic on `int` wraps at 64 bits as in the Hamming codec.
-/

namespace Cipher

open Hamming (wrapInt goAdd goSub)

/-- The ways `complexCipher` and `complexDecipher` could abort: `key[i]` and
`keyIndex % len(key)`. -/
inductive Panic where
  | divideByZero
  | indexOutOfRange
  deriving DecidableEq, Repr

/-- The code point of a character constant such as `'a'` or `'ё'`. -/
def rune (c : Char) : Int := (c.toNat : Int)

/-- The conversion `rune(x)` of an `int`: its low 32 bits, signed. -/
def toRune (x : Int) : Int := (x + 2 ^ 31) % 2 ^ 32 - 2 ^ 31

/-- Go `-x` on `int`. -/
def goNeg (x : Int) : Int := wrapInt (-x)

/-- Go `x % y` for a constant `y ≠ 0`: the remainder of the division that
truncates towards zero, with the sign of `x`. -/
def goRem (x y : Int) : Int := Int.tmod x y

/-- Go `x % y` with a run-time divisor. -/
def goRemChecked (x y : Int) : Except Panic Int :=
  if y = 0 then .error .divideByZero else .ok (wrapInt (Int.tmod x y))

/-- The runes of a string constant. -/
def str (s : String) : List Int := s.toList.map rune

/-- The functions of package `unicode` the program calls. -/
structure Unicode where
  isLetter : Int → Bool
  isSpace : Int → Bool
  toLower : Int → Int

/-- `unicode.IsLetter`, `unicode.IsSpace` and `unicode.ToLower` on the Basic
Latin block and on the Russian alphabet (`А`-`я`, `Ё`, `ё`); every other code
point is taken to be neither letter nor space. Used to run the program on
texts made of these characters. -/
def russianLatin : Unicode where
  isLetter r := decide ((rune 'A' ≤ r ∧ r ≤ rune 'Z') ∨ (rune 'a' ≤ r ∧ r ≤ rune 'z') ∨
    (rune 'А' ≤ r ∧ r ≤ rune 'я') ∨ r = rune 'Ё' ∨ r = rune 'ё')
  isSpace r := decide (r = 9 ∨ r = 10 ∨ r = 11 ∨ r = 12 ∨ r = 13 ∨ r = 32)
  toLower r :=
    if rune 'A' ≤ r ∧ r ≤ rune 'Z' then r + 32
    else if rune 'А' ≤ r ∧ r ≤ rune 'Я' then r + 32
    else if r = rune 'Ё' then rune 'ё'
    else r

/-- `utf8.EncodeRune`, with bytes as `Int`s in `[0, 256)`. -/
def encodeRune (r : Int) : List Int :=
  if 0 ≤ r ∧ r ≤ 0x7F then [r]
  else if 0 ≤ r ∧ r ≤ 0x7FF then [0xC0 + r / 64, 0x80 + r % 64]
  else if r < 0 ∨ 0x10FFFF < r ∨ (0xD800 ≤ r ∧ r ≤ 0xDFFF) then [0xEF, 0xBF, 0xBD]
  else if r ≤ 0xFFFF then [0xE0 + r / 4096, 0x80 + r / 64 % 64, 0x80 + r % 64]
  else [0xF0 + r / 262144, 0x80 + r / 4096 % 64, 0x80 + r / 64 % 64, 0x80 + r % 64]

/-- The bytes of a string. -/
def utf8 (s : List Int) : List Int := (s.map encodeRune).flatten

/-- Go `len(s)` on a string. -/
def strLen (s : List Int) : Int := ((utf8 s).length : Int)

/-- Go `rune(s[i])` on a string: the byte at index `i`. -/
def byteAt (s : List Int) (i : Int) : Except Panic Int :=
  if i < 0 then .error .indexOutOfRange
  else match (utf8 s).get? i.toNat with
    | some b => .ok b
    | none => .error .indexOutOfRange

/-- `strings.Builder.WriteRune`. -/
def writeRune (result : List Int) (r : Int) : List Int :=
  result ++ [if r < 0 ∨ 0x10FFFF < r ∨ (0xD800 ≤ r ∧ r ≤ 0xDFFF) then 0xFFFD else r]

/-- `strings.ToLower`. -/
def toLowerString (u : Unicode) (s : List Int) : List Int := s.map u.toLower

/-- `preprocessText(text)`, lines 12-21. -/
def preprocessText (u : Unicode) (text : List Int) : List Int :=
  (toLowerString u text).foldl
    (fun result r => if u.isLetter r || u.isSpace r then writeRune result r else result) []

/-- `simpleCipher(text, key)`, lines 24-49. -/
def simpleCipher (text : List Int) (key : Int) : List Int :=
  text.foldl (fun result r =>
    if r ≥ rune 'a' ∧ r ≤ rune 'z' then
      let shifted := goRem (goAdd (goRem (goAdd (goSub r (rune 'a')) key) 26) 26) 26
      writeRune result (toRune (goAdd (rune 'a') shifted))
    else if r ≥ rune 'а' ∧ r ≤ rune 'я' then
      let shifted := goRem (goAdd (goRem (goAdd (goSub r (rune 'а')) key) 32) 32) 32
      writeRune result (toRune (goAdd (rune 'а') shifted))
    else if r = rune 'ё' then
      let baseChar := rune 'е'
      let shifted := goRem (goAdd (goRem (goAdd (goSub baseChar (rune 'а')) key) 32) 32) 32
      let shiftedChar := toRune (goAdd (rune 'а') shifted)
      if shiftedChar = rune 'е' then writeRune result (rune 'ё')
      else writeRune result shiftedChar
    else writeRune result r) []

/-- `simpleDecipher(text, key)`, lines 52-54. -/
def simpleDecipher (text : List Int) (key : Int) : List Int :=
  simpleCipher text (goNeg key)

/-- `getLetterPosition(r)`, lines 57-66. The subtractions are on `rune`. -/
def getLetterPosition (r : Int) : Int :=
  if r ≥ rune 'a' ∧ r ≤ rune 'z' then toRune (r - rune 'a')
  else if r ≥ rune 'а' ∧ r ≤ rune 'я' then toRune (r - rune 'а')
  else if r = rune 'ё' then toRune (rune 'е' - rune 'а')
  else 0

/-- `shiftLetter(r, shift)`, lines 69-85. -/
def shiftLetter (r : Int) (shift : Int) : Int :=
  if r ≥ rune 'a' ∧ r ≤ rune 'z' then
    let shifted := goRem (goAdd (goRem (goAdd (goSub r (rune 'a')) shift) 26) 26) 26
    toRune (goAdd (rune 'a') shifted)
  else if r ≥ rune 'а' ∧ r ≤ rune 'я' then
    let shifted := goRem (goAdd (goRem (goAdd (goSub r (rune 'а')) shift) 32) 32) 32
    toRune (goAdd (rune 'а') shifted)
  else if r = rune 'ё' then
    let shifted := goRem (goAdd (goRem (goAdd (goSub (rune 'е') (rune 'а')) shift) 32) 32) 32
    let result := toRune (goAdd (rune 'а') shifted)
    if result = rune 'е' then rune 'ё' else result
  else r

/-- The default key `"ключ"`. -/
def defaultKey : List Int := [rune 'к', rune 'л', rune 'ю', rune 'ч']

/-- `prepareVigenereKey(key)`, lines 88-101. -/
def prepareVigenereKey (u : Unicode) (key : List Int) : List Int :=
  let key := toLowerString u key
  let result := key.foldl
    (fun filtered r => if u.isLetter r then writeRune filtered r else filtered) []
  if strLen result = 0 then defaultKey else result

/-- The loop shared by `complexCipher` (lines 110-123) and `complexDecipher`
(lines 135-148), which differ in the sign given to the shift only: `sign` is
the identity in the first and `goNeg` in the second. -/
def vigenereLoop (u : Unicode) (sign : Int → Int) (text key : List Int) :
    Except Panic (List Int) := do
  let st ← text.foldlM (fun (st : List Int × Int) r =>
    if u.isLetter r then do
      let i ← goRemChecked st.2 (strLen key)
      let keyChar ← byteAt key i
      let shift := sign (getLetterPosition keyChar)
      let shifted := shiftLetter r shift
      pure (writeRune st.1 shifted, goAdd st.2 1)
    else pure (writeRune st.1 r, st.2)) (([] : List Int), (0 : Int))
  pure st.1

/-- `complexCipher(text, key)`, lines 104-126. -/
def complexCipher (u : Unicode) (text key : List Int) : Except Panic (List Int) :=
  vigenereLoop u (fun shift => shift) text (prepareVigenereKey u key)

/-- `complexDecipher(text, key)`, lines 129-151. -/
def complexDecipher (u : Unicode) (text key : List Int) : Except Panic (List Int) :=
  vigenereLoop u goNeg text (prepareVigenereKey u key)

/-- The two correctness checks `main` reports (lines 167, 181-199, 232-233):
whether the simple and the complex decipherment give the processed text back. -/
def correctnessChecks (u : Unicode) (originalText : List Int) (simpleKey : Int)
    (complexKeyInput : List Int) : Except Panic (Bool × Bool) := do
  let processedText := preprocessText u originalText
  let complexKeyInput := if complexKeyInput = [] then defaultKey else complexKeyInput
  let complexKey := prepareVigenereKey u complexKeyInput
  let simpleCiphered := simpleCipher processedText simpleKey
  let simpleDeciphered := simpleDecipher simpleCiphered simpleKey
  let complexCiphered ← complexCipher u processedText complexKey
  let complexDeciphered ← complexDecipher u complexCiphered complexKey
  pure (decide (simpleDeciphered = processedText), decide (complexDeciphered = processedText))

/-- The cipher that claim C16 describes: the `i`-th letter of the text is
shifted by the alphabet position of the `i mod L`-th rune of the prepared key,
`L` being the number of its runes; everything else is copied. -/
def vigenereByRunes (u : Unicode) (text key : List Int) : List Int :=
  let k := prepareVigenereKey u key
  (text.foldl (fun (st : List Int × Nat) r =>
    if u.isLetter r then
      (st.1 ++ [shiftLetter r (getLetterPosition (k.getD (st.2 % k.length) 0))], st.2 + 1)
    else (st.1 ++ [r], st.2)) (([] : List Int), 0)).1

end Cipher

/-!
# Prime sieves (`src/firstTest/main.go`)

Conventions of the embedding

* `int` is 64 bits wide and its arithmetic wraps, as in the Hamming codec; a
  `[]bool` is a `List Bool`, a `[]int` a `List Int`.
* A loop whose number of passes is not fixed on entry is followed for at most
  `fuel` passes; a run that needs more ends in `Stop.outOfFuel`, which is an
  outcome of the model, not of the program. The theorems give the fuel that is
  enough.
* `int(math.Sqrt(float64(n)))` is taken to be the integer square root of `n`.
-/

namespace Sieve

open Hamming (wrapInt goAdd goSub)

/-- The ways a run is stopped: the panics of the Go runtime, and the model's
own `outOfFuel`. -/
inductive Stop where
  | makeLenOutOfRange
  | indexOutOfRange
  | sliceBoundsOutOfRange
  | divideByZero
  | outOfFuel
  deriving DecidableEq, Repr

/-- Go `x * y` on `int`. -/
def goMul (x y : Int) : Int := wrapInt (x * y)

/-- Go `x / y` on `int`: the quotient truncated towards zero. -/
def goDiv (x y : Int) : Except Stop Int :=
  if y = 0 then .error .divideByZero else .ok (wrapInt (Int.tdiv x y))

/-- Go `make([]T, n)` with every element the zero value `z`. -/
def goMake {α : Type} (z : α) (n : Int) : Except Stop (List α) :=
  if n < 0 then .error .makeLenOutOfRange else .ok (List.replicate n.toNat z)

/-- Go `v[i]` as an rvalue. -/
def goGet {α : Type} (v : List α) (i : Int) : Except Stop α :=
  if i < 0 then .error .indexOutOfRange
  else match v.get? i.toNat with
    | some x => .ok x
    | none => .error .indexOutOfRange

/-- Go `v[i] = x`. -/
def goSet {α : Type} (v : List α) (i : Int) (x : α) : Except Stop (List α) :=
  if i < 0 then .error .indexOutOfRange
  else if i.toNat < v.length then .ok (v.set i.toNat x)
  else .error .indexOutOfRange

/-- Go `len(v)`. -/
def goLen {α : Type} (v : List α) : Int := (v.length : Int)

/-- The loop `for i := range v[:count] { s = body i s }`: `count` passes with
`i = start, start + 1, ...`. -/
def forRange {σ : Type} (body : Int → σ → Except Stop σ) : Nat → Int → σ → Except Stop σ
  | 0, _, s => .ok s
  | k + 1, i, s =>
    match body i s with
    | .ok s' => forRange body k (i + 1) s'
    | .error e => .error e

/-- The loop `for i := start; cond(i); i = post(i) { s = body i s }`. -/
def forCond {σ : Type} (cond : Int → Bool) (post : Int → Int)
    (body : Int → σ → Except Stop σ) : Nat → Int → σ → Except Stop σ
  | 0, _, _ => .error .outOfFuel
  | fuel + 1, i, s =>
    if cond i then
      match body i s with
      | .ok s' => forCond cond post body fuel (post i) s'
      | .error e => .error e
    else .ok s

/-- The loop `for cond(s) { s = body s }`. -/
def whileLoop {σ : Type} (cond : σ → Bool) (body : σ → Except Stop σ) :
    Nat → σ → Except Stop σ
  | 0, _ => .error .outOfFuel
  | fuel + 1, s =>
    if cond s then
      match body s with
      | .ok s' => whileLoop cond body fuel s'
      | .error e => .error e
    else .ok s

/-- The value of `int(math.Sqrt(float64(n)))` for `n ≥ 0`, taken as the
integer square root. -/
def isqrt (n : Int) : Int := (Nat.sqrt n.toNat : Int)

/-- `sieveOfEratosthenes(n)`, lines 17-39. -/
def sieveOfEratosthenes (fuel : Nat) (n : Int) : Except Stop (List Int) := do
  let isPrime ← goMake false (goAdd n 1)
  let isPrime ← forRange (fun i isPrime => goSet isPrime i true) isPrime.length 0 isPrime
  let isPrime ← goSet isPrime 0 false
  let isPrime ← goSet isPrime 1 false
  let isPrime ← forCond (fun i => decide (goMul i i ≤ n)) (fun i => goAdd i 1)
    (fun i isPrime => do
      if (← goGet isPrime i) then
        forCond (fun j => decide (j ≤ n)) (fun j => goAdd j i)
          (fun j isPrime => goSet isPrime j false) fuel (goMul i i) isPrime
      else pure isPrime) fuel 2 isPrime
  forCond (fun i => decide (i ≤ n)) (fun i => goAdd i 1)
    (fun i primes => do
      if (← goGet isPrime i) then pure (primes ++ [i]) else pure primes) fuel 2 []

/-- `simpleSieve(n)`, lines 42-64. -/
def simpleSieve (fuel : Nat) (n : Int) : Except Stop (List Int) := do
  let isPrime ← goMake false (goAdd n 1)
  let isPrime ← forRange (fun i isPrime => goSet isPrime i true) isPrime.length 0 isPrime
  let isPrime ← goSet isPrime 0 false
  let isPrime ← goSet isPrime 1 false
  let isPrime ← forCond (fun i => decide (goMul i i ≤ n)) (fun i => goAdd i 1)
    (fun i isPrime => do
      if (← goGet isPrime i) then
        forCond (fun j => decide (j ≤ n)) (fun j => goAdd j i)
          (fun j isPrime => goSet isPrime j false) fuel (goMul i i) isPrime
      else pure isPrime) fuel 2 isPrime
  forCond (fun i => decide (i ≤ n)) (fun i => goAdd i 1)
    (fun i primes => do
      if (← goGet isPrime i) then pure (primes ++ [i]) else pure primes) fuel 2 []

/-- The variables the segment loop of `segmentedSieve` updates. -/
structure SegState where
  low : Int
  high : Int
  primes : List Int
  segment : List Bool

/-- One pass of the segment loop of `segmentedSieve`, lines 88-122. -/
def segmentPass (fuel : Nat) (n : Int) (basePrimes : List Int) (segmentSize : Int)
    (st : SegState) : Except Stop SegState := do
  let high := if st.high > n then n else st.high
  let count := goAdd (goSub high st.low) 1
  if count < 0 ∨ count > goLen st.segment then throw Stop.sliceBoundsOutOfRange
  let segment ← forRange (fun i segment => goSet segment i true) count.toNat 0 st.segment
  let segment ← basePrimes.foldlM (fun segment p => do
    let start := goMul (← goDiv st.low p) p
    let start := if start < st.low then goAdd start p else start
    let start := if start = p then goAdd start p else start
    forCond (fun j => decide (j ≤ high)) (fun j => goAdd j p)
      (fun j segment => goSet segment (goSub j st.low) false) fuel start segment) segment
  let primes ← forCond (fun i => decide (i ≤ high)) (fun i => goAdd i 1)
    (fun i primes => do
      if (← goGet segment (goSub i st.low)) then pure (primes ++ [i]) else pure primes)
    fuel st.low st.primes
  pure { low := goAdd st.low segmentSize, high := goAdd high segmentSize, primes, segment }

/-- `segmentedSieve(n)`, lines 67-126. -/
def segmentedSieve (fuel : Nat) (n : Int) : Except Stop (List Int) := do
  if n < 2 then return []
  let limit := goAdd (isqrt n) 1
  let basePrimes ← simpleSieve fuel limit
  let primes := ([] : List Int) ++ basePrimes
  let segmentSize : Int := 32768
  let segment ← goMake false segmentSize
  let low := limit
  let high := goSub (goAdd low segmentSize) 1
  let st ← whileLoop (fun st => decide (st.low ≤ n)) (segmentPass fuel n basePrimes segmentSize)
    fuel { low, high, primes, segment }
  pure st.primes

/-- `optimizedSieveOfEratosthenes(n)`, lines 129-161. -/
def optimizedSieveOfEratosthenes (fuel : Nat) (n : Int) : Except Stop (List Int) := do
  if n < 2 then return []
  let primes : List Int := [2]
  if n = 2 then return primes
  let limit ← goDiv (goSub n 1) 2
  let isPrime ← goMake false (goAdd limit 1)
  let isPrime ← forRange (fun i isPrime => goSet isPrime i true) isPrime.length 0 isPrime
  let isPrime ← forCond (fun i => decide (goMul (goMul 2 i) i ≤ limit)) (fun i => goAdd i 1)
    (fun i isPrime => do
      if (← goGet isPrime i) then
        let p := goAdd (goMul 2 i) 1
        forCond (fun j => decide (j ≤ limit)) (fun j => goAdd j p)
          (fun j isPrime => goSet isPrime j false) fuel (goMul (goMul 2 i) (goAdd i 1)) isPrime
      else pure isPrime) fuel 1 isPrime
  forCond (fun i => decide (i ≤ limit)) (fun i => goAdd i 1)
    (fun i primes => do
      if (← goGet isPrime i) then pure (primes ++ [goAdd (goMul 2 i) 1]) else pure primes)
    fuel 1 primes

/-! ## Loop states of the sieves -/

/-- The entry `k` of the array of `sieveOfEratosthenes` when the outer loop
reaches `i`: it is still `true` exactly when `k ≥ 2` and no `d` with
`2 ≤ d < i` and `d * d ≤ k` divides `k`. -/
def Unmarked (i k : Nat) : Prop :=
  2 ≤ k ∧ ∀ d, 2 ≤ d → d < i → d * d ≤ k → ¬ d ∣ k

/-- The array of `sieveOfEratosthenes(n)` when the outer loop reaches `i`. -/
def SieveInv (n i : Nat) (a : List Bool) : Prop :=
  a.length = n + 1 ∧ ∀ k, k ≤ n → (a.getD k false = true ↔ Unmarked i k)

/-- The primes `p` with `2 ≤ p ≤ n`, in increasing order. -/
def primesUpTo (n : Nat) : List Int :=
  ((List.range' 2 (n - 1)).filter (fun k => decide (Nat.Prime k))).map Int.ofNat

/-- The entry `k` of the array of `optimizedSieveOfEratosthenes`, which stands
for the odd number `2k + 1`, when the outer loop reaches `i`: it is still
`true` exactly when no `2e + 1` with `1 ≤ e < i` and `(2e + 1)² ≤ 2k + 1`
divides `2k + 1`. -/
def UnmarkedOdd (i k : Nat) : Prop :=
  ∀ e, 1 ≤ e → e < i → 2 * e * (e + 1) ≤ k → ¬ (2 * e + 1) ∣ (2 * k + 1)

/-- The array of `optimizedSieveOfEratosthenes` with `limit = L` when the outer
loop reaches `i`. -/
def OddInv (L i : Nat) (a : List Bool) : Prop :=
  a.length = L + 1 ∧ ∀ k, 1 ≤ k → k ≤ L → (a.getD k false = true ↔ UnmarkedOdd i k)

end Sieve

namespace Hamming

/-! ## Facts about the primitives -/

theorem wrapInt_of_range {x : Int} (h1 : -2 ^ 63 ≤ x) (h2 : x < 2 ^ 63) : wrapInt x = x := by
  unfold wrapInt
  omega

theorem two_pow_lt_of_le {t b : Nat} (h : t ≤ b) : (2 : Int) ^ t < 2 ^ (b + 1) := by
  have : (2 : Nat) ^ t < 2 ^ (b + 1) := Nat.pow_lt_pow_right (by decide) (by omega)
  exact_mod_cast this

theorem two_pow_le_of_le {t : Nat} (h : t ≤ 63) : ((2 ^ t : Nat) : Int) ≤ 2 ^ 63 := by
  have : (2 : Nat) ^ t ≤ 2 ^ 63 := Nat.pow_le_pow_right (by decide) h
  exact_mod_cast this

theorem goShl_one_nat {t : Nat} (h : t ≤ 62) : goShl 1 (t : Int) = .ok ((2 : Int) ^ t) := by
  have h2 : (2 : Int) ^ t < 2 ^ 63 := two_pow_lt_of_le h
  have h0 : (0 : Int) < 2 ^ t := by positivity
  have hneg : ¬ ((t : Int) < 0) := by omega
  simp only [goShl, hneg, if_false, Int.toNat_ofNat, one_mul]
  rw [wrapInt_of_range (by omega) h2]

theorem goAdd_of_range {x y : Int} (h1 : -2 ^ 63 ≤ x + y) (h2 : x + y < 2 ^ 63) :
    goAdd x y = x + y := wrapInt_of_range h1 h2

theorem goSub_of_range {x y : Int} (h1 : -2 ^ 63 ≤ x - y) (h2 : x - y < 2 ^ 63) :
    goSub x y = x - y := wrapInt_of_range h1 h2

theorem goGet_nat {α : Type} (v : List α) (t : Nat) (h : t < v.length) :
    goGet v (t : Int) = .ok v[t] := by
  have hneg : ¬ ((t : Int) < 0) := by omega
  simp [goGet, hneg, List.getElem?_eq_getElem h]

theorem goSet_nat {α : Type} (v : List α) (t : Nat) (x : α) (h : t < v.length) :
    goSet v (t : Int) x = .ok (v.set t x) := by
  have hneg : ¬ ((t : Int) < 0) := by omega
  simp [goSet, hneg, h]

theorem goMake_nat {α : Type} (z : α) (t : Nat) :
    goMake z (t : Int) = .ok (List.replicate t z) := by
  have hneg : ¬ ((t : Int) < 0) := by omega
  simp [goMake, hneg]

/-! ## Loop rules -/

/-- Total-correctness rule for the counting loop: an invariant that holds at
entry and that every iteration re-establishes (without panicking) holds at
exit, and the loop does exit normally. -/
theorem loopFrom_inv {σ : Type} (body : Int → σ → Except Panic σ) (Inv : Nat → σ → Prop)
    (k : Nat) (start : Int)
    (hstep : ∀ t, t < k → ∀ s, Inv t s → ∃ s', body (start + t) s = .ok s' ∧ Inv (t + 1) s') :
    ∀ (c : Nat) (s : σ), c ≤ k → Inv (k - c) s →
      ∃ s', loopFrom body c (start + ((k - c : Nat) : Int)) s = .ok s' ∧ Inv k s' := by
  intro c
  induction c with
  | zero =>
    intro s _ h
    exact ⟨s, rfl, by simpa using h⟩
  | succ c ih =>
    intro s hc h
    obtain ⟨s1, hb, h1⟩ := hstep (k - (c + 1)) (by omega) s h
    have e : k - (c + 1) + 1 = k - c := by omega
    rw [e] at h1
    obtain ⟨s2, hl, h2⟩ := ih s1 (by omega) h1
    refine ⟨s2, ?_, h2⟩
    have e2 : start + ((k - (c + 1) : Nat) : Int) + 1 = start + ((k - c : Nat) : Int) := by omega
    simp only [loopFrom, hb, e2, hl]

theorem forLoop_inv {σ : Type} (body : Int → σ → Except Panic σ) (Inv : Nat → σ → Prop)
    (k : Nat) (s : σ) (h0 : Inv 0 s)
    (hstep : ∀ t, t < k → ∀ s, Inv t s → ∃ s', body (t : Int) s = .ok s' ∧ Inv (t + 1) s') :
    ∃ s', forLoop (k : Int) body s = .ok s' ∧ Inv k s' := by
  have := loopFrom_inv body Inv k 0 (by simpa using hstep) k s (le_refl k) (by simpa using h0)
  simpa [forLoop] using this

/-- The same rule, concluding with the value the loop returns. -/
theorem forLoop_eq {σ : Type} (body : Int → σ → Except Panic σ) (Inv : Nat → σ → Prop)
    (k : Nat) (s r : σ) (h0 : Inv 0 s)
    (hstep : ∀ t, t < k → ∀ s, Inv t s → ∃ s', body (t : Int) s = .ok s' ∧ Inv (t + 1) s')
    (hfinal : ∀ s', Inv k s' → s' = r) :
    forLoop (k : Int) body s = .ok r := by
  obtain ⟨s', hs, hinv⟩ := forLoop_inv body Inv k s h0 hstep
  rw [hs, hfinal s' hinv]

theorem ok_bind {α β : Type} (a : α) (f : α → Except Panic β) :
    ((Except.ok a : Except Panic α) >>= f) = f a := rfl

theorem error_bind {α β : Type} (e : Panic) (f : α → Except Panic β) :
    ((Except.error e : Except Panic α) >>= f) = Except.error e := rfl

theorem pure_eq_ok {α : Type} (a : α) : (pure a : Except Panic α) = Except.ok a := rfl

theorem throw_eq_error {α : Type} (e : Panic) : (throw e : Except Panic α) = Except.error e := rfl

/-- A search whose body declines at every index runs to the end. -/
theorem searchFrom_none {ρ : Type} (body : Int → Except Panic (Option ρ)) :
    ∀ (k : Nat) (start : Int), (∀ t, t < k → body (start + t) = .ok none) →
      searchFrom body k start = .ok none := by
  intro k
  induction k with
  | zero => intro _ _; rfl
  | succ k ih =>
    intro start h
    have h0 := h 0 (by omega)
    simp only [Nat.cast_zero, add_zero] at h0
    simp only [searchFrom, h0]
    apply ih
    intro t ht
    have := h (t + 1) (by omega)
    rw [← this]
    congr 1
    push_cast
    ring

/-- A search leaves at the first index where its body accepts. -/
theorem searchFrom_first {ρ : Type} (body : Int → Except Panic (Option ρ)) (r : ρ) :
    ∀ (k : Nat) (start : Int) (p : Nat), p < k →
      (∀ t, t < p → body (start + t) = .ok none) → body (start + p) = .ok (some r) →
      searchFrom body k start = .ok (some r) := by
  intro k
  induction k with
  | zero => intro _ p hp; omega
  | succ k ih =>
    intro start p hp hbefore hat
    cases p with
    | zero =>
      simp only [Nat.cast_zero, add_zero] at hat
      simp only [searchFrom, hat]
    | succ p =>
      have h0 := hbefore 0 (by omega)
      simp only [Nat.cast_zero, add_zero] at h0
      simp only [searchFrom, h0]
      apply ih (start + 1) p (by omega)
      · intro t ht
        have := hbefore (t + 1) (by omega)
        rw [← this]
        congr 1
        push_cast
        ring
      · rw [← hat]
        congr 1
        push_cast
        ring

/-! ## The parity-check table in closed form -/

theorem partialRow_zero (n i : Nat) : partialRow n i 0 = List.replicate n 0 := by
  apply List.ext_getElem
  · simp [partialRow]
  · intro j h1 h2
    simp [partialRow]

theorem partialRow_full (n i : Nat) : partialRow n i n = tableRow n i := by
  apply List.ext_getElem
  · simp [partialRow, tableRow]
  · intro j h1 h2
    have : j < n := by simpa [partialRow] using h1
    simp [partialRow, tableRow, this]

theorem partialRow_succ_set (n i c : Nat) (h : (c + 1).testBit i = true) :
    partialRow n i (c + 1) = (partialRow n i c).set c 1 := by
  apply List.ext_getElem
  · simp [partialRow]
  · intro j h1 h2
    simp only [partialRow, List.getElem_map, List.getElem_range, List.getElem_set]
    by_cases hj : c = j
    · subst hj
      simp [tableEntry, h]
    · have e : (j < c + 1) = (j < c) := by
        apply propext
        omega
      simp [hj, e]

theorem partialRow_succ_keep (n i c : Nat) (h : (c + 1).testBit i = false) :
    partialRow n i (c + 1) = partialRow n i c := by
  apply List.ext_getElem
  · simp [partialRow]
  · intro j h1 h2
    simp only [partialRow, List.getElem_map, List.getElem_range]
    by_cases hj : j = c
    · subst hj
      simp [tableEntry, h]
    · have e : (j < c + 1) = (j < c) := by
        apply propext
        omega
      simp [e]

theorem partialTable_zero (m n : Nat) : partialTable m n 0 = List.replicate m [] := by
  apply List.ext_getElem
  · simp [partialTable]
  · intro j h1 h2
    simp [partialTable]

theorem partialTable_full (m : Nat) : partialTable m (2 ^ m - 1) m = closedTable m := by
  apply List.ext_getElem
  · simp [partialTable, closedTable]
  · intro j h1 h2
    have : j < m := by simpa [partialTable] using h1
    simp [partialTable, closedTable, this]

theorem partialTable_succ (m n r : Nat) :
    (partialTable m n r).set r (tableRow n r) = partialTable m n (r + 1) := by
  apply List.ext_getElem
  · simp [partialTable]
  · intro j h1 h2
    simp only [partialTable, List.getElem_map, List.getElem_range, List.getElem_set]
    by_cases hj : r = j
    · subst hj
      simp
    · by_cases hlt : j < r
      · have : j < r + 1 := by omega
        simp [hj, hlt, this]
      · have : ¬ j < r + 1 := by omega
        simp [hj, hlt, this]

/-! ## `generateHammingTable` computes the closed form -/

theorem land_two_pow_ne_zero (a r : Nat) :
    Int.land (a : Int) ((2 : Int) ^ r) ≠ 0 ↔ a.testBit r = true := by
  have e : (2 : Int) ^ r = ((2 ^ r : Nat) : Int) := by push_cast; rfl
  rw [e]
  show ((a &&& 2 ^ r : Nat) : Int) ≠ 0 ↔ _
  rw [Nat.and_two_pow]
  cases h : a.testBit r <;> simp

theorem cast_two_pow_sub_one (t : Nat) : ((2 ^ t - 1 : Nat) : Int) = (2 : Int) ^ t - 1 := by
  have : 1 ≤ 2 ^ t := Nat.one_le_two_pow
  push_cast [Nat.cast_sub this]
  rfl

/-- The width `n := 1<<m - 1` for `m ≤ 63`; at `m = 63` both the shift and the
subtraction wrap and the result is still `2^63 - 1`. -/
theorem tableWidth {t : Nat} (h63 : t ≤ 63) :
    ∃ x, goShl 1 (t : Int) = .ok x ∧ goSub x 1 = ((2 ^ t - 1 : Nat) : Int) := by
  by_cases h : t ≤ 62
  · refine ⟨_, goShl_one_nat h, ?_⟩
    have h2 : (2 : Int) ^ t < 2 ^ 63 := two_pow_lt_of_le h
    have h0 : (0 : Int) < 2 ^ t := by positivity
    rw [goSub_of_range (by omega) (by omega), cast_two_pow_sub_one]
  · have e : t = 63 := by omega
    subst e
    exact ⟨_, rfl, by decide⟩

theorem two_pow_sub_one_lt {t : Nat} (h63 : t ≤ 63) : ((2 ^ t - 1 : Nat) : Int) < 2 ^ 63 := by
  rw [cast_two_pow_sub_one]
  have : (2 : Int) ^ t < 2 ^ (63 + 1) := two_pow_lt_of_le h63
  have h0 : (0 : Int) < 2 ^ t := by positivity
  by_cases h : t ≤ 62
  · have h2 : (2 : Int) ^ t < 2 ^ 63 := two_pow_lt_of_le h
    omega
  · have e : t = 63 := by omega
    subst e
    omega

/-- The column loop of `generateHammingTable` (lines 85-89) on row `r`. -/
theorem fillRow (tbl : List (List Int)) (n r : Nat) (hr : r < tbl.length)
    (hn : (n : Int) < 2 ^ 63) :
    forLoop (n : Int) (fun j table =>
      if Int.land (goAdd j 1) ((2 : Int) ^ r) ≠ 0 then do
        let row ← goGet table (r : Int)
        let row ← goSet row j 1
        goSet table (r : Int) row
      else pure table) (tbl.set r (List.replicate n 0))
      = .ok (tbl.set r (tableRow n r)) := by
  refine forLoop_eq _ (fun c table => table = tbl.set r (partialRow n r c)) n _ _ ?_ ?_ ?_
  · show _ = _
    rw [partialRow_zero]
  · intro c hc table htable
    subst htable
    have hadd : goAdd (c : Int) 1 = ((c + 1 : Nat) : Int) := by
      rw [goAdd_of_range (by omega) (by omega)]
      push_cast
      rfl
    have hlen : r < (tbl.set r (partialRow n r c)).length := by simpa using hr
    have hclen : c < (partialRow n r c).length := by simpa [partialRow] using hc
    beta_reduce
    by_cases hb : (c + 1).testBit r = true
    · have hl : Int.land ((c + 1 : Nat) : Int) ((2 : Int) ^ r) ≠ 0 :=
        (land_two_pow_ne_zero _ _).2 hb
      refine ⟨tbl.set r (partialRow n r (c + 1)), ?_, rfl⟩
      rw [hadd, if_pos hl, goGet_nat _ r hlen, ok_bind, List.getElem_set_self,
        goSet_nat _ c 1 hclen, ok_bind, goSet_nat _ r _ hlen, List.set_set,
        partialRow_succ_set n r c hb]
    · have hb2 : (c + 1).testBit r = false := by simpa using hb
      have hl : ¬ Int.land ((c + 1 : Nat) : Int) ((2 : Int) ^ r) ≠ 0 := by
        rw [land_two_pow_ne_zero]
        simp [hb2]
      refine ⟨tbl.set r (partialRow n r c), ?_, by rw [partialRow_succ_keep n r c hb2]⟩
      rw [hadd, if_neg hl]
      rfl
  · intro s' hs'
    rw [hs', partialRow_full]

theorem generateHammingTable_eq {t : Nat} (h63 : t ≤ 63) :
    generateHammingTable (t : Int) = .ok (closedTable t) := by
  obtain ⟨x, hx, hn⟩ := tableWidth h63
  have hnlt := two_pow_sub_one_lt h63
  unfold generateHammingTable
  rw [hx, ok_bind, hn, goMake_nat, ok_bind]
  refine forLoop_eq _ (fun r table => table = partialTable t (2 ^ t - 1) r) t _ _ ?_ ?_ ?_
  · show _ = _
    rw [partialTable_zero]
  · intro r hr table htable
    subst htable
    have hlen : r < (partialTable t (2 ^ t - 1) r).length := by simpa [partialTable] using hr
    refine ⟨partialTable t (2 ^ t - 1) (r + 1), ?_, rfl⟩
    beta_reduce
    rw [goMake_nat, ok_bind, goSet_nat _ r _ hlen, ok_bind, goShl_one_nat (by omega), ok_bind,
      fillRow _ _ r hlen hnlt, partialTable_succ]
  · intro s' hs'
    rw [hs', partialTable_full]

/-- For `m ≥ 64` the shift `1<<m` has lost its only bit: `n` is `-1` and the
first `make([]int, n)` panics. -/
theorem generateHammingTable_of_ge_64 {m : Int} (h : 64 ≤ m) :
    generateHammingTable m = .error .makeLenOutOfRange := by
  obtain ⟨t, rfl⟩ : ∃ t : Nat, m = ((t + 64 : Nat) : Int) := ⟨(m - 64).toNat, by omega⟩
  have hneg : ¬ (((t + 64 : Nat) : Int) < 0) := by omega
  have hshl : goShl 1 ((t + 64 : Nat) : Int) = .ok 0 := by
    simp only [goShl, hneg, if_false, Int.toNat_ofNat, one_mul, wrapInt]
    have e : (2 : Int) ^ (t + 64) = 2 ^ 64 * 2 ^ t := by ring
    rw [e, add_comm, Int.add_mul_emod_self_left]
    rfl
  unfold generateHammingTable
  rw [hshl, ok_bind, goMake_nat, ok_bind]
  rfl

theorem generateHammingTable_of_neg {m : Int} (h : m < 0) :
    generateHammingTable m = .error .negativeShift := by
  simp [generateHammingTable, goShl, h]
  rfl

/-! ## Powers of two -/

theorem and_pred_eq_zero_iff (p : Nat) (hp : 0 < p) :
    p &&& (p - 1) = 0 ↔ ∃ i, p = 2 ^ i := by
  constructor
  · induction p using Nat.strong_induction_on with
    | _ p ih =>
      intro h
      have hdiv : (p / 2) &&& ((p - 1) / 2) = 0 := by
        rw [← Nat.and_div_two, h]
      by_cases hodd : p % 2 = 1
      · have e : (p - 1) / 2 = p / 2 := by omega
        rw [e, Nat.and_self] at hdiv
        exact ⟨0, by omega⟩
      · have e : (p - 1) / 2 = p / 2 - 1 := by omega
        rw [e] at hdiv
        obtain ⟨i, hi⟩ := ih (p / 2) (by omega) (by omega) hdiv
        refine ⟨i + 1, ?_⟩
        rw [pow_succ, ← hi]
        omega
  · rintro ⟨i, rfl⟩
    rw [Nat.and_pow_two_sub_one_eq_mod, Nat.mod_self]

theorem posIsPow_iff (j : Nat) (hj : ((j + 1 : Nat) : Int) < 2 ^ 63) :
    posIsPow j = true ↔ ∃ i, j + 1 = 2 ^ i := by
  have hsub : goSub ((j + 1 : Nat) : Int) 1 = ((j + 1 - 1 : Nat) : Int) := by
    rw [goSub_of_range (by omega) (by omega)]
    omega
  have hland : Int.land ((j + 1 : Nat) : Int) ((j + 1 - 1 : Nat) : Int)
      = (((j + 1) &&& (j + 1 - 1) : Nat) : Int) := rfl
  have hpos : ((j + 1 : Nat) : Int) > 0 := by omega
  rw [← and_pred_eq_zero_iff (j + 1) (by omega)]
  simp only [posIsPow, isPowerOfTwo, hsub, hland, hpos, decide_True, Bool.true_and, beq_iff_eq]
  exact Int.natCast_eq_zero

theorem posIsPow_two_pow (i : Nat) (hi : i ≤ 62) : posIsPow (2 ^ i - 1) = true := by
  have h1 : 1 ≤ 2 ^ i := Nat.one_le_two_pow
  have e : 2 ^ i - 1 + 1 = 2 ^ i := by omega
  have h2 : (2 : Int) ^ i < 2 ^ 63 := two_pow_lt_of_le hi
  rw [posIsPow_iff]
  · exact ⟨i, e⟩
  · rw [e]
    exact_mod_cast h2

/-- Among the positions `2^t .. 2^(t+1) - 1` only the first is a power of two. -/
theorem pow_in_window {t x i : Nat} (hx : x < 2 ^ t) (h : 2 ^ t + x = 2 ^ i) : x = 0 := by
  have h1 : 2 ^ t ≤ 2 ^ i := by omega
  have h2 : 2 ^ i < 2 ^ (t + 1) := by rw [pow_succ]; omega
  have h3 : t ≤ i := (Nat.pow_le_pow_iff_right (by decide)).1 h1
  have h4 : i < t + 1 := (Nat.pow_lt_pow_iff_right (by decide)).1 h2
  have : i = t := by omega
  subst this
  omega

/-! ## Counting information positions -/

theorem infoIndexAt_succ (j : Nat) :
    infoIndexAt (j + 1) = infoIndexAt j + (if posIsPow j then 0 else 1) := by
  unfold infoIndexAt
  rw [List.range_succ, List.countP_append]
  cases h : posIsPow j <;> simp [h]

theorem infoIndexAt_mono {a b : Nat} (h : a ≤ b) : infoIndexAt a ≤ infoIndexAt b := by
  induction b with
  | zero =>
    have : a = 0 := by omega
    subst this
    exact le_refl _
  | succ b ih =>
    by_cases hab : a = b + 1
    · subst hab
      exact le_refl _
    · have := ih (by omega)
      rw [infoIndexAt_succ]
      omega

theorem countP_eq_zero_range (k : Nat) :
    List.countP (fun x => decide (x = 0)) (List.range (k + 1)) = 1 := by
  induction k with
  | zero => rfl
  | succ k ih =>
    rw [List.range_succ, List.countP_append, ih]
    simp

theorem powCount (t : Nat) (h63 : t ≤ 63) :
    List.countP posIsPow (List.range (2 ^ t - 1)) = t := by
  induction t with
  | zero => rfl
  | succ t ih =>
    have h1 : 1 ≤ 2 ^ t := Nat.one_le_two_pow
    have e : 2 ^ (t + 1) - 1 = (2 ^ t - 1) + 2 ^ t := by
      rw [pow_succ]
      omega
    have hcongr : ∀ x ∈ List.range (2 ^ t),
        ((posIsPow ∘ fun x => 2 ^ t - 1 + x) x = true ↔ decide (x = 0) = true) := by
      intro x hx
      have hx2 : x < 2 ^ t := List.mem_range.1 hx
      have hlt2 : ((2 ^ (t + 1) : Nat) : Int) ≤ 2 ^ 63 := two_pow_le_of_le h63
      have hb : ((2 ^ t - 1 + x + 1 : Nat) : Int) < 2 ^ 63 := by
        have : 2 ^ t - 1 + x + 1 < 2 ^ (t + 1) := by
          rw [pow_succ]
          omega
        omega
      simp only [Function.comp, decide_eq_true_eq]
      rw [posIsPow_iff _ hb]
      constructor
      · rintro ⟨i, hi⟩
        have hi2 : 2 ^ t + x = 2 ^ i := by omega
        exact pow_in_window hx2 hi2
      · rintro rfl
        exact ⟨t, by omega⟩
    obtain ⟨k, hk⟩ : ∃ k, 2 ^ t = k + 1 := ⟨2 ^ t - 1, by omega⟩
    rw [e, List.range_add, List.countP_append, ih (by omega), List.countP_map,
      List.countP_congr hcongr, hk, countP_eq_zero_range]

theorem infoIndexAt_add_powCount (j : Nat) :
    infoIndexAt j + List.countP posIsPow (List.range j) = j := by
  induction j with
  | zero => rfl
  | succ j ih =>
    rw [infoIndexAt_succ, List.range_succ, List.countP_append]
    cases h : posIsPow j <;> simp [h] <;> omega

theorem infoIndexAt_full (t : Nat) (h63 : t ≤ 63) :
    infoIndexAt (2 ^ t - 1) = 2 ^ t - 1 - t := by
  have h1 := infoIndexAt_add_powCount (2 ^ t - 1)
  rw [powCount t h63] at h1
  omega

/-! ## Exclusive or on `int` -/

theorem int_xor_comm (a b : Int) : Int.xor a b = Int.xor b a := by
  cases a <;> cases b <;> simp [Int.xor, Nat.xor_comm]

theorem int_xor_assoc (a b c : Int) : Int.xor (Int.xor a b) c = Int.xor a (Int.xor b c) := by
  cases a <;> cases b <;> cases c <;> simp [Int.xor, Nat.xor_assoc]

theorem int_xor_self (a : Int) : Int.xor a a = 0 := by
  cases a <;> simp [Int.xor]

theorem int_xor_zero (a : Int) : Int.xor a 0 = a := by
  cases a <;> simp [Int.xor]

theorem int_zero_xor (a : Int) : Int.xor 0 a = a := by
  rw [int_xor_comm, int_xor_zero]

theorem int_xor_right_comm (a b c : Int) :
    Int.xor (Int.xor a b) c = Int.xor (Int.xor a c) b := by
  rw [int_xor_assoc, int_xor_comm b c, ← int_xor_assoc]

theorem int_xor_bit {a b : Int} (ha : a = 0 ∨ a = 1) (hb : b = 0 ∨ b = 1) :
    Int.xor a b = 0 ∨ Int.xor a b = 1 := by
  rcases ha with rfl | rfl <;> rcases hb with rfl | rfl <;> decide

theorem int_xor_flip {a : Int} (ha : a = 0 ∨ a = 1) : Int.xor a (goSub 1 a) = 1 := by
  rcases ha with rfl | rfl <;> decide

/-! ## Row parities -/

theorem goGet_of_getElem? {α : Type} {v : List α} {t : Nat} {x : α} (h : v[t]? = some x) :
    goGet v (t : Int) = .ok x := by
  have hneg : ¬ ((t : Int) < 0) := by omega
  simp [goGet, hneg, h]

theorem getElem?_of_lt_getD (v : List Int) (t : Nat) (h : t < v.length) :
    v[t]? = some (v.getD t 0) := by
  simp [List.getD_eq_getElem?_getD, List.getElem?_eq_getElem h]

theorem rowParity_eq (table : List (List Int)) (c : List Int) (i bound : Nat) (row : List Int)
    (hrow : table[i]? = some row) (hb1 : bound ≤ row.length) (hb2 : bound ≤ c.length) :
    rowParity table c (i : Int) (bound : Int) = .ok (parityOf row c bound) := by
  unfold rowParity
  refine forLoop_eq _ (fun k acc => acc = parityOf row c k) bound _ _ rfl ?_ ?_
  · intro k hk acc hacc
    subst hacc
    beta_reduce
    rw [goGet_of_getElem? hrow, ok_bind,
      goGet_of_getElem? (getElem?_of_lt_getD row k (by omega)), ok_bind]
    by_cases h1 : row.getD k 0 = 1
    · rw [if_pos h1, goGet_of_getElem? (getElem?_of_lt_getD c k (by omega)), ok_bind]
      exact ⟨_, rfl, by simp only [parityOf, h1, if_true]⟩
    · rw [if_neg h1]
      exact ⟨_, rfl, by simp only [parityOf, h1, if_false]⟩
  · intro s' hs'
    exact hs'

theorem parityOf_congr (row c c' : List Int) (n : Nat)
    (h : ∀ j, j < n → c.getD j 0 = c'.getD j 0) : parityOf row c n = parityOf row c' n := by
  induction n with
  | zero => rfl
  | succ n ih =>
    simp only [parityOf]
    rw [ih (fun j hj => h j (by omega)), h n (by omega)]

theorem getD_set_ne (c : List Int) (p j : Nat) (x : Int) (h : p ≠ j) :
    (c.set p x).getD j 0 = c.getD j 0 := by
  simp [List.getD_eq_getElem?_getD, List.getElem?_set_ne h]

theorem getD_set_self (c : List Int) (p : Nat) (x : Int) (h : p < c.length) :
    (c.set p x).getD p 0 = x := by
  simp [List.getD_eq_getElem?_getD, List.getElem?_set_self h]

/-- Overwriting `c[p]` changes the parity of a row exactly when the row covers
column `p`, and then by `c[p] XOR x`. -/
theorem parityOf_set (row c : List Int) (p : Nat) (x : Int) (n : Nat)
    (hp : p < n) (hn : n ≤ c.length) :
    parityOf row (c.set p x) n =
      Int.xor (parityOf row c n) (if row.getD p 0 = 1 then Int.xor (c.getD p 0) x else 0) := by
  induction n with
  | zero => omega
  | succ n ih =>
    simp only [parityOf]
    by_cases hpn : p = n
    · subst hpn
      rw [parityOf_congr row (c.set p x) c p (fun j hj => getD_set_ne c p j x (by omega)),
        getD_set_self c p x (by omega)]
      by_cases h1 : row.getD p 0 = 1
      · simp only [h1, if_true]
        rw [int_xor_assoc, ← int_xor_assoc (c.getD p 0), int_xor_self, int_zero_xor]
      · simp only [h1, if_false, int_xor_zero]
    · rw [ih (by omega) (by omega), getD_set_ne c p n x hpn]
      by_cases h1 : row.getD n 0 = 1
      · simp only [h1, if_true]
        rw [int_xor_right_comm]
      · simp only [h1, if_false]

theorem parityOf_bit (row c : List Int) (n : Nat)
    (h : ∀ j, j < n → c.getD j 0 = 0 ∨ c.getD j 0 = 1) :
    parityOf row c n = 0 ∨ parityOf row c n = 1 := by
  induction n with
  | zero => exact Or.inl rfl
  | succ n ih =>
    simp only [parityOf]
    have ih2 := ih (fun j hj => h j (by omega))
    by_cases h1 : row.getD n 0 = 1
    · simp only [h1, if_true]
      exact int_xor_bit ih2 (h n (by omega))
    · simp only [h1, if_false]
      exact ih2

/-! ## Reading the closed-form table -/

theorem closedTable_length (t : Nat) : (closedTable t).length = t := by
  simp [closedTable]

theorem closedTable_getElem? {t i : Nat} (h : i < t) :
    (closedTable t)[i]? = some (tableRow (2 ^ t - 1) i) := by
  simp [closedTable, List.getElem?_map, List.getElem?_range h]

theorem tableRow_length (n i : Nat) : (tableRow n i).length = n := by
  simp [tableRow]

theorem tableRow_getD {n i j : Nat} (h : j < n) : (tableRow n i).getD j 0 = tableEntry i j := by
  simp [tableRow, List.getD_eq_getElem?_getD, List.getElem?_map, List.getElem?_range h]

theorem tableEntry_bit (i j : Nat) : tableEntry i j = 0 ∨ tableEntry i j = 1 := by
  unfold tableEntry
  split
  · exact Or.inr rfl
  · exact Or.inl rfl

theorem tableEntry_eq_one_iff (i j : Nat) : tableEntry i j = 1 ↔ (j + 1).testBit i = true := by
  unfold tableEntry
  split <;> simp_all

theorem tableEntry_two_pow (i r : Nat) : tableEntry i (2 ^ r - 1) = if i = r then 1 else 0 := by
  have h1 : 1 ≤ 2 ^ r := Nat.one_le_two_pow
  have e : 2 ^ r - 1 + 1 = 2 ^ r := by omega
  unfold tableEntry
  rw [e, Nat.testBit_two_pow]
  by_cases h : r = i
  · subst h
    simp
  · have h2 : ¬ i = r := fun h3 => h h3.symm
    simp [h, h2]

/-! ## The placement loop of `hammingEncode` -/

theorem placed_length (info : List Int) (n c : Nat) : (placed info n c).length = n := by
  simp [placed]

theorem placed_getD (info : List Int) {n c j : Nat} (h : j < n) :
    (placed info n c).getD j 0 =
      if j < c ∧ posIsPow j = false then info.getD (infoIndexAt j) 0 else 0 := by
  simp only [placed, List.getD_eq_getElem?_getD, List.getElem?_map, List.getElem?_range h,
    Option.map_some', Option.getD_some]

theorem placed_zero (info : List Int) (n : Nat) : placed info n 0 = List.replicate n 0 := by
  apply List.ext_getElem
  · simp [placed]
  · intro j h1 h2
    simp [placed]

theorem placed_succ_keep (info : List Int) (n c : Nat) (h : posIsPow c = true) :
    placed info n (c + 1) = placed info n c := by
  apply List.ext_getElem
  · simp [placed]
  · intro j h1 h2
    simp only [placed, List.getElem_map, List.getElem_range]
    by_cases hj : j = c
    · subst hj
      simp [h]
    · have e : (j < c + 1) = (j < c) := by
        apply propext
        omega
      simp [e]

theorem placed_succ_set (info : List Int) (n c : Nat) (h : posIsPow c = false) :
    placed info n (c + 1) = (placed info n c).set c (info.getD (infoIndexAt c) 0) := by
  apply List.ext_getElem
  · simp [placed]
  · intro j h1 h2
    simp only [placed, List.getElem_map, List.getElem_range, List.getElem_set]
    by_cases hj : c = j
    · subst hj
      simp [h]
    · have e : (j < c + 1) = (j < c) := by
        apply propext
        omega
      simp [hj, e]

/-- Lines 104-110: the information bits go, in order, to the positions that
are not powers of two; no read of `infoBits` is out of range. -/
theorem placeLoop (info : List Int) (n : Nat) (hn : (n : Int) < 2 ^ 63)
    (hlen : infoIndexAt n ≤ info.length) :
    forLoop (n : Int) (fun i (st : List Int × Int) =>
      if !isPowerOfTwo (goAdd i 1) then do
        let b ← goGet info st.2
        let encoded ← goSet st.1 i b
        pure (encoded, goAdd st.2 1)
      else pure st) (List.replicate n 0, 0)
      = .ok (placed info n n, (infoIndexAt n : Int)) := by
  refine forLoop_eq _ (fun c st => st = (placed info n c, (infoIndexAt c : Int))) n _ _ ?_ ?_ ?_
  · show _ = _
    rw [placed_zero]
    rfl
  · intro c hc st hst
    subst hst
    have hadd : goAdd (c : Int) 1 = ((c + 1 : Nat) : Int) := by
      rw [goAdd_of_range (by omega) (by omega)]
      push_cast
      rfl
    have hpow : isPowerOfTwo ((c + 1 : Nat) : Int) = posIsPow c := rfl
    have hmono : infoIndexAt (c + 1) ≤ infoIndexAt n := infoIndexAt_mono (by omega)
    have hle : infoIndexAt c ≤ c := by
      have := infoIndexAt_add_powCount c
      omega
    beta_reduce
    rw [hadd, hpow]
    cases hp : posIsPow c
    · rw [infoIndexAt_succ, hp] at hmono
      simp only [Bool.false_eq_true, if_false] at hmono
      simp only [Bool.not_false, if_true]
      rw [goGet_of_getElem? (getElem?_of_lt_getD info (infoIndexAt c) (by omega)), ok_bind,
        goSet_nat _ c _ (by rw [placed_length]; exact hc), ok_bind,
        goAdd_of_range (by omega) (by omega)]
      refine ⟨_, rfl, ?_⟩
      show _ = _
      rw [placed_succ_set info n c hp, infoIndexAt_succ, hp]
      simp
    · simp only [Bool.not_true, Bool.false_eq_true, if_false]
      refine ⟨_, rfl, ?_⟩
      show _ = _
      rw [placed_succ_keep info n c hp, infoIndexAt_succ, hp]
      simp
  · intro s' hs'
    exact hs'

/-! ## The parity loop of `hammingEncode` -/

theorem getD_bit_of_mem (info : List Int) (h : ∀ b ∈ info, b = 0 ∨ b = 1) (k : Nat) :
    info.getD k 0 = 0 ∨ info.getD k 0 = 1 := by
  by_cases hk : k < info.length
  · have : info.getD k 0 = info[k] := by
      simp [List.getD_eq_getElem?_getD, List.getElem?_eq_getElem hk]
    rw [this]
    exact h _ (List.getElem_mem hk)
  · left
    simp [List.getD_eq_getElem?_getD, List.getElem?_eq_none (by omega : info.length ≤ k)]

theorem two_pow_sub_one_lt_of_lt {r t : Nat} (h : r < t) : 2 ^ r - 1 < 2 ^ t - 1 := by
  have h1 : 1 ≤ 2 ^ r := Nat.one_le_two_pow
  have h2 : 2 ^ r < 2 ^ t := Nat.pow_lt_pow_right (by decide) h
  omega

theorem two_pow_sub_one_inj {r i : Nat} (h : 2 ^ r - 1 = 2 ^ i - 1) : r = i := by
  have h1 : 1 ≤ 2 ^ r := Nat.one_le_two_pow
  have h2 : 1 ≤ 2 ^ i := Nat.one_le_two_pow
  exact Nat.pow_right_injective (le_refl 2) (by omega : 2 ^ r = 2 ^ i)

theorem parityInv_init (t : Nat) (h63 : t ≤ 63) (info : List Int) :
    ParityInv t info 0 (placed info (2 ^ t - 1) (2 ^ t - 1)) := by
  refine ⟨placed_length _ _ _, ?_, ?_, ?_, ?_⟩
  · intro j hj hp
    rw [placed_getD info hj]
    simp [hj, hp]
  · intro i _ hi
    rw [placed_getD info (two_pow_sub_one_lt_of_lt hi), posIsPow_two_pow i (by omega)]
    simp
  · intro i hi
    omega
  · intro hbits j hj
    rw [placed_getD info hj]
    split
    · exact getD_bit_of_mem info hbits _
    · exact Or.inl rfl

theorem parityInv_step (t : Nat) (h63 : t ≤ 63) (info : List Int) (r : Nat) (hr : r < t)
    (enc : List Int) (h : ParityInv t info r enc) :
    ParityInv t info (r + 1)
      (enc.set (2 ^ r - 1) (parityOf (tableRow (2 ^ t - 1) r) enc (2 ^ t - 1))) := by
  obtain ⟨hlen, hinfo, hzero, hpar, hbits⟩ := h
  have hpos : 2 ^ r - 1 < 2 ^ t - 1 := two_pow_sub_one_lt_of_lt hr
  refine ⟨by simpa using hlen, ?_, ?_, ?_, ?_⟩
  · intro j hj hp
    have hne : 2 ^ r - 1 ≠ j := by
      intro e
      rw [← e, posIsPow_two_pow r (by omega)] at hp
      exact Bool.noConfusion hp
    rw [getD_set_ne enc _ j _ hne]
    exact hinfo j hj hp
  · intro i hri hi
    have hne : 2 ^ r - 1 ≠ 2 ^ i - 1 := by
      intro e
      have := two_pow_sub_one_inj e
      omega
    rw [getD_set_ne enc _ _ _ hne]
    exact hzero i (by omega) hi
  · intro i hi
    rw [parityOf_set _ enc _ _ _ hpos (by omega), tableRow_getD hpos, tableEntry_two_pow]
    by_cases hir : i = r
    · subst hir
      rw [if_pos rfl, if_pos rfl, hzero i (le_refl i) hr, int_zero_xor, int_xor_self]
    · rw [if_neg hir, if_neg (by decide), int_xor_zero]
      exact hpar i (by omega)
  · intro hb j hj
    by_cases hjp : 2 ^ r - 1 = j
    · subst hjp
      rw [getD_set_self enc _ _ (by omega)]
      exact parityOf_bit _ _ _ (hbits hb)
    · rw [getD_set_ne enc _ j _ hjp]
      exact hbits hb j hj

/-- Lines 112-123: every pass computes the row's parity and stores it at the
row's own power-of-two position. -/
theorem parityLoop (t : Nat) (h63 : t ≤ 63) (info : List Int) :
    ∃ c, forLoop (t : Int) (fun i encoded => do
        let parity ← rowParity (closedTable t) encoded i ((2 ^ t - 1 : Nat) : Int)
        let x ← goShl 1 i
        if goSub x 1 < ((2 ^ t - 1 : Nat) : Int) then goSet encoded (goSub x 1) parity
        else pure encoded) (placed info (2 ^ t - 1) (2 ^ t - 1)) = .ok c ∧
      ParityInv t info t c := by
  refine forLoop_inv _ (ParityInv t info) t _ (parityInv_init t h63 info) ?_
  intro r hr enc henc
  have hlen : enc.length = 2 ^ t - 1 := henc.1
  have hpos : 2 ^ r - 1 < 2 ^ t - 1 := two_pow_sub_one_lt_of_lt hr
  have h2 : (2 : Int) ^ r < 2 ^ 63 := two_pow_lt_of_le (by omega : r ≤ 62)
  have h0 : (0 : Int) < 2 ^ r := by positivity
  have hsub : goSub ((2 : Int) ^ r) 1 = ((2 ^ r - 1 : Nat) : Int) := by
    rw [goSub_of_range (by omega) (by omega), cast_two_pow_sub_one]
  have hlt : ((2 ^ r - 1 : Nat) : Int) < ((2 ^ t - 1 : Nat) : Int) := by exact_mod_cast hpos
  refine ⟨_, ?_, parityInv_step t h63 info r hr enc henc⟩
  beta_reduce
  rw [rowParity_eq _ enc r _ _ (closedTable_getElem? hr) (by rw [tableRow_length])
      (by rw [hlen]), ok_bind, goShl_one_nat (by omega), ok_bind, hsub, if_pos hlt,
    goSet_nat _ _ _ (by omega)]

/-! ## `hammingEncode` on the generated table -/

theorem le_two_pow_sub_one (t : Nat) : t ≤ 2 ^ t - 1 := by
  have := Nat.lt_two_pow t
  omega

/-- The prologue of `hammingEncode` (lines 95-101) on the generated table: the
size test compares `len(infoBits)` with `2^t - 1 - t`. -/
theorem hammingEncode_prologue (t : Nat) (h1 : 1 ≤ t) (h63 : t ≤ 63) :
    goGet (closedTable t) 0 = .ok (tableRow (2 ^ t - 1) 0) ∧
      goLen (tableRow (2 ^ t - 1) 0) = ((2 ^ t - 1 : Nat) : Int) ∧
      goLen (closedTable t) = (t : Int) ∧
      goSub ((2 ^ t - 1 : Nat) : Int) (t : Int) = ((2 ^ t - 1 - t : Nat) : Int) := by
  have hn := two_pow_sub_one_lt h63
  have hle := le_two_pow_sub_one t
  refine ⟨?_, ?_, ?_, ?_⟩
  · exact goGet_of_getElem? (t := 0) (closedTable_getElem? (by omega))
  · simp [goLen, tableRow_length]
  · simp [goLen, closedTable_length]
  · rw [goSub_of_range (by omega) (by omega)]
    omega

theorem hammingEncode_closed (t : Nat) (h1 : 1 ≤ t) (h63 : t ≤ 63) (info : List Int)
    (hk : info.length = 2 ^ t - 1 - t) :
    ∃ c, hammingEncode info (closedTable t) = .ok c ∧ ParityInv t info t c := by
  obtain ⟨hg, hl, hm, hs⟩ := hammingEncode_prologue t h1 h63
  obtain ⟨c, hc, hinv⟩ := parityLoop t h63 info
  refine ⟨c, ?_, hinv⟩
  have hkk : ¬ (goLen info ≠ ((2 ^ t - 1 - t : Nat) : Int)) := by
    simp [goLen, hk]
  unfold hammingEncode
  dsimp only []
  rw [hg, ok_bind, hl, hm, hs, if_neg hkk, pure_eq_ok, ok_bind, goMake_nat, ok_bind,
    placeLoop info _ (two_pow_sub_one_lt h63) (by rw [infoIndexAt_full t h63, hk]), ok_bind]
  exact hc

theorem hammingEncode_mismatch (t : Nat) (h1 : 1 ≤ t) (h63 : t ≤ 63) (info : List Int)
    (hk : info.length ≠ 2 ^ t - 1 - t) :
    hammingEncode info (closedTable t) = .error .sizeMismatch := by
  obtain ⟨hg, hl, hm, hs⟩ := hammingEncode_prologue t h1 h63
  have hkk : goLen info ≠ ((2 ^ t - 1 - t : Nat) : Int) := by
    simpa [goLen] using hk
  unfold hammingEncode
  dsimp only []
  rw [hg, ok_bind, hl, hm, hs, if_pos hkk, throw_eq_error, error_bind]

theorem hammingEncode_nil (info : List Int) :
    hammingEncode info [] = .error .indexOutOfRange := rfl

/-! ## `findSyndrome` -/

theorem partialSyndrome_zero (table : List (List Int)) (c : List Int) :
    partialSyndrome table c 0 = List.replicate table.length 0 := by
  apply List.ext_getElem
  · simp [partialSyndrome]
  · intro j h1 h2
    simp [partialSyndrome]

theorem partialSyndrome_succ (table : List (List Int)) (c : List Int) (r : Nat) :
    (partialSyndrome table c r).set r (parityOf (table.getD r []) c c.length) =
      partialSyndrome table c (r + 1) := by
  apply List.ext_getElem
  · simp [partialSyndrome]
  · intro j h1 h2
    simp only [partialSyndrome, List.getElem_map, List.getElem_range, List.getElem_set]
    by_cases hj : r = j
    · subst hj
      simp
    · by_cases hlt : j < r
      · have : j < r + 1 := by omega
        simp [hj, hlt, this]
      · have : ¬ j < r + 1 := by omega
        simp [hj, hlt, this]

theorem partialSyndrome_full (table : List (List Int)) (c : List Int) :
    partialSyndrome table c table.length = table.map (fun row => parityOf row c c.length) := by
  apply List.ext_getElem
  · simp [partialSyndrome]
  · intro j h1 h2
    have hj : j < table.length := by simpa [partialSyndrome] using h1
    simp [partialSyndrome, hj, List.getD_eq_getElem?_getD, List.getElem?_eq_getElem hj]

/-- On a table whose rows are all at least as long as the codeword,
`findSyndrome` returns, row by row, the XOR of the covered codeword bits. -/
theorem findSyndrome_eq (c : List Int) (table : List (List Int))
    (hrows : ∀ row ∈ table, c.length ≤ row.length) :
    findSyndrome c table = .ok (table.map (fun row => parityOf row c c.length)) := by
  unfold findSyndrome
  dsimp only [goLen]
  rw [goMake_nat, ok_bind]
  refine forLoop_eq _ (fun r syn => syn = partialSyndrome table c r) table.length _ _ ?_ ?_ ?_
  · show _ = _
    rw [partialSyndrome_zero]
  · intro r hr syn hsyn
    subst hsyn
    have hget : table[r]? = some (table.getD r []) := by
      simp [List.getD_eq_getElem?_getD, List.getElem?_eq_getElem hr]
    have hmem : table.getD r [] ∈ table := by
      have : table.getD r [] = table[r] := by
        simp [List.getD_eq_getElem?_getD, List.getElem?_eq_getElem hr]
      rw [this]
      exact List.getElem_mem hr
    beta_reduce
    rw [rowParity_eq table c r c.length _ hget (hrows _ hmem) (le_refl _), ok_bind,
      goSet_nat _ r _ (by simpa [partialSyndrome] using hr)]
    exact ⟨_, rfl, partialSyndrome_succ table c r⟩
  · intro s' hs'
    rw [hs', partialSyndrome_full]

theorem findSyndrome_closed (t : Nat) (c : List Int) (hc : c.length = 2 ^ t - 1) :
    findSyndrome c (closedTable t) =
      .ok ((List.range t).map (fun i => parityOf (tableRow (2 ^ t - 1) i) c (2 ^ t - 1))) := by
  rw [findSyndrome_eq c (closedTable t)]
  · rw [hc]
    simp [closedTable, List.map_map, Function.comp]
  · intro row hrow
    simp only [closedTable, List.mem_map, List.mem_range] at hrow
    obtain ⟨i, _, rfl⟩ := hrow
    rw [tableRow_length, hc]

/-! ## Columns and binary values -/

theorem binaryValue_cons (b : Int) (s : List Int) :
    binaryValue (b :: s) = b + 2 * binaryValue s := by
  unfold binaryValue
  rw [List.length_cons, List.range_succ_eq_map, List.map_cons, List.sum_cons, List.map_map,
    ← List.sum_map_mul_left]
  congr 1
  · simp
  · congr 1
    apply List.map_congr_left
    intro i _
    simp only [Function.comp, List.getD_cons_succ, pow_succ]
    ring

theorem column_length (t j : Nat) : (column t j).length = t := by
  simp [column]

theorem column_getD {t i : Nat} (j : Nat) (h : i < t) : (column t j).getD i 0 = tableEntry i j := by
  simp [column, List.getD_eq_getElem?_getD, List.getElem?_map, List.getElem?_range h]

/-- A vector of bits is the column of the position its binary value names. -/
theorem bits_value (s : List Int) (hbits : ∀ b ∈ s, b = 0 ∨ b = 1) :
    ∃ v : Nat, binaryValue s = (v : Int) ∧ v < 2 ^ s.length ∧
      (∀ i, i < s.length → s.getD i 0 = if v.testBit i then 1 else 0) ∧
      (isZero s = false → v ≠ 0) := by
  induction s with
  | nil => exact ⟨0, rfl, by simp, by simp, by simp [isZero]⟩
  | cons b s ih =>
    obtain ⟨v, hv, hlt, hget, hnz⟩ := ih (fun x hx => hbits x (List.mem_cons_of_mem _ hx))
    have hb := hbits b (List.mem_cons_self _ _)
    rcases hb with rfl | rfl
    · refine ⟨2 * v, ?_, ?_, ?_, ?_⟩
      · rw [binaryValue_cons, hv]
        push_cast
        ring
      · rw [List.length_cons, pow_succ]
        omega
      · intro i hi
        cases i with
        | zero => simp [Nat.testBit_zero]
        | succ i =>
          have e : 2 * v / 2 = v := by omega
          rw [List.getD_cons_succ, Nat.testBit_succ, e]
          exact hget i (by simpa using hi)
      · intro hz
        have : isZero s = false := by simpa [isZero] using hz
        have := hnz this
        omega
    · refine ⟨2 * v + 1, ?_, ?_, ?_, ?_⟩
      · rw [binaryValue_cons, hv]
        push_cast
        ring
      · rw [List.length_cons, pow_succ]
        omega
      · intro i hi
        cases i with
        | zero =>
          have : (2 * v + 1) % 2 = 1 := by omega
          simp [Nat.testBit_zero, this]
        | succ i =>
          have e : (2 * v + 1) / 2 = v := by omega
          rw [List.getD_cons_succ, Nat.testBit_succ, e]
          exact hget i (by simpa using hi)
      · intro _
        omega

theorem eq_column_of_bits (s : List Int) (v : Nat) (hv : 1 ≤ v)
    (hget : ∀ i, i < s.length → s.getD i 0 = if v.testBit i then 1 else 0) :
    s = column s.length (v - 1) := by
  apply List.ext_getElem
  · rw [column_length]
  · intro i h1 h2
    have e : v - 1 + 1 = v := by omega
    have h3 := hget i h1
    have h4 : (column s.length (v - 1)).getD i 0 = tableEntry i (v - 1) := column_getD _ h1
    rw [List.getD_eq_getElem?_getD, List.getElem?_eq_getElem h1, Option.getD_some] at h3
    rw [List.getD_eq_getElem?_getD, List.getElem?_eq_getElem h2, Option.getD_some] at h4
    rw [h3, h4, tableEntry, e]

/-- Positions below `2^t` with the same `t` low bits are the same position. -/
theorem column_inj {t j j' : Nat} (hj : j < 2 ^ t - 1) (hj' : j' < 2 ^ t - 1)
    (h : ∀ i, i < t → tableEntry i j = tableEntry i j') : j = j' := by
  have key : j + 1 = j' + 1 := by
    apply Nat.eq_of_testBit_eq
    intro i
    by_cases hi : i < t
    · have := h i hi
      unfold tableEntry at this
      cases h1 : (j + 1).testBit i <;> cases h2 : (j' + 1).testBit i <;> simp_all
    · have hle : 2 ^ t ≤ 2 ^ i := Nat.pow_le_pow_right (by decide) (by omega)
      rw [Nat.testBit_lt_two_pow (by omega : j + 1 < 2 ^ i),
        Nat.testBit_lt_two_pow (by omega : j' + 1 < 2 ^ i)]
  omega

theorem binaryValue_column (t j : Nat) (hj : j < 2 ^ t - 1) :
    binaryValue (column t j) = ((j + 1 : Nat) : Int) := by
  have hbits : ∀ b ∈ column t j, b = 0 ∨ b = 1 := by
    intro b hb
    simp only [column, List.mem_map] at hb
    obtain ⟨i, _, rfl⟩ := hb
    exact tableEntry_bit i j
  obtain ⟨v, hv, hlt, hget, _⟩ := bits_value (column t j) hbits
  rw [column_length] at hlt hget
  have hv1 : 1 ≤ v := by
    by_contra hv0
    have hv0 : v = 0 := by omega
    subst hv0
    have hall : ∀ i, (j + 1).testBit i = (0 : Nat).testBit i := by
      intro i
      by_cases hi : i < t
      · have h1 := hget i hi
        rw [column_getD j hi] at h1
        unfold tableEntry at h1
        cases h2 : (j + 1).testBit i <;> simp_all
      · have hle : 2 ^ t ≤ 2 ^ i := Nat.pow_le_pow_right (by decide) (by omega)
        rw [Nat.testBit_lt_two_pow (by omega : j + 1 < 2 ^ i)]
        simp
    have := Nat.eq_of_testBit_eq hall
    omega
  have hinj : j = v - 1 := by
    apply column_inj hj (by omega)
    intro i hi
    have h1 := hget i hi
    have e : v - 1 + 1 = v := by omega
    rw [column_getD j hi] at h1
    rw [h1, tableEntry, e]
  rw [hv]
  congr 1
  omega

/-! ## `findErrorPosition` -/

/-- A search that never panics and whose body accepts somewhere leaves. -/
theorem searchFrom_some_unit (body : Int → Except Panic (Option Unit)) :
    ∀ (k : Nat) (start : Int), (∀ x, x < k → ∃ o, body (start + x) = .ok o) →
      (∃ x, x < k ∧ body (start + x) = .ok (some ())) →
      searchFrom body k start = .ok (some ()) := by
  intro k
  induction k with
  | zero =>
    rintro _ _ ⟨x, hx, _⟩
    omega
  | succ k ih =>
    intro start hall hex
    obtain ⟨o, ho⟩ := hall 0 (by omega)
    simp only [Nat.cast_zero, add_zero] at ho
    cases o with
    | some u => simp only [searchFrom, ho]
    | none =>
      simp only [searchFrom, ho]
      apply ih
      · intro x hx
        obtain ⟨o', ho'⟩ := hall (x + 1) (by omega)
        refine ⟨o', ?_⟩
        rw [← ho']
        congr 1
        push_cast
        ring
      · obtain ⟨x, hx, hbody⟩ := hex
        cases x with
        | zero =>
          simp only [Nat.cast_zero, add_zero] at hbody
          rw [ho] at hbody
          cases hbody
        | succ x =>
          refine ⟨x, by omega, ?_⟩
          rw [← hbody]
          congr 1
          push_cast
          ring

theorem isZero_getD (s : List Int) (h : isZero s = true) (i : Nat) : s.getD i 0 = 0 := by
  induction s generalizing i with
  | nil => simp
  | cons b s ih =>
    by_cases hb : b = 0
    · subst hb
      have hs : isZero s = true := by simpa [isZero] using h
      cases i with
      | zero => simp
      | succ i =>
        rw [List.getD_cons_succ]
        exact ih hs i
    · simp [isZero, hb] at h

theorem isZero_column (t j : Nat) (hj : j < 2 ^ t - 1) : isZero (column t j) = false := by
  by_contra hz
  have hz : isZero (column t j) = true := by simpa using hz
  have hall : ∀ i, i < t → tableEntry i j = tableEntry i (2 ^ t - 1) := by
    intro i hi
    have h1 := isZero_getD _ hz i
    rw [column_getD j hi] at h1
    rw [h1, tableEntry_two_pow, if_neg (by omega)]
  have hbit : ∀ i, (j + 1).testBit i = false := by
    intro i
    by_cases hi : i < t
    · have h1 := isZero_getD _ hz i
      rw [column_getD j hi] at h1
      unfold tableEntry at h1
      cases h2 : (j + 1).testBit i <;> simp_all
    · have hle : 2 ^ t ≤ 2 ^ i := Nat.pow_le_pow_right (by decide) (by omega)
      exact Nat.testBit_lt_two_pow (by omega : j + 1 < 2 ^ i)
  have : j + 1 = 0 := by
    apply Nat.eq_of_testBit_eq
    intro i
    rw [hbit i]
    simp
  omega

/-- One pass of the inner loop of `findErrorPosition` (lines 149-154). -/
theorem matchStep (t j : Nat) (s : List Int) (hs : s.length = t) (hj : j < 2 ^ t - 1)
    (i : Nat) (hi : i < t) :
    (do
      let row ← goGet (closedTable t) (i : Int)
      let x ← goGet row (j : Int)
      let y ← goGet s (i : Int)
      pure (if x ≠ y then some () else none) : Except Panic (Option Unit)) =
      .ok (if tableEntry i j ≠ s.getD i 0 then some () else none) := by
  rw [goGet_of_getElem? (closedTable_getElem? hi), ok_bind,
    goGet_of_getElem? (getElem?_of_lt_getD _ j (by rw [tableRow_length]; exact hj)), ok_bind,
    goGet_of_getElem? (getElem?_of_lt_getD s i (by omega)), ok_bind, tableRow_getD hj]
  rfl

/-- The outer body of `findErrorPosition` at column `j'` when the syndrome is
column `j`: it returns `j'` exactly when `j' = j`. -/
theorem scanStep (t j j' : Nat) (hj : j < 2 ^ t - 1) (hj' : j' < 2 ^ t - 1) :
    (do
      let broke ← searchLoop (goLen (column t j)) (fun i => do
        let row ← goGet (closedTable t) i
        let x ← goGet row (j' : Int)
        let y ← goGet (column t j) i
        pure (if x ≠ y then some () else none))
      pure (if broke.isNone then some (j' : Int) else none) : Except Panic (Option Int)) =
      .ok (if j' = j then some (j' : Int) else none) := by
  have hlen : goLen (column t j) = (t : Int) := by simp [goLen, column_length]
  rw [hlen]
  unfold searchLoop
  rw [Int.toNat_ofNat]
  by_cases h : j' = j
  · subst h
    rw [searchFrom_none, ok_bind, if_pos rfl]
    · rfl
    · intro i hi
      rw [zero_add, matchStep t j' (column t j') (column_length t j') hj' i hi,
        column_getD j' hi]
      simp
  · rw [searchFrom_some_unit, ok_bind, if_neg h]
    · rfl
    · intro i hi
      rw [zero_add, matchStep t j' (column t j) (column_length t j) hj' i hi]
      exact ⟨_, rfl⟩
    · by_contra hno
      apply h
      apply column_inj hj' hj
      intro i hi
      by_contra hne
      apply hno
      refine ⟨i, hi, ?_⟩
      rw [zero_add, matchStep t j' (column t j) (column_length t j) hj' i hi,
        column_getD j hi, if_pos hne]

/-- The column scan returns the position whose column the syndrome is. -/
theorem findErrorPosition_column (t j : Nat) (hj : j < 2 ^ t - 1) :
    findErrorPosition (column t j) (closedTable t) = .ok (j : Int) := by
  have ht : 1 ≤ t := by
    by_contra h0
    have : t = 0 := by omega
    subst this
    simp at hj
  have hg : goGet (closedTable t) 0 = .ok (tableRow (2 ^ t - 1) 0) :=
    goGet_of_getElem? (t := 0) (closedTable_getElem? (by omega))
  have hl : goLen (tableRow (2 ^ t - 1) 0) = ((2 ^ t - 1 : Nat) : Int) := by
    simp [goLen, tableRow_length]
  unfold findErrorPosition
  dsimp only []
  rw [isZero_column t j hj]
  simp only [Bool.false_eq_true, if_false]
  rw [pure_eq_ok, ok_bind, hg, ok_bind, hl]
  unfold searchLoop
  rw [Int.toNat_ofNat, searchFrom_first _ (j : Int) (2 ^ t - 1) 0 j hj, ok_bind]
  · rfl
  · intro j' hj'
    rw [zero_add]
    have := scanStep t j j' hj (by omega)
    unfold searchLoop at this
    rw [this, if_neg (by omega)]
  · rw [zero_add]
    have := scanStep t j j hj hj
    unfold searchLoop at this
    rw [this, if_pos rfl]

/-! ## `compareVectors` and `flipBit` -/

theorem compareVectors_self (v : List Int) : compareVectors v v = .ok true := by
  unfold compareVectors
  dsimp only []
  simp only [ne_eq, not_true_eq_false, if_false]
  rw [pure_eq_ok, ok_bind]
  unfold searchLoop
  rw [goLen, Int.toNat_ofNat, searchFrom_none, ok_bind]
  · rfl
  · intro i hi
    rw [zero_add, goGet_nat v i hi, ok_bind, ok_bind]
    simp
    rfl

theorem flipBit_eq (v : List Int) (e : Nat) (he : e < v.length) :
    flipBit v (e : Int) = .ok (v.set e (goSub 1 (v.getD e 0))) := by
  unfold flipBit
  rw [goGet_of_getElem? (getElem?_of_lt_getD v e he), ok_bind, goSet_nat _ _ _ he]

theorem set_getD_self (v : List Int) (e : Nat) : v.set e (v.getD e 0) = v := by
  apply List.ext_getElem
  · simp
  · intro i h1 h2
    rw [List.getElem_set]
    split
    · rename_i h
      subst h
      simp [List.getD_eq_getElem?_getD, List.getElem?_eq_getElem h2]
    · rfl

theorem goSub_one_involutive {b : Int} (hb : b = 0 ∨ b = 1) : goSub 1 (goSub 1 b) = b := by
  rcases hb with rfl | rfl <;> decide

theorem flipBit_twice (v : List Int) (e : Nat) (he : e < v.length)
    (hb : v.getD e 0 = 0 ∨ v.getD e 0 = 1) :
    flipBit (v.set e (goSub 1 (v.getD e 0))) (e : Int) = .ok v := by
  rw [flipBit_eq _ e (by simpa using he), getD_set_self v e _ he, List.set_set,
    goSub_one_involutive hb, set_getD_self]

/-! ## From the loop states to the specification's vocabulary -/

theorem isPow2_iff (p : Nat) : isPow2 p = true ↔ ∃ i, p = 2 ^ i := by
  simp only [isPow2, decide_eq_true_eq]
  constructor
  · rintro ⟨i, _, h⟩
    exact ⟨i, h⟩
  · rintro ⟨i, h⟩
    exact ⟨i, by rw [h]; exact Nat.lt_two_pow i, h⟩

theorem posIsPow_eq_isPow2 (j : Nat) (hj : ((j + 1 : Nat) : Int) < 2 ^ 63) :
    posIsPow j = isPow2 (j + 1) := by
  apply Bool.eq_iff_iff.2
  rw [posIsPow_iff j hj, isPow2_iff]

theorem parityOf_eq_xorAt (row c : List Int) (n : Nat) :
    parityOf row c n =
      xorAt c ((List.range n).filter (fun j => decide (row.getD j 0 = 1))) := by
  induction n with
  | zero => rfl
  | succ n ih =>
    simp only [parityOf]
    rw [List.range_succ, List.filter_append]
    unfold xorAt at ih ⊢
    rw [List.foldl_append, ← ih]
    by_cases h : row.getD n 0 = 1
    · simp only [h, if_true, List.filter_cons, decide_True, List.filter_nil, List.foldl_cons,
        List.foldl_nil]
    · simp only [h, if_false, List.filter_cons, decide_False, List.filter_nil, List.foldl_nil,
        Bool.false_eq_true]

theorem columnOf_closedTable {t j : Nat} (hj : j < 2 ^ t - 1) :
    columnOf (closedTable t) j = column t j := by
  simp only [columnOf, closedTable, column, List.map_map]
  apply List.map_congr_left
  intro i _
  simp only [Function.comp, tableRow_getD hj]

theorem closedTable_getD {t i : Nat} (h : i < t) :
    (closedTable t).getD i [] = tableRow (2 ^ t - 1) i := by
  rw [List.getD_eq_getElem?_getD, closedTable_getElem? h, Option.getD_some]

theorem tableEntry_eq_one_iff_div (i j : Nat) :
    tableEntry i j = 1 ↔ (j + 1) / 2 ^ i % 2 = 1 := by
  rw [tableEntry_eq_one_iff, Nat.testBit_to_div_mod, decide_eq_true_eq]

/-- Reading the information positions in order returns the bits consumed so
far. -/
theorem read_info_positions (info : List Int) (n : Nat) (h : infoIndexAt n ≤ info.length) :
    ((List.range n).filter (fun j => !posIsPow j)).map (fun j => info.getD (infoIndexAt j) 0)
      = info.take (infoIndexAt n) := by
  induction n with
  | zero => simp [infoIndexAt]
  | succ n ih =>
    have hmono : infoIndexAt n ≤ infoIndexAt (n + 1) := infoIndexAt_mono (by omega)
    rw [List.range_succ, List.filter_append, List.map_append, ih (by omega), infoIndexAt_succ]
    cases hp : posIsPow n
    · rw [infoIndexAt_succ, hp] at h
      simp only [Bool.false_eq_true, if_false] at h
      have hlt : infoIndexAt n < info.length := by omega
      simp only [hp, Bool.not_false, List.filter_cons, if_true, List.filter_nil, List.map_cons,
        List.map_nil, Bool.false_eq_true, if_false]
      rw [List.take_succ, List.getElem?_eq_getElem hlt, List.getD_eq_getElem?_getD,
        List.getElem?_eq_getElem hlt]
      rfl
    · simp [hp]

/-- What a single flipped bit does to the syndrome of a codeword: the syndrome
becomes the table column of the flipped position. -/
theorem syndrome_after_flip (t : Nat) (info c : List Int) (hinv : ParityInv t info t c)
    (hbits : ∀ b ∈ info, b = 0 ∨ b = 1) (e : Nat) (he : e < 2 ^ t - 1) :
    findSyndrome (c.set e (goSub 1 (c.getD e 0))) (closedTable t) = .ok (column t e) := by
  obtain ⟨hlen, _, _, hpar, hb⟩ := hinv
  rw [findSyndrome_closed t _ (by simpa using hlen)]
  congr 1
  unfold column
  apply List.map_congr_left
  intro i hi
  have hi2 : i < t := List.mem_range.1 hi
  rw [parityOf_set _ c e _ _ he (by omega), hpar i hi2, tableRow_getD he, int_zero_xor,
    int_xor_flip (hb hbits e he)]
  rcases tableEntry_bit i e with h0 | h1
  · rw [h0]
    rfl
  · rw [h1]
    rfl

theorem isZero_replicate (n : Nat) : isZero (List.replicate n 0) = true := by
  induction n with
  | zero => rfl
  | succ n ih => simpa [List.replicate_succ, isZero] using ih

theorem isZero_false_of_mem (s : List Int) (h : ∃ b ∈ s, b ≠ 0) : isZero s = false := by
  induction s with
  | nil =>
    obtain ⟨b, hb, _⟩ := h
    cases hb
  | cons a s ih =>
    by_cases ha : a = 0
    · subst ha
      obtain ⟨b, hb, hne⟩ := h
      have hb2 : b ∈ s := by
        rcases List.mem_cons.1 hb with h1 | h1
        · exact absurd h1 hne
        · exact h1
      simpa [isZero] using ih ⟨b, hb2, hne⟩
    · simp [isZero, ha]

/-! ## The parity-check table (claims C4, C5) -/

/-- C4, for `1 ≤ m ≤ 63`: `generateHammingTable(m)` returns a table of exactly
`m` rows, every row has exactly `2^m - 1` entries, every entry is 0 or 1, and
entry `(i, j)` is 1 if and only if bit `i` of `j + 1` is set. -/
theorem generateHammingTable_shape (m : Int) (_h1 : 1 ≤ m) (h63 : m ≤ 63) :
    ∃ table, generateHammingTable m = .ok table ∧
      table.length = m.toNat ∧
      (∀ row ∈ table, row.length = 2 ^ m.toNat - 1) ∧
      (∀ row ∈ table, ∀ x ∈ row, x = 0 ∨ x = 1) ∧
      (∀ i j, i < m.toNat → j < 2 ^ m.toNat - 1 →
        ((table.getD i []).getD j 0 = 1 ↔ (j + 1) / 2 ^ i % 2 = 1)) := by
  obtain ⟨t, rfl⟩ : ∃ t : Nat, m = (t : Int) := ⟨m.toNat, by omega⟩
  simp only [Int.toNat_ofNat]
  refine ⟨closedTable t, generateHammingTable_eq (by omega), closedTable_length t, ?_, ?_, ?_⟩
  · intro row hrow
    simp only [closedTable, List.mem_map, List.mem_range] at hrow
    obtain ⟨i, _, rfl⟩ := hrow
    exact tableRow_length _ i
  · intro row hrow x hx
    simp only [closedTable, List.mem_map, List.mem_range] at hrow
    obtain ⟨i, _, rfl⟩ := hrow
    simp only [tableRow, List.mem_map, List.mem_range] at hx
    obtain ⟨j, _, rfl⟩ := hx
    exact tableEntry_bit i j
  · intro i j hi hj
    rw [closedTable_getD hi, tableRow_getD hj, tableEntry_eq_one_iff_div]

/-- C4 at `m = 3`: the 3 x 7 table of the (7,4) code. -/
theorem generateHammingTable_shape_witness :
    (1 : Int) ≤ 3 ∧ (3 : Int) ≤ 63 ∧
    ∃ table, generateHammingTable 3 = .ok table ∧
      table.length = (3 : Int).toNat ∧
      (∀ row ∈ table, row.length = 2 ^ (3 : Int).toNat - 1) ∧
      (∀ row ∈ table, ∀ x ∈ row, x = 0 ∨ x = 1) ∧
      (∀ i j, i < (3 : Int).toNat → j < 2 ^ (3 : Int).toNat - 1 →
        ((table.getD i []).getD j 0 = 1 ↔ (j + 1) / 2 ^ i % 2 = 1)) :=
  ⟨by decide, by decide, generateHammingTable_shape 3 (by decide) (by decide)⟩

/-- C4 as stated fails at `m = 64`: `1<<64` is 0 on a 64-bit `int`, so
`n = -1` and `generateHammingTable(64)` panics in `make([]int, n)` instead of
returning 64 rows. -/
theorem generateHammingTable_shape_fails_at_64 :
    generateHammingTable 64 = .error .makeLenOutOfRange ∧
    ¬ ∃ table, generateHammingTable 64 = .ok table ∧
      table.length = (64 : Int).toNat ∧
      (∀ row ∈ table, row.length = 2 ^ (64 : Int).toNat - 1) := by
  refine ⟨rfl, ?_⟩
  rintro ⟨table, h, _⟩
  rw [generateHammingTable_of_ge_64 (by decide)] at h
  cases h

theorem ne_replicate_zero {s : List Int} (h : s ≠ List.replicate s.length 0) :
    ∃ b ∈ s, b ≠ 0 := by
  by_contra hno
  apply h
  apply List.eq_replicate_iff.2
  refine ⟨rfl, ?_⟩
  intro b hb
  by_contra hb0
  exact hno ⟨b, hb, hb0⟩

/-- C5, for `1 ≤ m ≤ 63`: every column of the table is a vector of `m` bits,
the columns are pairwise distinct, none is all-zero, and every nonzero vector
of `m` bits is the column of exactly one position `j < 2^m - 1`. -/
theorem generateHammingTable_columns (m : Int) (_h1 : 1 ≤ m) (h63 : m ≤ 63) :
    ∃ table, generateHammingTable m = .ok table ∧
      (∀ j, j < 2 ^ m.toNat - 1 →
        (columnOf table j).length = m.toNat ∧ ∀ b ∈ columnOf table j, b = 0 ∨ b = 1) ∧
      (∀ j j', j < 2 ^ m.toNat - 1 → j' < 2 ^ m.toNat - 1 →
        columnOf table j = columnOf table j' → j = j') ∧
      (∀ j, j < 2 ^ m.toNat - 1 → columnOf table j ≠ List.replicate m.toNat 0) ∧
      (∀ pattern : List Int, pattern.length = m.toNat → (∀ b ∈ pattern, b = 0 ∨ b = 1) →
        pattern ≠ List.replicate m.toNat 0 →
        ∃! j, j < 2 ^ m.toNat - 1 ∧ columnOf table j = pattern) := by
  obtain ⟨t, rfl⟩ : ∃ t : Nat, m = (t : Int) := ⟨m.toNat, by omega⟩
  simp only [Int.toNat_ofNat]
  have hinj : ∀ j j', j < 2 ^ t - 1 → j' < 2 ^ t - 1 → column t j = column t j' → j = j' := by
    intro j j' hj hj' heq
    apply column_inj hj hj'
    intro i hi
    rw [← column_getD j hi, ← column_getD j' hi, heq]
  refine ⟨closedTable t, generateHammingTable_eq (by omega), ?_, ?_, ?_, ?_⟩
  · intro j hj
    rw [columnOf_closedTable hj]
    refine ⟨column_length t j, ?_⟩
    intro b hb
    simp only [column, List.mem_map] at hb
    obtain ⟨i, _, rfl⟩ := hb
    exact tableEntry_bit i j
  · intro j j' hj hj' heq
    rw [columnOf_closedTable hj, columnOf_closedTable hj'] at heq
    exact hinj j j' hj hj' heq
  · intro j hj heq
    rw [columnOf_closedTable hj] at heq
    have h1 := isZero_column t j hj
    rw [heq, isZero_replicate] at h1
    cases h1
  · intro pattern hlen hbits hne
    obtain ⟨v, _, hlt, hget, hnz⟩ := bits_value pattern hbits
    have hne2 : pattern ≠ List.replicate pattern.length 0 := by rw [hlen]; exact hne
    have hv : v ≠ 0 := hnz (isZero_false_of_mem pattern (ne_replicate_zero hne2))
    have hcol := eq_column_of_bits pattern v (by omega) hget
    rw [hlen] at hcol hlt
    have hj : v - 1 < 2 ^ t - 1 := by omega
    refine ⟨v - 1, ⟨hj, by rw [columnOf_closedTable hj]; exact hcol.symm⟩, ?_⟩
    rintro j' ⟨hj', heq⟩
    rw [columnOf_closedTable hj'] at heq
    exact hinj j' (v - 1) hj' hj (by rw [heq]; exact hcol)

/-- C5 at `m = 3`: the seven columns of the (7,4) table. -/
theorem generateHammingTable_columns_witness :
    (1 : Int) ≤ 3 ∧ (3 : Int) ≤ 63 ∧
    ∃ table, generateHammingTable 3 = .ok table ∧
      (∀ j, j < 2 ^ (3 : Int).toNat - 1 →
        (columnOf table j).length = (3 : Int).toNat ∧ ∀ b ∈ columnOf table j, b = 0 ∨ b = 1) ∧
      (∀ j j', j < 2 ^ (3 : Int).toNat - 1 → j' < 2 ^ (3 : Int).toNat - 1 →
        columnOf table j = columnOf table j' → j = j') ∧
      (∀ j, j < 2 ^ (3 : Int).toNat - 1 →
        columnOf table j ≠ List.replicate (3 : Int).toNat 0) ∧
      (∀ pattern : List Int, pattern.length = (3 : Int).toNat →
        (∀ b ∈ pattern, b = 0 ∨ b = 1) → pattern ≠ List.replicate (3 : Int).toNat 0 →
        ∃! j, j < 2 ^ (3 : Int).toNat - 1 ∧ columnOf table j = pattern) :=
  ⟨by decide, by decide, generateHammingTable_columns 3 (by decide) (by decide)⟩

/-- C5 as stated fails at `m = 64`: no table is returned, so the pattern
`[1, 0, ..., 0]` is the column of no position. -/
theorem generateHammingTable_columns_fails_at_64 :
    generateHammingTable 64 = .error .makeLenOutOfRange ∧
    ¬ ∃ table, generateHammingTable 64 = .ok table ∧
      ∃ j, j < 2 ^ (64 : Int).toNat - 1 ∧ columnOf table j = 1 :: List.replicate 63 0 := by
  refine ⟨rfl, ?_⟩
  rintro ⟨table, h, _⟩
  rw [generateHammingTable_of_ge_64 (by decide)] at h
  cases h

/-! ## The encoder (claims C3, C6, C7) and the syndrome (claim C9) -/

theorem length_of_int_eq {t : Nat} {info : List Int}
    (h : (info.length : Int) = 2 ^ t - 1 - (t : Int)) : info.length = 2 ^ t - 1 - t := by
  have e := cast_two_pow_sub_one t
  have hle := le_two_pow_sub_one t
  have h1 : 1 ≤ 2 ^ t := Nat.one_le_two_pow
  omega

theorem int_eq_of_length {t : Nat} {info : List Int}
    (h : info.length = 2 ^ t - 1 - t) : (info.length : Int) = 2 ^ t - 1 - (t : Int) := by
  have e := cast_two_pow_sub_one t
  have hle := le_two_pow_sub_one t
  have h1 : 1 ≤ 2 ^ t := Nat.one_le_two_pow
  omega

theorem coveredColumns_tableRow (n i : Nat) :
    coveredColumns (tableRow n i) =
      (List.range n).filter (fun j => decide ((tableRow n i).getD j 0 = 1)) := by
  rw [coveredColumns, tableRow_length]

/-- A table that `generateHammingTable(m)` returned for `m ≥ 1` is the closed
form for some `t ≤ 63`: for larger `m` the call panics. -/
theorem table_of_ok {m : Int} {table : List (List Int)} (h1 : 1 ≤ m)
    (h : generateHammingTable m = .ok table) :
    ∃ t : Nat, m = (t : Int) ∧ 1 ≤ t ∧ t ≤ 63 ∧ table = closedTable t := by
  by_cases h63 : m ≤ 63
  · obtain ⟨t, rfl⟩ : ∃ t : Nat, m = (t : Int) := ⟨m.toNat, by omega⟩
    rw [generateHammingTable_eq (by omega)] at h
    cases h
    exact ⟨t, rfl, by omega, by omega, rfl⟩
  · rw [generateHammingTable_of_ge_64 (by omega)] at h
    cases h

/-- C3: with `table = generateHammingTable(m)`, `m ≥ 1`, and an information
vector of length `2^m - 1 - m`, the encoder returns a codeword whose syndrome
is the all-zero vector of length `m`; that is, for every row the XOR of the
codeword entries at the columns where the row holds 1 is 0. -/
theorem hammingEncode_zero_syndrome (m : Int) (table : List (List Int)) (info : List Int)
    (h1 : 1 ≤ m) (htable : generateHammingTable m = .ok table)
    (hlen : (info.length : Int) = 2 ^ m.toNat - 1 - m) :
    ∃ c, hammingEncode info table = .ok c ∧
      findSyndrome c table = .ok (List.replicate m.toNat 0) ∧
      ∀ i, i < m.toNat → xorAt c (coveredColumns (table.getD i [])) = 0 := by
  obtain ⟨t, rfl, ht1, ht63, rfl⟩ := table_of_ok h1 htable
  simp only [Int.toNat_ofNat] at hlen ⊢
  obtain ⟨c, hc, hinv⟩ := hammingEncode_closed t ht1 ht63 info (length_of_int_eq hlen)
  refine ⟨c, hc, ?_, ?_⟩
  · rw [findSyndrome_closed t c hinv.1]
    congr 1
    apply List.ext_getElem
    · simp
    · intro i h2 h3
      have hi : i < t := by simpa using h2
      simp only [List.getElem_map, List.getElem_range, List.getElem_replicate]
      exact hinv.2.2.2.1 i hi
  · intro i hi
    rw [closedTable_getD hi, coveredColumns_tableRow, ← parityOf_eq_xorAt]
    exact hinv.2.2.2.1 i hi

/-- C3 at `m = 3`, `info = [1,0,1,1]`. -/
theorem hammingEncode_zero_syndrome_witness :
    (1 : Int) ≤ 3 ∧ generateHammingTable 3 = .ok table3 ∧
    ((([1, 0, 1, 1] : List Int).length : Int) = 2 ^ (3 : Int).toNat - 1 - 3) ∧
    ∃ c, hammingEncode [1, 0, 1, 1] table3 = .ok c ∧
      findSyndrome c table3 = .ok (List.replicate (3 : Int).toNat 0) ∧
      ∀ i, i < (3 : Int).toNat → xorAt c (coveredColumns (table3.getD i [])) = 0 :=
  ⟨by decide, rfl, by decide,
    hammingEncode_zero_syndrome 3 table3 [1, 0, 1, 1] (by decide) rfl (by decide)⟩

/-- C6: with `table = generateHammingTable(m)`, `m ≥ 1`, reading the codeword
at the 1-indexed positions that are not powers of two, in increasing order,
gives back the information vector, all of it and nothing else. -/
theorem hammingEncode_places_info (m : Int) (table : List (List Int)) (info : List Int)
    (h1 : 1 ≤ m) (htable : generateHammingTable m = .ok table)
    (hlen : (info.length : Int) = 2 ^ m.toNat - 1 - m) :
    ∃ c, hammingEncode info table = .ok c ∧
      ((List.range (2 ^ m.toNat - 1)).filter (fun j => !isPow2 (j + 1))).map
        (fun j => c.getD j 0) = info := by
  obtain ⟨t, rfl, ht1, ht63, rfl⟩ := table_of_ok h1 htable
  simp only [Int.toNat_ofNat] at hlen ⊢
  have hk := length_of_int_eq hlen
  obtain ⟨c, hc, hinv⟩ := hammingEncode_closed t ht1 ht63 info hk
  refine ⟨c, hc, ?_⟩
  have hn := two_pow_sub_one_lt ht63
  have hfilter : (List.range (2 ^ t - 1)).filter (fun j => !isPow2 (j + 1))
      = (List.range (2 ^ t - 1)).filter (fun j => !posIsPow j) := by
    apply List.filter_congr
    intro j hj
    have hj2 : j < 2 ^ t - 1 := List.mem_range.1 hj
    rw [posIsPow_eq_isPow2 j (by omega)]
  have hmap : ((List.range (2 ^ t - 1)).filter (fun j => !posIsPow j)).map (fun j => c.getD j 0)
      = ((List.range (2 ^ t - 1)).filter (fun j => !posIsPow j)).map
          (fun j => info.getD (infoIndexAt j) 0) := by
    apply List.map_congr_left
    intro j hj
    obtain ⟨hj1, hj2⟩ := List.mem_filter.1 hj
    exact hinv.2.1 j (List.mem_range.1 hj1) (by simpa using hj2)
  have hfull := infoIndexAt_full t ht63
  rw [hfilter, hmap, read_info_positions info _ (by omega), hfull, ← hk, List.take_length]

/-- C6 at `m = 3`, `info = [1,0,1,1]`: the bits sit at positions 3, 5, 6, 7. -/
theorem hammingEncode_places_info_witness :
    (1 : Int) ≤ 3 ∧ generateHammingTable 3 = .ok table3 ∧
    ((([1, 0, 1, 1] : List Int).length : Int) = 2 ^ (3 : Int).toNat - 1 - 3) ∧
    ∃ c, hammingEncode [1, 0, 1, 1] table3 = .ok c ∧
      ((List.range (2 ^ (3 : Int).toNat - 1)).filter (fun j => !isPow2 (j + 1))).map
        (fun j => c.getD j 0) = [1, 0, 1, 1] :=
  ⟨by decide, rfl, by decide,
    hammingEncode_places_info 3 table3 [1, 0, 1, 1] (by decide) rfl (by decide)⟩

/-- C7: with `table = generateHammingTable(m)`, `m ≥ 1`, of `n = 2^m - 1`
columns, the encoder fails exactly when `len(info)` differs from `n - m`, and
then with the size panic; otherwise it returns a codeword of length `n`. -/
theorem hammingEncode_fails_iff (m : Int) (table : List (List Int)) (info : List Int)
    (h1 : 1 ≤ m) (htable : generateHammingTable m = .ok table) :
    ((∃ e, hammingEncode info table = .error e) ↔
        (info.length : Int) ≠ 2 ^ m.toNat - 1 - m) ∧
      ((info.length : Int) ≠ 2 ^ m.toNat - 1 - m →
        hammingEncode info table = .error .sizeMismatch) ∧
      ((info.length : Int) = 2 ^ m.toNat - 1 - m →
        ∃ c, hammingEncode info table = .ok c ∧ c.length = 2 ^ m.toNat - 1) := by
  obtain ⟨t, rfl, ht1, ht63, rfl⟩ := table_of_ok h1 htable
  simp only [Int.toNat_ofNat]
  have hbad : (info.length : Int) ≠ 2 ^ t - 1 - (t : Int) →
      hammingEncode info (closedTable t) = .error .sizeMismatch := by
    intro hne
    apply hammingEncode_mismatch t ht1 ht63
    intro hk
    exact hne (int_eq_of_length hk)
  have hgood : (info.length : Int) = 2 ^ t - 1 - (t : Int) →
      ∃ c, hammingEncode info (closedTable t) = .ok c ∧ c.length = 2 ^ t - 1 := by
    intro hk
    obtain ⟨c, hc, hinv⟩ := hammingEncode_closed t ht1 ht63 info (length_of_int_eq hk)
    exact ⟨c, hc, hinv.1⟩
  refine ⟨⟨?_, ?_⟩, hbad, hgood⟩
  · rintro ⟨e, he⟩ hk
    obtain ⟨c, hc, _⟩ := hgood hk
    rw [hc] at he
    cases he
  · intro hne
    exact ⟨_, hbad hne⟩

/-- C7 at `m = 3` with a vector of the wrong length 3. -/
theorem hammingEncode_fails_iff_witness :
    (1 : Int) ≤ 3 ∧ generateHammingTable 3 = .ok table3 ∧
    ((∃ e, hammingEncode [1, 0, 1] table3 = .error e) ↔
        ((([1, 0, 1] : List Int).length : Int) ≠ 2 ^ (3 : Int).toNat - 1 - 3)) ∧
      (((([1, 0, 1] : List Int).length : Int) ≠ 2 ^ (3 : Int).toNat - 1 - 3) →
        hammingEncode [1, 0, 1] table3 = .error .sizeMismatch) ∧
      (((([1, 0, 1] : List Int).length : Int) = 2 ^ (3 : Int).toNat - 1 - 3) →
        ∃ c, hammingEncode [1, 0, 1] table3 = .ok c ∧ c.length = 2 ^ (3 : Int).toNat - 1) :=
  ⟨by decide, rfl, hammingEncode_fails_iff 3 table3 [1, 0, 1] (by decide) rfl⟩

/-- C9: with `table = generateHammingTable(m)`, `m ≥ 1`, and a codeword of
length `2^m - 1`, `findSyndrome(c, table)` returns (no panic) a vector of
length `m` whose entry `i` is the XOR of `c[j]` over the columns with
`table[i][j] = 1`, which are the positions `j + 1` whose bit `i` is set. -/
theorem findSyndrome_total (m : Int) (table : List (List Int)) (c : List Int) (h1 : 1 ≤ m)
    (htable : generateHammingTable m = .ok table) (hc : c.length = 2 ^ m.toNat - 1) :
    ∃ s, findSyndrome c table = .ok s ∧ s.length = m.toNat ∧
      ∀ i, i < m.toNat →
        s.getD i 0 = xorAt c (coveredColumns (table.getD i [])) ∧
        s.getD i 0 = xorAt c ((List.range (2 ^ m.toNat - 1)).filter
          (fun j => decide ((j + 1) / 2 ^ i % 2 = 1))) := by
  obtain ⟨t, rfl, ht1, ht63, rfl⟩ := table_of_ok h1 htable
  simp only [Int.toNat_ofNat] at hc ⊢
  refine ⟨_, findSyndrome_closed t c hc, by simp, ?_⟩
  intro i hi
  have hget : ((List.range t).map
      (fun i => parityOf (tableRow (2 ^ t - 1) i) c (2 ^ t - 1))).getD i 0
      = parityOf (tableRow (2 ^ t - 1) i) c (2 ^ t - 1) := by
    simp [List.getD_eq_getElem?_getD, List.getElem?_map, List.getElem?_range hi]
  rw [hget, closedTable_getD hi, coveredColumns_tableRow, ← parityOf_eq_xorAt]
  refine ⟨rfl, ?_⟩
  rw [parityOf_eq_xorAt]
  congr 1
  apply List.filter_congr
  intro j hj
  have hj2 : j < 2 ^ t - 1 := List.mem_range.1 hj
  rw [tableRow_getD hj2]
  exact decide_eq_decide.2 (tableEntry_eq_one_iff_div i j)

/-- C9 at `m = 3` on the word `[1,1,1,0,0,1,0]`. -/
theorem findSyndrome_total_witness :
    (1 : Int) ≤ 3 ∧ generateHammingTable 3 = .ok table3 ∧
    (([1, 1, 1, 0, 0, 1, 0] : List Int).length = 2 ^ (3 : Int).toNat - 1) ∧
    ∃ s, findSyndrome [1, 1, 1, 0, 0, 1, 0] table3 = .ok s ∧
      s.length = (3 : Int).toNat ∧
      ∀ i, i < (3 : Int).toNat →
        s.getD i 0 = xorAt [1, 1, 1, 0, 0, 1, 0] (coveredColumns (table3.getD i [])) ∧
        s.getD i 0 = xorAt [1, 1, 1, 0, 0, 1, 0] ((List.range (2 ^ (3 : Int).toNat - 1)).filter
          (fun j => decide ((j + 1) / 2 ^ i % 2 = 1))) :=
  ⟨by decide, rfl, by decide,
    findSyndrome_total 3 table3 [1, 1, 1, 0, 0, 1, 0] (by decide) rfl (by decide)⟩

/-! ## Locating and repairing a single error (claims C2, C10, C1) -/

/-- C2: with `table = generateHammingTable(m)`, `m ≥ 1`, flip the bit at the
1-indexed position `p` of an encoded bit vector; the syndrome of the result,
read as a binary number with row 0 least significant, is `p`. -/
theorem syndrome_reads_position (m : Int) (table : List (List Int)) (info : List Int) (p : Nat)
    (h1 : 1 ≤ m) (htable : generateHammingTable m = .ok table)
    (hlen : (info.length : Int) = 2 ^ m.toNat - 1 - m)
    (hbits : ∀ b ∈ info, b = 0 ∨ b = 1) (hp1 : 1 ≤ p) (hpn : p ≤ 2 ^ m.toNat - 1) :
    ∃ c c' s, hammingEncode info table = .ok c ∧
      flipBit c ((p - 1 : Nat) : Int) = .ok c' ∧ findSyndrome c' table = .ok s ∧
      binaryValue s = (p : Int) := by
  obtain ⟨t, rfl, ht1, ht63, rfl⟩ := table_of_ok h1 htable
  simp only [Int.toNat_ofNat] at hlen hpn ⊢
  obtain ⟨c, hc, hinv⟩ := hammingEncode_closed t ht1 ht63 info (length_of_int_eq hlen)
  have he : p - 1 < 2 ^ t - 1 := by omega
  refine ⟨c, _, _, hc, flipBit_eq c (p - 1) (by rw [hinv.1]; exact he),
    syndrome_after_flip t info c hinv hbits (p - 1) he, ?_⟩
  rw [binaryValue_column t (p - 1) he]
  congr 1
  omega

/-- C2 at `m = 3`, `info = [1,0,1,1]`, `p = 5`. -/
theorem syndrome_reads_position_witness :
    (1 : Int) ≤ 3 ∧ generateHammingTable 3 = .ok table3 ∧
    ((([1, 0, 1, 1] : List Int).length : Int) = 2 ^ (3 : Int).toNat - 1 - 3) ∧
    (∀ b ∈ ([1, 0, 1, 1] : List Int), b = 0 ∨ b = 1) ∧ 1 ≤ 5 ∧ 5 ≤ 2 ^ (3 : Int).toNat - 1 ∧
    ∃ c c' s, hammingEncode [1, 0, 1, 1] table3 = .ok c ∧
      flipBit c ((5 - 1 : Nat) : Int) = .ok c' ∧ findSyndrome c' table3 = .ok s ∧
      binaryValue s = ((5 : Nat) : Int) :=
  ⟨by decide, rfl, by decide, by decide, by decide, by decide,
    syndrome_reads_position 3 table3 [1, 0, 1, 1] 5 (by decide) rfl (by decide) (by decide)
      (by decide) (by decide)⟩

/-- C10: with `table = generateHammingTable(m)`, `m ≥ 1`, on a syndrome of `m`
bits that is not all-zero the column scan returns the syndrome's binary value
minus one, a position in `[0, 2^m - 1)`; in particular it never returns `-1`. -/
theorem findErrorPosition_binary (m : Int) (table : List (List Int)) (s : List Int)
    (h1 : 1 ≤ m) (htable : generateHammingTable m = .ok table)
    (hlen : s.length = m.toNat) (hbits : ∀ b ∈ s, b = 0 ∨ b = 1) (hnz : ∃ b ∈ s, b ≠ 0) :
    findErrorPosition s table = .ok (binaryValue s - 1) ∧
      0 ≤ binaryValue s - 1 ∧ binaryValue s - 1 < 2 ^ m.toNat - 1 ∧
      binaryValue s - 1 ≠ -1 := by
  obtain ⟨t, rfl, ht1, ht63, rfl⟩ := table_of_ok h1 htable
  simp only [Int.toNat_ofNat] at hlen ⊢
  obtain ⟨v, hv, hlt, hget, hvnz⟩ := bits_value s hbits
  have hv0 : v ≠ 0 := hvnz (isZero_false_of_mem s hnz)
  have hcol := eq_column_of_bits s v (by omega) hget
  rw [hlen] at hcol hlt
  have hj : v - 1 < 2 ^ t - 1 := by omega
  have hfind := findErrorPosition_column t (v - 1) hj
  rw [← hcol] at hfind
  have hcast : ((v - 1 : Nat) : Int) = binaryValue s - 1 := by
    rw [hv]
    omega
  have hbound : ((v - 1 : Nat) : Int) < 2 ^ t - 1 := by
    rw [← cast_two_pow_sub_one]
    exact_mod_cast hj
  rw [hcast] at hfind hbound
  refine ⟨hfind, ?_, hbound, ?_⟩
  · rw [← hcast]
    omega
  · rw [← hcast]
    omega

/-- C10 at `m = 3` on the syndrome `[1,0,1]`, which reads 5. -/
theorem findErrorPosition_binary_witness :
    (1 : Int) ≤ 3 ∧ generateHammingTable 3 = .ok table3 ∧
    (([1, 0, 1] : List Int).length = (3 : Int).toNat) ∧
    (∀ b ∈ ([1, 0, 1] : List Int), b = 0 ∨ b = 1) ∧ (∃ b ∈ ([1, 0, 1] : List Int), b ≠ 0) ∧
    findErrorPosition [1, 0, 1] table3 = .ok (binaryValue [1, 0, 1] - 1) ∧
      0 ≤ binaryValue [1, 0, 1] - 1 ∧ binaryValue [1, 0, 1] - 1 < 2 ^ (3 : Int).toNat - 1 ∧
      binaryValue [1, 0, 1] - 1 ≠ -1 :=
  ⟨by decide, rfl, by decide, by decide, by decide,
    findErrorPosition_binary 3 table3 [1, 0, 1] (by decide) rfl (by decide) (by decide)
      (by decide)⟩

/-- One run of `main` on a table for `t ≤ 63` check bits, bit-valued
information and a draw `e` below the codeword length: the injected error is
found at `e`, repaired, and the final comparison succeeds. -/
theorem main_repairs (t : Nat) (info : List Int) (e : Nat) (h1 : 1 ≤ t) (h63 : t ≤ 63)
    (hk : info.length = 2 ^ t - 1 - t) (hbits : ∀ b ∈ info, b = 0 ∨ b = 1)
    (he : e < 2 ^ t - 1) :
    ∃ c, hammingEncode info (closedTable t) = .ok c ∧
      main (t : Int) info e = .ok
        { table := closedTable t, encoded := c, errorPos := (e : Int), syndrome := column t e,
          errorPosition := (e : Int), encodedWithError := c, same := true } := by
  obtain ⟨c, hc, hinv⟩ := hammingEncode_closed t h1 h63 info hk
  have hlen : c.length = 2 ^ t - 1 := hinv.1
  have hec : e < c.length := by omega
  have hpos : ¬ (goLen c ≤ 0) := by
    simp only [goLen]
    omega
  have hne : ((e : Nat) : Int) ≠ -1 := by omega
  refine ⟨c, hc, ?_⟩
  unfold main
  rw [generateHammingTable_eq h63, ok_bind, hc, ok_bind]
  dsimp only []
  rw [if_neg hpos, pure_eq_ok, ok_bind, Nat.mod_eq_of_lt hec, flipBit_eq c e hec, ok_bind,
    syndrome_after_flip t info c hinv hbits e he, ok_bind, findErrorPosition_column t e he,
    ok_bind, if_pos hne, flipBit_twice c e hec (hinv.2.2.2.2 hbits e he), ok_bind,
    compareVectors_self, ok_bind]
  rfl

/-- C1: with `table = generateHammingTable(m)`, `m ≥ 1`, encode a bit vector
and replace the bit at a 0-indexed position `e` by its complement; then the
position found from the syndrome is exactly `e`, flipping that bit again gives
back the codeword, `compareVectors` finds the two equal, and this is what a run
of `main` with that draw computes. -/
theorem single_error_corrected (m : Int) (table : List (List Int)) (info : List Int) (e : Nat)
    (h1 : 1 ≤ m) (htable : generateHammingTable m = .ok table)
    (hlen : (info.length : Int) = 2 ^ m.toNat - 1 - m)
    (hbits : ∀ b ∈ info, b = 0 ∨ b = 1) (he : e < 2 ^ m.toNat - 1) :
    ∃ c c' s c'', hammingEncode info table = .ok c ∧
      flipBit c (e : Int) = .ok c' ∧
      c'.getD e 0 = 1 - c.getD e 0 ∧
      findSyndrome c' table = .ok s ∧
      findErrorPosition s table = .ok (e : Int) ∧
      flipBit c' (e : Int) = .ok c'' ∧
      c'' = c ∧
      compareVectors c c'' = .ok true ∧
      ∃ run, main m info e = .ok run ∧ run.errorPos = (e : Int) ∧
        run.errorPosition = (e : Int) ∧ run.encodedWithError = c'' ∧ run.same = true := by
  obtain ⟨t, rfl, ht1, ht63, rfl⟩ := table_of_ok h1 htable
  simp only [Int.toNat_ofNat] at hlen he ⊢
  have hk := length_of_int_eq hlen
  obtain ⟨c, hc, hinv⟩ := hammingEncode_closed t ht1 ht63 info hk
  obtain ⟨c2, hc2, hrun⟩ := main_repairs t info e ht1 ht63 hk hbits he
  have hcc : c2 = c := by
    rw [hc] at hc2
    cases hc2
    rfl
  subst hcc
  have hec : e < c2.length := by rw [hinv.1]; exact he
  have hbit := hinv.2.2.2.2 hbits e he
  refine ⟨c2, _, _, c2, hc, flipBit_eq c2 e hec, ?_,
    syndrome_after_flip t info c2 hinv hbits e he,
    findErrorPosition_column t e he, flipBit_twice c2 e hec hbit, rfl, compareVectors_self c2,
    _, hrun, rfl, rfl, rfl, rfl⟩
  rw [getD_set_self c2 e _ hec]
  rcases hbit with h0 | h0 <;> rw [h0] <;> decide

/-- C1 at `m = 3`, `info = [1,0,1,1]`, error at index 4 (position 5). -/
theorem single_error_corrected_witness :
    (1 : Int) ≤ 3 ∧ generateHammingTable 3 = .ok table3 ∧
    ((([1, 0, 1, 1] : List Int).length : Int) = 2 ^ (3 : Int).toNat - 1 - 3) ∧
    (∀ b ∈ ([1, 0, 1, 1] : List Int), b = 0 ∨ b = 1) ∧ 4 < 2 ^ (3 : Int).toNat - 1 ∧
    ∃ c c' s c'', hammingEncode [1, 0, 1, 1] table3 = .ok c ∧
      flipBit c ((4 : Nat) : Int) = .ok c' ∧
      c'.getD 4 0 = 1 - c.getD 4 0 ∧
      findSyndrome c' table3 = .ok s ∧
      findErrorPosition s table3 = .ok ((4 : Nat) : Int) ∧
      flipBit c' ((4 : Nat) : Int) = .ok c'' ∧
      c'' = c ∧
      compareVectors c c'' = .ok true ∧
      ∃ run, main 3 [1, 0, 1, 1] 4 = .ok run ∧ run.errorPos = ((4 : Nat) : Int) ∧
        run.errorPosition = ((4 : Nat) : Int) ∧ run.encodedWithError = c'' ∧ run.same = true :=
  ⟨by decide, rfl, by decide, by decide, by decide,
    single_error_corrected 3 table3 [1, 0, 1, 1] 4 (by decide) rfl (by decide) (by decide)
      (by decide)⟩

/-! ## Non-positive `m` (claim C8) -/

theorem generateCombination_of_neg {k : Int} (draws : Nat → Int) (h : k < 0) :
    generateCombination k draws = .error .makeLenOutOfRange := by
  unfold generateCombination goMake
  rw [if_pos h]
  rfl

/-- For `k ≥ 0` the loop of `generateCombination(k)` fills a slice of length
`k` with the draws. -/
theorem generateCombination_of_nonneg {k : Int} (draws : Nat → Int) (h : 0 ≤ k) :
    ∃ infoBits, generateCombination k draws = .ok infoBits ∧ infoBits.length = k.toNat ∧
      ∀ i, i < k.toNat → infoBits.getD i 0 = draws i := by
  obtain ⟨t, rfl⟩ : ∃ t : Nat, k = (t : Int) := ⟨k.toNat, by omega⟩
  unfold generateCombination
  rw [goMake_nat, ok_bind, Int.toNat_ofNat]
  obtain ⟨r, hr, hlen, hget⟩ := forLoop_inv
    (fun i combination => goSet combination i (draws i.toNat))
    (fun c s => s.length = t ∧ ∀ i, i < c → s.getD i 0 = draws i) t (List.replicate t 0)
    ⟨List.length_replicate t 0, fun i hi => absurd hi (Nat.not_lt_zero i)⟩
    (fun c hc s ⟨hl, hs⟩ => ⟨s.set c (draws c), by
        show goSet s (c : Int) (draws (c : Int).toNat) = _
        rw [Int.toNat_ofNat]
        exact goSet_nat s c (draws c) (by omega),
      by rw [List.length_set, hl], fun i hi => by
        by_cases e : i = c
        · subst e
          exact getD_set_self s i (draws i) (by omega)
        · rw [getD_set_ne s c i (draws c) (fun h => e h.symm)]
          exact hs i (by omega)⟩)
  exact ⟨r, hr, hlen, hget⟩

/-- The part of the run after line 18, for `m ≤ 0`. -/
theorem main_of_nonpositive (m : Int) (infoBits : List Int) (rnd : Nat) :
    (m < 0 → main m infoBits rnd = .error .negativeShift) ∧
    (m = 0 → main m infoBits rnd = .error .indexOutOfRange) := by
  constructor
  · intro hm
    unfold main
    rw [generateHammingTable_of_neg hm, error_bind]
  · intro hm
    subst hm
    have hgen : generateHammingTable 0 = .ok [] := rfl
    unfold main
    rw [hgen, ok_bind, hammingEncode_nil, error_bind]

/-- C8, as the code behaves, for whatever `k` line 16 yields. When `k < 0` the
run aborts on line 18, in `make([]int, k)` of `generateCombination`, and
`generateHammingTable` is never called. When `k ≥ 0` line 18 returns `k` bits;
then for `m < 0` the run aborts with the runtime's negative-shift panic inside
`generateHammingTable`, before anything is allocated there, and for `m = 0`
`generateHammingTable` returns the empty table and the run aborts in
`hammingEncode`, on `table[0]`, with an index-out-of-range panic. No run with
`m ≤ 0` gets a codeword. -/
theorem nonpositive_m_aborts (m k : Int) (draws : Nat → Int) (rnd : Nat) (h : m ≤ 0) :
    (k < 0 → generateCombination k draws = .error .makeLenOutOfRange ∧
      mainFromK m k draws rnd = .error .makeLenOutOfRange) ∧
    (0 ≤ k → ∃ infoBits, generateCombination k draws = .ok infoBits ∧
      infoBits.length = k.toNat ∧
      (m < 0 → generateHammingTable m = .error .negativeShift ∧
        mainFromK m k draws rnd = .error .negativeShift) ∧
      (m = 0 → generateHammingTable m = .ok [] ∧
        hammingEncode infoBits [] = .error .indexOutOfRange ∧
        mainFromK m k draws rnd = .error .indexOutOfRange)) ∧
    ∃ panic, mainFromK m k draws rnd = .error panic := by
  have hneg : k < 0 → generateCombination k draws = .error .makeLenOutOfRange ∧
      mainFromK m k draws rnd = .error .makeLenOutOfRange := by
    intro hk
    refine ⟨generateCombination_of_neg draws hk, ?_⟩
    unfold mainFromK
    rw [generateCombination_of_neg draws hk, error_bind]
  have hpos : 0 ≤ k → ∃ infoBits, generateCombination k draws = .ok infoBits ∧
      infoBits.length = k.toNat ∧
      (m < 0 → generateHammingTable m = .error .negativeShift ∧
        mainFromK m k draws rnd = .error .negativeShift) ∧
      (m = 0 → generateHammingTable m = .ok [] ∧
        hammingEncode infoBits [] = .error .indexOutOfRange ∧
        mainFromK m k draws rnd = .error .indexOutOfRange) := by
    intro hk
    obtain ⟨infoBits, hgen, hlen, _⟩ := generateCombination_of_nonneg draws hk
    have hrun : mainFromK m k draws rnd = main m infoBits rnd := by
      unfold mainFromK
      rw [hgen, ok_bind]
    refine ⟨infoBits, hgen, hlen, ?_, ?_⟩
    · intro hm
      rw [hrun]
      exact ⟨generateHammingTable_of_neg hm, (main_of_nonpositive m infoBits rnd).1 hm⟩
    · intro hm
      rw [hrun]
      refine ⟨?_, hammingEncode_nil infoBits, (main_of_nonpositive m infoBits rnd).2 hm⟩
      rw [hm]
      rfl
  refine ⟨hneg, hpos, ?_⟩
  by_cases hk : k < 0
  · exact ⟨_, (hneg hk).2⟩
  · obtain ⟨_, _, _, h1, h2⟩ := hpos (by omega)
    by_cases hm : m < 0
    · exact ⟨_, (h1 hm).2⟩
    · exact ⟨_, (h2 (by omega)).2.2⟩

/-- C8 at three runs: `m = 0` with `k = 0`; `m = -3`, where line 16 gives
`k = int(2.125) = 2`; and `m = -2^63`, where the float `2^63` does not fit an
`int` and the conversion gives `k = -2^63` on amd64. -/
theorem nonpositive_m_aborts_witness :
    ((0 : Int) ≤ 0 ∧ generateHammingTable 0 = .ok [] ∧
      mainFromK 0 0 (fun _ => 0) 0 = .error .indexOutOfRange) ∧
    ((-3 : Int) ≤ 0 ∧ generateHammingTable (-3) = .error .negativeShift ∧
      mainFromK (-3) 2 (fun _ => 1) 0 = .error .negativeShift) ∧
    ((-9223372036854775808 : Int) ≤ 0 ∧
      generateCombination (-9223372036854775808) (fun _ => 0) = .error .makeLenOutOfRange ∧
      mainFromK (-9223372036854775808) (-9223372036854775808) (fun _ => 0) 0 =
        .error .makeLenOutOfRange) :=
  ⟨⟨by decide,
      ((nonpositive_m_aborts 0 0 (fun _ => 0) 0 (by decide)).2.1 (by decide)).elim
        (fun _ hx => ⟨(hx.2.2.2 rfl).1, (hx.2.2.2 rfl).2.2⟩)⟩,
    ⟨by decide,
      ((nonpositive_m_aborts (-3) 2 (fun _ => 1) 0 (by decide)).2.1 (by decide)).elim
        (fun _ hx => hx.2.2.1 (by decide))⟩,
    ⟨by decide,
      (nonpositive_m_aborts (-9223372036854775808) (-9223372036854775808) (fun _ => 0) 0
        (by decide)).1 (by decide)⟩⟩

/-- C8 as stated fails at `m = 0`: line 16 gives `k = 0`, `generateCombination`
returns the empty slice, the table builder is reached, runs and returns a
(0-row) table; the run is stopped only afterwards, by the index panic of
`hammingEncode`. -/
theorem nonpositive_m_builds_table :
    generateCombination 0 (fun _ => 0) = .ok [] ∧
    ∃ table, generateHammingTable 0 = .ok table ∧
      hammingEncode [] table = .error .indexOutOfRange ∧
      mainFromK 0 0 (fun _ => 0) 0 = .error .indexOutOfRange :=
  ⟨rfl, [], rfl, rfl, rfl⟩

/-! ## Worked runs -/

/-- The scenario `m = 3`, `info = [1,0,1,1]`: the codeword. -/
theorem run3_encoded : hammingEncode [1, 0, 1, 1] table3 = .ok [0, 1, 1, 0, 0, 1, 1] := rfl

/-- For `n = 7` the information positions are 3, 5, 6, 7 (indices 2, 4, 5, 6). -/
theorem run3_positions : (List.range 7).filter (fun j => !isPow2 (j + 1)) = [2, 4, 5, 6] := by
  decide

/-- The same scenario with position 5 (index 4) flipped: the syndrome reads 5. -/
theorem run3_syndrome :
    findSyndrome [0, 1, 1, 0, 1, 1, 1] table3 = .ok [1, 0, 1] ∧ binaryValue [1, 0, 1] = 5 :=
  ⟨rfl, rfl⟩

/-- A whole run of `main` for `m = 3` with the draw 4. -/
theorem run3_main :
    main 3 [1, 0, 1, 1] 4 = .ok
      { table := table3, encoded := [0, 1, 1, 0, 0, 1, 1], errorPos := 4,
        syndrome := [1, 0, 1], errorPosition := 4,
        encodedWithError := [0, 1, 1, 0, 0, 1, 1], same := true } := rfl

/-- For `m = 2` every information bit and every error position is repaired. -/
theorem run2_main :
    ∀ b ∈ ([0, 1] : List Int), ∀ e ∈ [0, 1, 2],
      (main 2 [b] e).map (fun r => (r.errorPosition, r.same)) = .ok ((e : Int), true) := by
  decide

/-- Entries that are not bits are encoded to a zero syndrome all the same, but
a "flip" `1 - x` of such an entry is not located: the bit hypothesis of the
correction theorems is needed. -/
theorem run3_not_bits :
    (hammingEncode [5, -3, 7, 1] table3).bind (fun c => findSyndrome c table3) = .ok [0, 0, 0] ∧
      (main 3 [5, -3, 7, 1] 4).map (fun r => (r.errorPosition, r.same)) = .ok (-1, false) :=
  ⟨rfl, rfl⟩

/-! ## No error, the smallest code, and the injected error (claims C11, C12, C13) -/

theorem isZero_of_all_zero (s : List Int) (h : ∀ b ∈ s, b = 0) : isZero s = true := by
  induction s with
  | nil => rfl
  | cons a s ih =>
    have ha : a = 0 := h a (List.mem_cons_self _ _)
    subst ha
    simpa [isZero] using ih (fun b hb => h b (List.mem_cons_of_mem _ hb))

/-- Lines 144-146: an all-zero syndrome is answered `-1` before the table is
looked at. -/
theorem findErrorPosition_of_isZero (s : List Int) (table : List (List Int))
    (h : isZero s = true) : findErrorPosition s table = .ok (-1) := by
  unfold findErrorPosition
  dsimp only []
  rw [if_pos h]
  rfl

/-- The copy of lines 24-25 has the content of the original. -/
theorem goCopy_make (c : List Int) : goCopy (List.replicate c.length (0 : Int)) c = c := by
  simp [goCopy]

theorem injectError_eq_flipBit (c : List Int) (pos : Int) : injectError c pos = flipBit c pos := by
  unfold injectError
  rw [goLen, goMake_nat, ok_bind]
  dsimp only []
  rw [goCopy_make]

/-- C11: with `table = generateHammingTable(m)`, `m ≥ 1`, and an information
vector of length `2^m - 1 - m`, the syndrome of the codeword makes
`findErrorPosition` return `-1`, and the correction step then leaves the
codeword as it is; `findErrorPosition` returns `-1` on every all-zero
syndrome, whatever the table. -/
theorem no_error_no_correction (m : Int) (table : List (List Int)) (info : List Int)
    (h1 : 1 ≤ m) (htable : generateHammingTable m = .ok table)
    (hlen : (info.length : Int) = 2 ^ m.toNat - 1 - m) :
    (∃ c s, hammingEncode info table = .ok c ∧ findSyndrome c table = .ok s ∧
      findErrorPosition s table = .ok (-1) ∧ correctError c (-1) = .ok c) ∧
    ∀ (s : List Int) (anyTable : List (List Int)), (∀ b ∈ s, b = 0) →
      findErrorPosition s anyTable = .ok (-1) := by
  obtain ⟨t, rfl, ht1, ht63, rfl⟩ := table_of_ok h1 htable
  simp only [Int.toNat_ofNat] at hlen
  obtain ⟨c, hc, hinv⟩ := hammingEncode_closed t ht1 ht63 info (length_of_int_eq hlen)
  have hsyn : findSyndrome c (closedTable t) = .ok (List.replicate t 0) := by
    rw [findSyndrome_closed t c hinv.1]
    congr 1
    apply List.ext_getElem
    · simp
    · intro i h2 h3
      have hi : i < t := by simpa using h2
      simp only [List.getElem_map, List.getElem_range, List.getElem_replicate]
      exact hinv.2.2.2.1 i hi
  refine ⟨⟨c, _, hc, hsyn, findErrorPosition_of_isZero _ _ (isZero_replicate t), rfl⟩, ?_⟩
  intro s anyTable hs
  exact findErrorPosition_of_isZero s anyTable (isZero_of_all_zero s hs)

/-- C11 at `m = 3`, `info = [1,0,1,1]`. -/
theorem no_error_no_correction_witness :
    (1 : Int) ≤ 3 ∧ generateHammingTable 3 = .ok table3 ∧
    ((([1, 0, 1, 1] : List Int).length : Int) = 2 ^ (3 : Int).toNat - 1 - 3) ∧
    (∃ c s, hammingEncode [1, 0, 1, 1] table3 = .ok c ∧ findSyndrome c table3 = .ok s ∧
      findErrorPosition s table3 = .ok (-1) ∧ correctError c (-1) = .ok c) ∧
    ∀ (s : List Int) (anyTable : List (List Int)), (∀ b ∈ s, b = 0) →
      findErrorPosition s anyTable = .ok (-1) :=
  ⟨by decide, rfl, by decide,
    no_error_no_correction 3 table3 [1, 0, 1, 1] (by decide) rfl (by decide)⟩

/-- C12: the run for `m = 1`. The table is `[[1]]`, so `n = 1` and
`k = n - m = 0`; the empty information vector encodes to `[0]`; the flipped
word `[1]` has syndrome `[1]`, the error is found at index 0 and the
correction gives `[0]` back. Every draw leads `main` through these values. -/
theorem smallest_code_runs :
    generateHammingTable 1 = .ok [[1]] ∧
    goLen ([1] : List Int) = 1 ∧ goSub (goLen ([1] : List Int)) (goLen ([[1]] : List (List Int))) = 0 ∧
    hammingEncode [] [[1]] = .ok [0] ∧
    injectError [0] 0 = .ok [1] ∧
    findSyndrome [1] [[1]] = .ok [1] ∧
    findErrorPosition [1] [[1]] = .ok 0 ∧
    correctError [1] 0 = .ok [0] ∧
    compareVectors [0] [0] = .ok true ∧
    ∀ rnd : Nat, main 1 [] rnd = .ok
      { table := [[1]], encoded := [0], errorPos := 0, syndrome := [1], errorPosition := 0,
        encodedWithError := [0], same := true } := by
  refine ⟨rfl, rfl, rfl, rfl, rfl, rfl, rfl, rfl, rfl, ?_⟩
  intro rnd
  have hmod : rnd % ([0] : List Int).length = 0 := Nat.mod_one rnd
  have henc : hammingEncode [] [[1]] = .ok [0] := rfl
  have hgen : generateHammingTable 1 = .ok [[1]] := rfl
  unfold main
  rw [hgen, ok_bind, henc, ok_bind]
  dsimp only []
  rw [hmod]
  rfl

/-- C13: for a vector of bits and a position inside it, the corrupted copy of
lines 24-26 has the length of the original, holds `1 - c[e]` at `e` and the
original's value everywhere else, and flipping position `e` once more gives
the original back. The original is the unchanged argument `c`: these lines
write only to the copy. -/
theorem injectError_frame (c : List Int) (e : Nat) (hbits : ∀ b ∈ c, b = 0 ∨ b = 1)
    (he : e < c.length) :
    ∃ c', injectError c (e : Int) = .ok c' ∧
      c'.length = c.length ∧
      c'.getD e 0 = 1 - c.getD e 0 ∧
      (∀ j, j ≠ e → c'.getD j 0 = c.getD j 0) ∧
      flipBit c' (e : Int) = .ok c := by
  have hbit := getD_bit_of_mem c hbits e
  refine ⟨c.set e (goSub 1 (c.getD e 0)), ?_, by simp, ?_, ?_, flipBit_twice c e he hbit⟩
  · rw [injectError_eq_flipBit, flipBit_eq c e he]
  · rw [getD_set_self c e _ he]
    rcases hbit with h0 | h0 <;> rw [h0] <;> decide
  · intro j hj
    exact getD_set_ne c e j _ (fun h => hj h.symm)

/-- C13 on the codeword `[0,1,1,0,0,1,1]` at index 4. -/
theorem injectError_frame_witness :
    (∀ b ∈ ([0, 1, 1, 0, 0, 1, 1] : List Int), b = 0 ∨ b = 1) ∧
    4 < ([0, 1, 1, 0, 0, 1, 1] : List Int).length ∧
    ∃ c', injectError [0, 1, 1, 0, 0, 1, 1] ((4 : Nat) : Int) = .ok c' ∧
      c'.length = ([0, 1, 1, 0, 0, 1, 1] : List Int).length ∧
      c'.getD 4 0 = 1 - ([0, 1, 1, 0, 0, 1, 1] : List Int).getD 4 0 ∧
      (∀ j, j ≠ 4 → c'.getD j 0 = ([0, 1, 1, 0, 0, 1, 1] : List Int).getD j 0) ∧
      flipBit c' ((4 : Nat) : Int) = .ok [0, 1, 1, 0, 0, 1, 1] :=
  ⟨by decide, by decide, injectError_frame [0, 1, 1, 0, 0, 1, 1] 4 (by decide) (by decide)⟩

end Hamming

namespace Cipher

open Hamming (wrapInt goAdd goSub)

set_option maxRecDepth 20000

/-! ## The Caesar round trip without `ё` -/

theorem tmod_neg_nat (a n : Nat) : Int.tmod (-(a : Int)) (n : Int) = -((a % n : Nat) : Int) := by
  cases a with
  | zero => simp
  | succ a => rfl

/-- The double remainder `((x % 26) + 26) % 26` of the ciphers is the
mathematical residue of `x`. -/
theorem double_rem_26 (x : Int) : goRem (goAdd (goRem x 26) 26) 26 = x % 26 := by
  unfold goRem
  rcases Int.lt_or_le x 0 with hx | hx
  · obtain ⟨a, rfl⟩ : ∃ a : Nat, x = -(a : Int) := ⟨(-x).toNat, by omega⟩
    have h := tmod_neg_nat a 26
    have h' : Int.tmod (-(a : Int)) 26 = -((a % 26 : Nat) : Int) := h
    rw [h', Hamming.goAdd, Hamming.wrapInt_of_range (by omega) (by omega),
      Int.tmod_eq_emod (by omega) (by decide)]
    omega
  · rw [Int.tmod_eq_emod hx (by decide), Hamming.goAdd,
      Hamming.wrapInt_of_range (by omega) (by omega), Int.tmod_eq_emod (by omega) (by decide)]
    omega

theorem double_rem_32 (x : Int) : goRem (goAdd (goRem x 32) 32) 32 = x % 32 := by
  unfold goRem
  rcases Int.lt_or_le x 0 with hx | hx
  · obtain ⟨a, rfl⟩ : ∃ a : Nat, x = -(a : Int) := ⟨(-x).toNat, by omega⟩
    have h := tmod_neg_nat a 32
    have h' : Int.tmod (-(a : Int)) 32 = -((a % 32 : Nat) : Int) := h
    rw [h', Hamming.goAdd, Hamming.wrapInt_of_range (by omega) (by omega),
      Int.tmod_eq_emod (by omega) (by decide)]
    omega
  · rw [Int.tmod_eq_emod hx (by decide), Hamming.goAdd,
      Hamming.wrapInt_of_range (by omega) (by omega), Int.tmod_eq_emod (by omega) (by decide)]
    omega

/-- A rune that `WriteRune` writes as it is: not negative, not above
U+10FFFF, not a surrogate. -/
theorem writeRune_valid (result : List Int) (r : Int)
    (h : ¬ (r < 0 ∨ 0x10FFFF < r ∨ (0xD800 ≤ r ∧ r ≤ 0xDFFF))) :
    writeRune result r = result ++ [r] := by
  unfold writeRune
  rw [if_neg h]

theorem writeRune_append (result : List Int) (r : Int) :
    writeRune result r = result ++ writeRune [] r := by
  unfold writeRune
  rfl

/-- A loop that only appends to its accumulator can be run on an empty
accumulator. -/
theorem foldl_appends {α : Type} (g : List Int → α → List Int)
    (hg : ∀ acc r, g acc r = acc ++ g [] r) :
    ∀ (text : List α) (acc : List Int), text.foldl g acc = acc ++ text.foldl g [] := by
  intro text
  induction text with
  | nil =>
    intro acc
    simp
  | cons r text ih =>
    intro acc
    rw [List.foldl_cons, List.foldl_cons, ih (g acc r), ih (g [] r), hg acc r, List.append_assoc]

theorem simpleCipher_cons (r : Int) (text : List Int) (key : Int) :
    simpleCipher (r :: text) key = simpleCipher [r] key ++ simpleCipher text key := by
  unfold simpleCipher
  rw [List.foldl_cons, foldl_appends _ _ text]
  · rfl
  · intro acc r
    dsimp only []
    split_ifs <;> exact writeRune_append _ _

theorem simpleCipher_append (s t : List Int) (key : Int) :
    simpleCipher (s ++ t) key = simpleCipher s key ++ simpleCipher t key := by
  induction s with
  | nil => rfl
  | cons r s ih =>
    rw [List.cons_append, simpleCipher_cons r (s ++ t), ih, simpleCipher_cons r s,
      List.append_assoc]

theorem rune_consts :
    rune 'a' = 97 ∧ rune 'z' = 122 ∧ rune 'а' = 1072 ∧ rune 'я' = 1103 ∧ rune 'ё' = 1105 ∧
      rune 'е' = 1077 :=
  ⟨rfl, rfl, rfl, rfl, rfl, rfl⟩

/-- What `simpleCipher` writes for a Latin letter. -/
theorem simpleCipher_latin (r key : Int) (h1 : 97 ≤ r) (h2 : r ≤ 122) :
    simpleCipher [r] key = [97 + wrapInt (r - 97 + key) % 26] := by
  obtain ⟨ca, cz, _, _, _, _⟩ := rune_consts
  have hc : r ≥ rune 'a' ∧ r ≤ rune 'z' := by
    rw [ca, cz]
    exact ⟨h1, h2⟩
  unfold simpleCipher
  rw [List.foldl_cons, List.foldl_nil, if_pos hc]
  dsimp only []
  rw [double_rem_26, ca, Hamming.goSub, Hamming.wrapInt_of_range (by omega) (by omega),
    Hamming.goAdd, Hamming.goAdd,
    @Hamming.wrapInt_of_range (97 + wrapInt (r - 97 + key) % 26) (by omega) (by omega)]
  have ht : toRune (97 + wrapInt (r - 97 + key) % 26) = 97 + wrapInt (r - 97 + key) % 26 := by
    unfold toRune
    omega
  rw [ht, writeRune_valid _ _ (by omega)]
  rfl

/-- What `simpleCipher` writes for a Russian letter other than `ё`. -/
theorem simpleCipher_cyrillic (r key : Int) (h1 : 1072 ≤ r) (h2 : r ≤ 1103) :
    simpleCipher [r] key = [1072 + wrapInt (r - 1072 + key) % 32] := by
  obtain ⟨ca, cz, cb, cy, _, _⟩ := rune_consts
  have hl : ¬ (r ≥ rune 'a' ∧ r ≤ rune 'z') := by
    rw [ca, cz]
    omega
  have hc : r ≥ rune 'а' ∧ r ≤ rune 'я' := by
    rw [cb, cy]
    exact ⟨h1, h2⟩
  unfold simpleCipher
  rw [List.foldl_cons, List.foldl_nil, if_neg hl, if_pos hc]
  dsimp only []
  rw [double_rem_32, cb, Hamming.goSub, Hamming.wrapInt_of_range (by omega) (by omega),
    Hamming.goAdd, Hamming.goAdd,
    @Hamming.wrapInt_of_range (1072 + wrapInt (r - 1072 + key) % 32) (by omega) (by omega)]
  have ht : toRune (1072 + wrapInt (r - 1072 + key) % 32) =
      1072 + wrapInt (r - 1072 + key) % 32 := by
    unfold toRune
    omega
  rw [ht, writeRune_valid _ _ (by omega)]
  rfl

/-- Every other rune that `WriteRune` keeps is copied, `ё` apart. -/
theorem simpleCipher_other (r key : Int) (hl : ¬ (97 ≤ r ∧ r ≤ 122))
    (hc : ¬ (1072 ≤ r ∧ r ≤ 1103)) (hyo : r ≠ 1105)
    (hv : ¬ (r < 0 ∨ 0x10FFFF < r ∨ (0xD800 ≤ r ∧ r ≤ 0xDFFF))) :
    simpleCipher [r] key = [r] := by
  obtain ⟨ca, cz, cb, cy, cyo, _⟩ := rune_consts
  have hl2 : ¬ (r ≥ rune 'a' ∧ r ≤ rune 'z') := by
    rw [ca, cz]
    exact hl
  have hc2 : ¬ (r ≥ rune 'а' ∧ r ≤ rune 'я') := by
    rw [cb, cy]
    exact hc
  have hyo2 : ¬ (r = rune 'ё') := by
    rw [cyo]
    exact hyo
  unfold simpleCipher
  rw [List.foldl_cons, List.foldl_nil, if_neg hl2, if_neg hc2, if_neg hyo2,
    writeRune_valid _ _ hv]
  rfl

/-- The round trip of one rune. For a Latin letter the key must leave room for
the sum `int(r) - 'a' + key` in both directions. -/
theorem simpleCipher_round_trip_rune (r key : Int) (hyo : r ≠ 1105)
    (hv : ¬ (r < 0 ∨ 0x10FFFF < r ∨ (0xD800 ≤ r ∧ r ≤ 0xDFFF)))
    (hk : 97 ≤ r ∧ r ≤ 122 → -(2 ^ 63 - 26) ≤ key ∧ key ≤ 2 ^ 63 - 26) :
    simpleDecipher (simpleCipher [r] key) key = [r] := by
  unfold simpleDecipher goNeg
  by_cases hl : 97 ≤ r ∧ r ≤ 122
  · obtain ⟨hk1, hk2⟩ := hk hl
    rw [simpleCipher_latin r key hl.1 hl.2,
      simpleCipher_latin _ _ (by omega) (by omega)]
    unfold Hamming.wrapInt
    congr 1
    omega
  · by_cases hc : 1072 ≤ r ∧ r ≤ 1103
    · rw [simpleCipher_cyrillic r key hc.1 hc.2,
        simpleCipher_cyrillic _ _ (by omega) (by omega)]
      unfold Hamming.wrapInt
      congr 1
      omega
    · rw [simpleCipher_other r key hl hc hyo hv, simpleCipher_other r _ hl hc hyo hv]

theorem simpleCipher_round_trip_text (key : Int) :
    ∀ text : List Int, (∀ r ∈ text, r ≠ 1105) →
      (∀ r ∈ text, ¬ (r < 0 ∨ 0x10FFFF < r ∨ (0xD800 ≤ r ∧ r ≤ 0xDFFF))) →
      ((∃ r ∈ text, 97 ≤ r ∧ r ≤ 122) → -(2 ^ 63 - 26) ≤ key ∧ key ≤ 2 ^ 63 - 26) →
      simpleDecipher (simpleCipher text key) key = text := by
  intro text
  induction text with
  | nil =>
    intro _ _ _
    rfl
  | cons r text ih =>
    intro hyo hv hk
    have h1 := simpleCipher_round_trip_rune r key (hyo r (List.mem_cons_self r text))
      (hv r (List.mem_cons_self r text))
      (fun hl => hk ⟨r, List.mem_cons_self r text, hl⟩)
    have h2 := ih (fun x hx => hyo x (List.mem_cons_of_mem r hx))
      (fun x hx => hv x (List.mem_cons_of_mem r hx))
      (fun ⟨x, hx, hl⟩ => hk ⟨x, List.mem_cons_of_mem r hx, hl⟩)
    unfold simpleDecipher at h1 h2 ⊢
    rw [simpleCipher_cons, simpleCipher_append, h1, h2]
    rfl

/-- Every rune of a text made by `preprocessText` is one `WriteRune` keeps. -/
theorem preprocessText_valid (u : Unicode) (text : List Int) :
    ∀ r ∈ preprocessText u text, ¬ (r < 0 ∨ 0x10FFFF < r ∨ (0xD800 ≤ r ∧ r ≤ 0xDFFF)) := by
  unfold preprocessText
  generalize toLowerString u text = l
  have key : ∀ (l : List Int) (acc : List Int),
      (∀ r ∈ acc, ¬ (r < 0 ∨ 0x10FFFF < r ∨ (0xD800 ≤ r ∧ r ≤ 0xDFFF))) →
      ∀ r ∈ l.foldl
        (fun result r => if u.isLetter r || u.isSpace r then writeRune result r else result) acc,
        ¬ (r < 0 ∨ 0x10FFFF < r ∨ (0xD800 ≤ r ∧ r ≤ 0xDFFF)) := by
    intro l
    induction l with
    | nil =>
      intro acc h
      exact h
    | cons x l ih =>
      intro acc h
      rw [List.foldl_cons]
      apply ih
      split_ifs
      · intro r hr
        unfold writeRune at hr
        rcases List.mem_append.1 hr with h1 | h1
        · exact h r h1
        · rw [List.mem_singleton] at h1
          split_ifs at h1 <;> omega
      · exact h
  exact key l [] (fun r hr => absurd hr (List.not_mem_nil r))

/-! ## Caesar round trip (claim C14) -/

/-- C14, without `ё` and with room for the key: for every text `t` made by
`preprocessText` that does not contain `ё`, and every key, where a text with a
Latin letter needs `|key| ≤ 2^63 - 26`,
`simpleDecipher(simpleCipher(t, key), key)` is `t`. -/
theorem simpleCipher_round_trip (u : Unicode) (originalText : List Int) (key : Int)
    (hyo : rune 'ё' ∉ preprocessText u originalText)
    (hk : (∃ r ∈ preprocessText u originalText, rune 'a' ≤ r ∧ r ≤ rune 'z') →
      -(2 ^ 63 - 26) ≤ key ∧ key ≤ 2 ^ 63 - 26) :
    simpleDecipher (simpleCipher (preprocessText u originalText) key) key =
      preprocessText u originalText := by
  obtain ⟨ca, cz, _, _, cyo, _⟩ := rune_consts
  rw [ca, cz] at hk
  rw [cyo] at hyo
  exact simpleCipher_round_trip_text key _ (fun r hr e => hyo (e ▸ hr))
    (preprocessText_valid u originalText) hk

/-- C14 on `"Привет, мир! Hello"` with key 3. -/
theorem simpleCipher_round_trip_witness :
    rune 'ё' ∉ preprocessText russianLatin (str "Привет, мир! Hello") ∧
    simpleCipher (preprocessText russianLatin (str "Привет, мир! Hello")) 3 =
      str "тулеих плу khoor" ∧
    simpleDecipher (simpleCipher (preprocessText russianLatin (str "Привет, мир! Hello")) 3) 3 =
      preprocessText russianLatin (str "Привет, мир! Hello") :=
  ⟨by decide!, by decide!,
    simpleCipher_round_trip russianLatin (str "Привет, мир! Hello") 3 (by decide!)
      (fun _ => ⟨by decide, by decide⟩)⟩

/-- C14 as stated fails at the key `2^63 - 1`: the sum `int(r) - 'a' + key`
wraps for every Latin letter but `a`, and 26 does not divide `2^64`, so `"b"`
is enciphered as `"s"` and comes back as `"l"`. -/
theorem simpleCipher_wraps_at_max_key :
    preprocessText russianLatin (str "b") = str "b" ∧
    simpleCipher (str "b") (2 ^ 63 - 1) = str "s" ∧
    simpleDecipher (str "s") (2 ^ 63 - 1) = str "l" ∧
    simpleDecipher (simpleCipher (preprocessText russianLatin (str "b")) (2 ^ 63 - 1))
      (2 ^ 63 - 1) ≠ preprocessText russianLatin (str "b") := by
  have h0 : preprocessText russianLatin (str "b") = str "b" := rfl
  have h1 : simpleCipher (str "b") (2 ^ 63 - 1) = str "s" := rfl
  have h2 : simpleDecipher (str "s") (2 ^ 63 - 1) = str "l" := rfl
  refine ⟨h0, h1, h2, ?_⟩
  rw [h0, h1, h2]
  decide

/-! ## The letter `ё` is not recovered (claims C14, C15) -/

/-- The part of C14 about `ё`, at the text `"ё"` (what `preprocessText` makes
of `"Ё"`) with key 1: `simpleCipher` writes `"ж"`, the letter after `е`, and
`simpleDecipher` turns that into `"е"`, not `"ё"`; the check `main` reports is
`false`. -/
theorem simpleCipher_loses_yo :
    preprocessText russianLatin (str "Ё") = str "ё" ∧
    simpleCipher (str "ё") 1 = str "ж" ∧
    simpleDecipher (str "ж") 1 = str "е" ∧
    simpleDecipher (simpleCipher (str "ё") 1) 1 ≠ str "ё" ∧
    (correctnessChecks russianLatin (str "Ё") 1 (str "ключ")).map Prod.fst = .ok false := by
  have h1 : simpleCipher (str "ё") 1 = str "ж" := rfl
  have h2 : simpleDecipher (str "ж") 1 = str "е" := rfl
  refine ⟨rfl, h1, h2, ?_, rfl⟩
  rw [h1, h2]
  decide

/-- C15 at the text `"ё"` with the key `"b"` (shift 1): `complexCipher` writes
`"ж"` and `complexDecipher` turns that into `"е"`, not `"ё"`; the check `main`
reports is `false`. -/
theorem complexCipher_loses_yo :
    preprocessText russianLatin (str "Ё") = str "ё" ∧
    prepareVigenereKey russianLatin (str "b") = str "b" ∧
    complexCipher russianLatin (str "ё") (str "b") = .ok (str "ж") ∧
    complexDecipher russianLatin (str "ж") (str "b") = .ok (str "е") ∧
    (correctnessChecks russianLatin (str "Ё") 1 (str "b")).map Prod.snd = .ok false :=
  ⟨rfl, rfl, rfl, rfl, rfl⟩

/-! ## The key is read byte by byte (claim C16) -/

/-- C16 at the text `"а"` with the key `"ключ"`: the claim asks for the shift
of `к`, position 10, which gives `"к"`; `complexCipher` reads the first byte of
the key's encoding, `0xD0`, whose position is 0, and returns `"а"`. No letter
of a text is changed under this key. -/
theorem complexCipher_reads_bytes :
    prepareVigenereKey russianLatin (str "ключ") = str "ключ" ∧
    utf8 (str "ключ") = [0xD0, 0xBA, 0xD0, 0xBB, 0xD1, 0x8E, 0xD1, 0x87] ∧
    getLetterPosition (rune 'к') = 10 ∧ getLetterPosition 0xD0 = 0 ∧
    vigenereByRunes russianLatin (str "а") (str "ключ") = str "к" ∧
    complexCipher russianLatin (str "а") (str "ключ") = .ok (str "а") ∧
    complexCipher russianLatin (str "привет мир") (str "ключ") = .ok (str "привет мир") ∧
    vigenereByRunes russianLatin (str "привет мир") (str "ключ") = str "щыжщпэ кяъ" :=
  ⟨rfl, rfl, rfl, rfl, rfl, rfl, rfl, rfl⟩

/-- With a Latin key the same text is enciphered as C16 says. -/
theorem complexCipher_latin_key :
    complexCipher russianLatin (str "привет мир hello") (str "key") =
      .ok (vigenereByRunes russianLatin (str "привет мир hello") (str "key")) := rfl

end Cipher

namespace Sieve

open Hamming (wrapInt goAdd goSub)

/-! ## Facts about the primitives and loop rules -/

theorem sieve_ok_bind {α β : Type} (a : α) (f : α → Except Stop β) :
    ((Except.ok a : Except Stop α) >>= f) = f a := rfl

theorem sieve_pure_eq_ok {α : Type} (a : α) : (pure a : Except Stop α) = Except.ok a := rfl

theorem sieve_goGet_nat {α : Type} (v : List α) (t : Nat) (h : t < v.length) :
    goGet v (t : Int) = .ok v[t] := by
  have hneg : ¬ ((t : Int) < 0) := by omega
  simp [goGet, hneg, List.getElem?_eq_getElem h]

theorem sieve_goGet_getD (v : List Bool) (t : Nat) (h : t < v.length) :
    goGet v (t : Int) = .ok (v.getD t false) := by
  rw [sieve_goGet_nat v t h]
  simp [List.getD_eq_getElem?_getD, List.getElem?_eq_getElem h]

theorem sieve_goSet_nat {α : Type} (v : List α) (t : Nat) (x : α) (h : t < v.length) :
    goSet v (t : Int) x = .ok (v.set t x) := by
  have hneg : ¬ ((t : Int) < 0) := by omega
  simp [goSet, hneg, h]

theorem sieve_goMake_nat {α : Type} (z : α) (t : Nat) :
    goMake z (t : Int) = .ok (List.replicate t z) := by
  have hneg : ¬ ((t : Int) < 0) := by omega
  simp [goMake, hneg]

theorem goMul_nat {a b : Nat} (h : a * b < 2 ^ 63) :
    goMul (a : Int) (b : Int) = ((a * b : Nat) : Int) := by
  unfold goMul
  rw [Hamming.wrapInt_of_range]
  · push_cast
    rfl
  · have : (0 : Int) ≤ (a : Int) * (b : Int) := by positivity
    omega
  · have : ((a * b : Nat) : Int) < 2 ^ 63 := by exact_mod_cast h
    push_cast at this
    exact this

theorem goAdd_nat {a b : Nat} (h : a + b < 2 ^ 63) :
    goAdd (a : Int) (b : Int) = ((a + b : Nat) : Int) := by
  unfold Hamming.goAdd
  rw [Hamming.wrapInt_of_range]
  · push_cast
    rfl
  · omega
  · omega

theorem getD_set_bool (v : List Bool) (i k : Nat) (x : Bool) (h : i < v.length) :
    (v.set i x).getD k false = if k = i then x else v.getD k false := by
  by_cases hk : k = i
  · subst hk
    simp [List.getD_eq_getElem?_getD, List.getElem?_set_self h]
  · have hne : i ≠ k := fun e => hk e.symm
    simp [List.getD_eq_getElem?_getD, List.getElem?_set_ne hne, hk]

/-- Rule for the counted loop: an invariant carried through `count` passes. -/
theorem forRange_inv {σ : Type} (body : Int → σ → Except Stop σ) (Inv : Nat → σ → Prop)
    (k : Nat) (start : Int)
    (hstep : ∀ t, t < k → ∀ s, Inv t s → ∃ s', body (start + t) s = .ok s' ∧ Inv (t + 1) s') :
    ∀ (c : Nat) (s : σ), c ≤ k → Inv (k - c) s →
      ∃ s', forRange body c (start + ((k - c : Nat) : Int)) s = .ok s' ∧ Inv k s' := by
  intro c
  induction c with
  | zero =>
    intro s _ h
    exact ⟨s, rfl, by simpa using h⟩
  | succ c ih =>
    intro s hc h
    obtain ⟨s1, hb, h1⟩ := hstep (k - (c + 1)) (by omega) s h
    have e : k - (c + 1) + 1 = k - c := by omega
    rw [e] at h1
    obtain ⟨s2, hl, h2⟩ := ih s1 (by omega) h1
    refine ⟨s2, ?_, h2⟩
    have e2 : start + ((k - (c + 1) : Nat) : Int) + 1 = start + ((k - c : Nat) : Int) := by omega
    simp only [forRange, hb, e2, hl]

/-- Rule for the conditional loop. The loop variable takes the values
`idx 0, idx 1, ...`; the condition holds at the first `N` of them and fails at
`idx N`; every pass keeps the invariant and does not panic. Then `N + 1` units
of fuel are enough and the loop ends with the invariant at `N`. -/
theorem forCond_inv {σ : Type} (cond : Int → Bool) (post : Int → Int)
    (body : Int → σ → Except Stop σ) (idx : Nat → Int) (N : Nat) (Inv : Nat → σ → Prop)
    (hpost : ∀ t, t < N → post (idx t) = idx (t + 1))
    (hcond : ∀ t, t < N → cond (idx t) = true) (hend : cond (idx N) = false)
    (hstep : ∀ t, t < N → ∀ s, Inv t s → ∃ s', body (idx t) s = .ok s' ∧ Inv (t + 1) s') :
    ∀ (c : Nat) (fuel : Nat) (s : σ), c ≤ N → c < fuel → Inv (N - c) s →
      ∃ s', forCond cond post body fuel (idx (N - c)) s = .ok s' ∧ Inv N s' := by
  intro c
  induction c with
  | zero =>
    intro fuel s _ hf h
    obtain ⟨f, rfl⟩ : ∃ f, fuel = f + 1 := ⟨fuel - 1, by omega⟩
    refine ⟨s, ?_, by simpa using h⟩
    simp only [forCond, Nat.sub_zero, hend]
    rfl
  | succ c ih =>
    intro fuel s hc hf h
    obtain ⟨f, rfl⟩ : ∃ f, fuel = f + 1 := ⟨fuel - 1, by omega⟩
    have hlt : N - (c + 1) < N := by omega
    obtain ⟨s1, hb, h1⟩ := hstep (N - (c + 1)) hlt s h
    have e : N - (c + 1) + 1 = N - c := by omega
    rw [e] at h1
    obtain ⟨s2, hl, h2⟩ := ih f s1 (by omega) (by omega) h1
    refine ⟨s2, ?_, h2⟩
    simp only [forCond, hcond _ hlt, if_true, hb, hpost _ hlt, e, hl]

theorem forCond_eq {σ : Type} (cond : Int → Bool) (post : Int → Int)
    (body : Int → σ → Except Stop σ) (idx : Nat → Int) (N : Nat) (Inv : Nat → σ → Prop)
    (fuel : Nat) (s : σ) (start : Int) (hstart : start = idx 0) (hfuel : N < fuel)
    (hpost : ∀ t, t < N → post (idx t) = idx (t + 1))
    (hcond : ∀ t, t < N → cond (idx t) = true) (hend : cond (idx N) = false)
    (h0 : Inv 0 s)
    (hstep : ∀ t, t < N → ∀ s, Inv t s → ∃ s', body (idx t) s = .ok s' ∧ Inv (t + 1) s') :
    ∃ s', forCond cond post body fuel start s = .ok s' ∧ Inv N s' := by
  have := forCond_inv cond post body idx N Inv hpost hcond hend hstep N fuel s (le_refl N) hfuel
    (by simpa using h0)
  simpa [hstart] using this

/-! ## The loops of the classic sieve -/

theorem forRange_eq {σ : Type} (body : Int → σ → Except Stop σ) (Inv : Nat → σ → Prop)
    (k : Nat) (s : σ) (h0 : Inv 0 s)
    (hstep : ∀ t, t < k → ∀ s, Inv t s → ∃ s', body (t : Int) s = .ok s' ∧ Inv (t + 1) s') :
    ∃ s', forRange body k 0 s = .ok s' ∧ Inv k s' := by
  have := forRange_inv body Inv k 0 (by simpa using hstep) k s (le_refl k) (by simpa using h0)
  simpa using this

/-- The loop `for i := range isPrime { isPrime[i] = true }`. -/
theorem init_loop (a : List Bool) :
    ∃ b, forRange (fun i isPrime => goSet isPrime i true) a.length 0 a = .ok b ∧
      b.length = a.length ∧ ∀ k, k < a.length → b.getD k false = true := by
  obtain ⟨b, hb, hlen, hk⟩ := forRange_eq (fun i isPrime => goSet isPrime i true)
    (fun t s => s.length = a.length ∧ ∀ k, k < t → s.getD k false = true) a.length a
    ⟨rfl, fun k hk => absurd hk (Nat.not_lt_zero k)⟩
    (fun t ht s ⟨hl, hs⟩ => ⟨s.set t true, sieve_goSet_nat s t true (by omega),
      by simp [hl], fun k hk => by
        rw [getD_set_bool s t k true (by omega)]
        by_cases e : k = t
        · simp [e]
        · simp only [e, if_false]
          exact hs k (by omega)⟩)
  exact ⟨b, hb, hlen, hk⟩

/-- The crossing loop `for j := j0; j <= lim; j += p { isPrime[j] = false }`:
it ends, and clears exactly the entries `j0, j0 + p, j0 + 2p, ...`. -/
theorem cross_loop (lim p : Nat) (hp : 0 < p) (hov : lim + p < 2 ^ 63) :
    ∀ (fuel j0 : Nat) (a : List Bool), a.length = lim + 1 → lim + 1 - j0 < fuel →
      ∃ b, forCond (fun j => decide (j ≤ (lim : Int))) (fun j => goAdd j (p : Int))
          (fun j isPrime => goSet isPrime j false) fuel (j0 : Int) a = .ok b ∧
        b.length = lim + 1 ∧
        ∀ k, (b.getD k false = true ↔ a.getD k false = true ∧ ¬ (j0 ≤ k ∧ p ∣ k - j0)) := by
  intro fuel
  induction fuel with
  | zero =>
    intro j0 a _ h
    omega
  | succ f ih =>
    intro j0 a hlen hf
    by_cases hj : j0 ≤ lim
    · have hc : decide ((j0 : Int) ≤ (lim : Int)) = true := by
        rw [decide_eq_true_eq]
        exact_mod_cast hj
      obtain ⟨b, hb, hbl, hbk⟩ := ih (j0 + p) (a.set j0 false) (by simp [hlen]) (by omega)
      refine ⟨b, ?_, hbl, ?_⟩
      · simp only [forCond, hc, if_true, sieve_goSet_nat a j0 false (by omega),
          goAdd_nat (show j0 + p < 2 ^ 63 by omega)]
        exact hb
      · intro k
        rw [hbk k, getD_set_bool a j0 k false (by omega)]
        by_cases e : k = j0
        · subst e
          simp
        · simp only [e, if_false]
          have hiff : (j0 + p ≤ k ∧ p ∣ k - (j0 + p)) ↔ (j0 ≤ k ∧ p ∣ k - j0) := by
            constructor
            · rintro ⟨h1, h2⟩
              refine ⟨by omega, ?_⟩
              have e2 : k - j0 = (k - (j0 + p)) + p := by omega
              rw [e2]
              exact Dvd.dvd.add h2 (dvd_refl p)
            · rintro ⟨h1, h2⟩
              have hpos : 0 < k - j0 := by omega
              have hle : p ≤ k - j0 := Nat.le_of_dvd hpos h2
              refine ⟨by omega, ?_⟩
              have e2 : k - (j0 + p) = (k - j0) - p := by omega
              rw [e2]
              exact Nat.dvd_sub' h2 (dvd_refl p)
          rw [hiff]
    · have hc : decide ((j0 : Int) ≤ (lim : Int)) = false := by
        rw [decide_eq_false_iff_not]
        intro h
        exact hj (by exact_mod_cast h)
      refine ⟨a, ?_, hlen, ?_⟩
      · simp only [forCond, hc]
        rfl
      · intro k
        constructor
        · intro h
          refine ⟨h, ?_⟩
          rintro ⟨h1, _⟩
          rw [List.getD_eq_default a false (by omega)] at h
          exact Bool.false_ne_true h
        · exact fun h => h.1

/-! ## Arithmetic of the classic sieve -/

theorem unmarked_two (k : Nat) : Unmarked 2 k ↔ 2 ≤ k := by
  constructor
  · exact fun h => h.1
  · intro h
    exact ⟨h, fun d h1 h2 => by omega⟩

/-- Crossing the multiples of `i` from `i * i` on takes the array from the
state at `i` to the state at `i + 1`. -/
theorem unmarked_succ (i k : Nat) (hi2 : 2 ≤ i) :
    Unmarked (i + 1) k ↔ Unmarked i k ∧ ¬ (i * i ≤ k ∧ i ∣ k - i * i) := by
  have hdvd : i * i ≤ k → (i ∣ k - i * i ↔ i ∣ k) := by
    intro h
    constructor
    · intro h1
      have e : k = (k - i * i) + i * i := by omega
      rw [e]
      exact Dvd.dvd.add h1 (Dvd.intro i rfl)
    · intro h1
      exact Nat.dvd_sub' h1 (Dvd.intro i rfl)
  constructor
  · rintro ⟨h2, h⟩
    refine ⟨⟨h2, fun d hd1 hd2 => h d hd1 (by omega)⟩, ?_⟩
    rintro ⟨h1, h3⟩
    exact h i hi2 (by omega) h1 ((hdvd h1).1 h3)
  · rintro ⟨⟨h2, h⟩, hn⟩
    refine ⟨h2, fun d hd1 hd2 hd3 hd4 => ?_⟩
    rcases Nat.lt_or_ge d i with hlt | hge
    · exact h d hd1 hlt hd3 hd4
    · have : d = i := by omega
      subst this
      exact hn ⟨hd3, (hdvd hd3).2 hd4⟩

/-- When `i` itself is already crossed out, its multiples are crossed out as
well, so skipping it leaves the array in the state at `i + 1`. -/
theorem unmarked_succ_of_marked (i k : Nat) (hi2 : 2 ≤ i) (hm : ¬ Unmarked i i) :
    Unmarked (i + 1) k ↔ Unmarked i k := by
  rw [unmarked_succ i k hi2]
  constructor
  · exact fun h => h.1
  · intro h
    refine ⟨h, ?_⟩
    rintro ⟨h1, h3⟩
    apply hm
    have hik : i ∣ k := by
      have e : k = (k - i * i) + i * i := by omega
      rw [e]
      exact Dvd.dvd.add h3 (Dvd.intro i rfl)
    refine ⟨hi2, fun d hd1 hd2 hd3 hd4 => ?_⟩
    have hii : i ≤ i * i := Nat.le_mul_self i
    exact h.2 d hd1 hd2 (by omega) (Dvd.dvd.trans hd4 hik)

/-- Once the outer loop has passed the square root of `n`, the entries still
`true` are the primes. -/
theorem unmarked_final (n k : Nat) (hk : k ≤ n) :
    Unmarked (Nat.sqrt n + 1) k ↔ Nat.Prime k := by
  rw [Nat.prime_def_le_sqrt]
  constructor
  · rintro ⟨h2, h⟩
    refine ⟨h2, fun m hm1 hm2 => ?_⟩
    have hmk : m * m ≤ k := Nat.le_sqrt.1 hm2
    have hmn : m ≤ Nat.sqrt n := Nat.le_sqrt.2 (by omega)
    exact h m hm1 (by omega) hmk
  · rintro ⟨h2, h⟩
    exact ⟨h2, fun d hd1 _ hd3 => h d hd1 (Nat.le_sqrt.2 hd3)⟩

/-! ## The classic sieve -/

theorem sqrt_lt_bound {n : Nat} (hB : n < 9223372030926249001) : Nat.sqrt n < 3037000499 :=
  Nat.sqrt_lt.2 (by omega)

theorem sq_le_bound {i : Nat} (h : i ≤ 3037000499) : i * i ≤ 9223372030926249001 :=
  Nat.mul_le_mul h h

/-- The outer loop of `sieveOfEratosthenes`: from the state at `2` it reaches
the state at `⌊√n⌋ + 1`. -/
theorem sieve_outer (fuel n : Nat) (h2 : 2 ≤ n) (hB : n < 9223372030926249001) (hf : n < fuel)
    (a : List Bool) (ha : SieveInv n 2 a) :
    ∃ b, forCond (fun i => decide (goMul i i ≤ (n : Int))) (fun i => goAdd i 1)
      (fun i isPrime => do
        if (← goGet isPrime i) then
          forCond (fun j => decide (j ≤ (n : Int))) (fun j => goAdd j i)
            (fun j isPrime => goSet isPrime j false) fuel (goMul i i) isPrime
        else pure isPrime) fuel 2 a = .ok b ∧ SieveInv n (Nat.sqrt n + 1) b := by
  have hs := sqrt_lt_bound hB
  have hs1 : 1 ≤ Nat.sqrt n := Nat.le_sqrt.2 (by omega)
  have hsn : Nat.sqrt n ≤ n := Nat.sqrt_le_self n
  have hsq : ∀ i, i ≤ Nat.sqrt n → i * i ≤ n := fun i hi => Nat.le_sqrt.1 hi
  have hN : Nat.sqrt n - 1 + 2 = Nat.sqrt n + 1 := by omega
  rw [← hN]
  refine forCond_eq _ _ _ (fun t => ((t + 2 : Nat) : Int)) (Nat.sqrt n - 1)
    (fun t s => SieveInv n (t + 2) s) fuel a 2 rfl (by omega) ?_ ?_ ?_ ha ?_
  · intro t ht
    exact goAdd_nat (show t + 2 + 1 < 2 ^ 63 by omega)
  · intro t ht
    have h1 := hsq (t + 2) (by omega)
    rw [decide_eq_true_eq, goMul_nat (by omega)]
    exact_mod_cast h1
  · have h1 : n < (Nat.sqrt n - 1 + 2) * (Nat.sqrt n - 1 + 2) := by
      rw [hN]
      exact Nat.lt_succ_sqrt n
    have h3 := sq_le_bound (show Nat.sqrt n - 1 + 2 ≤ 3037000499 by omega)
    rw [decide_eq_false_iff_not, goMul_nat (by omega)]
    intro h
    have : (Nat.sqrt n - 1 + 2) * (Nat.sqrt n - 1 + 2) ≤ n := by exact_mod_cast h
    omega
  · intro t ht s hinv
    obtain ⟨hlen, hk⟩ := hinv
    have h1 := hsq (t + 2) (by omega)
    have hii : t + 2 ≤ (t + 2) * (t + 2) := Nat.le_mul_self (t + 2)
    show ∃ s', (goGet s ((t + 2 : Nat) : Int) >>= _) = _ ∧ _
    rw [sieve_goGet_getD s (t + 2) (by omega), sieve_ok_bind]
    cases hg : s.getD (t + 2) false
    · refine ⟨s, rfl, hlen, fun k hkn => ?_⟩
      rw [hk k hkn]
      have hm : ¬ Unmarked (t + 2) (t + 2) := by
        rw [← hk (t + 2) (by omega), hg]
        exact Bool.false_ne_true
      exact (unmarked_succ_of_marked (t + 2) k (by omega) hm).symm
    · obtain ⟨b, hb, hbl, hbk⟩ := cross_loop n (t + 2) (by omega) (by omega) fuel
        ((t + 2) * (t + 2)) s hlen (by omega)
      refine ⟨b, ?_, hbl, fun k hkn => ?_⟩
      · simp only [if_true, goMul_nat (show (t + 2) * (t + 2) < 2 ^ 63 by omega)]
        exact hb
      · rw [hbk k, hk k hkn]
        exact (unmarked_succ (t + 2) k (by omega)).symm

/-- The collecting loop of `sieveOfEratosthenes`: the indices `2..n` whose
entry is `true`, in increasing order. -/
theorem sieve_collect (fuel n : Nat) (h2 : 2 ≤ n) (hB : n < 9223372030926249001) (hf : n < fuel)
    (a : List Bool) (hlen : a.length = n + 1) :
    forCond (fun i => decide (i ≤ (n : Int))) (fun i => goAdd i 1)
      (fun i primes => do
        if (← goGet a i) then pure (primes ++ [i]) else pure primes) fuel 2 [] =
      .ok (((List.range' 2 (n - 1)).filter (fun k => a.getD k false)).map Int.ofNat) := by
  have key : ∃ r, forCond (fun i => decide (i ≤ (n : Int))) (fun i => goAdd i 1)
      (fun i primes => do
        if (← goGet a i) then pure (primes ++ [i]) else pure primes) fuel 2 [] = .ok r ∧
      r = ((List.range' 2 (n - 1)).filter (fun k => a.getD k false)).map Int.ofNat := by
    refine forCond_eq _ _ _ (fun t => ((t + 2 : Nat) : Int)) (n - 1)
      (fun t primes =>
        primes = ((List.range' 2 t).filter (fun k => a.getD k false)).map Int.ofNat)
      fuel [] 2 rfl (by omega) ?_ ?_ ?_ rfl ?_
    · intro t ht
      exact goAdd_nat (show t + 2 + 1 < 2 ^ 63 by omega)
    · intro t ht
      rw [decide_eq_true_eq]
      show ((t + 2 : Nat) : Int) ≤ (n : Int)
      exact_mod_cast (show t + 2 ≤ n by omega)
    · rw [decide_eq_false_iff_not]
      show ¬ ((n - 1 + 2 : Nat) : Int) ≤ (n : Int)
      intro h
      have : n - 1 + 2 ≤ n := by exact_mod_cast h
      omega
    · intro t ht s hs
      show ∃ s', (goGet a ((t + 2 : Nat) : Int) >>= _) = _ ∧
        s' = ((List.range' 2 (t + 1)).filter (fun k => a.getD k false)).map Int.ofNat
      have hs2 : s = ((List.range' 2 t).filter (fun k => a.getD k false)).map Int.ofNat := hs
      rw [sieve_goGet_getD a (t + 2) (by omega), sieve_ok_bind, hs2, List.range'_1_concat,
        Nat.add_comm 2 t, List.filter_append, List.map_append]
      cases hg : a.getD (t + 2) false
      · refine ⟨_, rfl, ?_⟩
        simp only [List.filter_cons, List.filter_nil, hg, Bool.false_eq_true, if_false,
          List.map_nil, List.append_nil]
      · refine ⟨_, rfl, ?_⟩
        simp only [List.filter_cons, List.filter_nil, hg, if_true, List.map_cons, List.map_nil]
        rfl
  obtain ⟨r, hr, hinv⟩ := key
  rw [hr, hinv]

theorem goAdd_one_nat {a : Nat} (h : a + 1 < 2 ^ 63) :
    goAdd (a : Int) 1 = ((a + 1 : Nat) : Int) := goAdd_nat h

/-- For `2 ≤ n < 3037000499²` and more than `n` units of fuel,
`sieveOfEratosthenes(n)` returns the primes up to `n` in increasing order. -/
theorem sieve_eq_primesUpTo (fuel n : Nat) (h2 : 2 ≤ n) (hB : n < 9223372030926249001)
    (hf : n < fuel) : sieveOfEratosthenes fuel (n : Int) = .ok (primesUpTo n) := by
  unfold sieveOfEratosthenes
  rw [goAdd_one_nat (show n + 1 < 2 ^ 63 by omega), sieve_goMake_nat, sieve_ok_bind]
  obtain ⟨a1, h1, hl1, hk1⟩ := init_loop (List.replicate (n + 1) false)
  rw [List.length_replicate] at hl1 hk1
  rw [h1, sieve_ok_bind]
  have h0 : goSet a1 0 false = .ok (a1.set 0 false) := sieve_goSet_nat a1 0 false (by omega)
  rw [h0, sieve_ok_bind]
  have h1s : goSet (a1.set 0 false) 1 false = .ok ((a1.set 0 false).set 1 false) :=
    sieve_goSet_nat (a1.set 0 false) 1 false (by simp; omega)
  rw [h1s, sieve_ok_bind]
  have hinv : SieveInv n 2 ((a1.set 0 false).set 1 false) := by
    refine ⟨by simp [hl1], fun k hk => ?_⟩
    rw [unmarked_two, getD_set_bool _ 1 k false (by simp; omega),
      getD_set_bool a1 0 k false (by omega)]
    by_cases e1 : k = 1
    · simp [e1]
    · by_cases e0 : k = 0
      · simp [e0]
      · simp only [e1, e0, if_false, hk1 k (by omega), true_iff]
        omega
  obtain ⟨b, hb, hbl, hbk⟩ := sieve_outer fuel n h2 hB hf _ hinv
  rw [hb, sieve_ok_bind, sieve_collect fuel n h2 hB hf b hbl]
  unfold primesUpTo
  congr 2
  apply List.filter_congr
  intro k hk
  rw [List.mem_range'_1] at hk
  have hkn : k ≤ n := by omega
  have := (hbk k hkn).trans (unmarked_final n k hkn)
  by_cases hp : Nat.Prime k
  · show b.getD k false = decide (Nat.Prime k)
    rw [this.2 hp, decide_eq_true hp]
  · show b.getD k false = decide (Nat.Prime k)
    have hne : ¬ b.getD k false = true := fun h => hp (this.1 h)
    simp only [Bool.not_eq_true] at hne
    simp only [hne, hp, decide_False]

theorem mem_primesUpTo (n : Nat) (p : Int) :
    p ∈ primesUpTo n ↔ 2 ≤ p ∧ p ≤ (n : Int) ∧ Nat.Prime p.toNat := by
  unfold primesUpTo
  simp only [List.mem_map, List.mem_filter, List.mem_range'_1, decide_eq_true_eq]
  constructor
  · rintro ⟨k, ⟨⟨h1, h2⟩, hp⟩, rfl⟩
    refine ⟨?_, ?_, ?_⟩
    · show (2 : Int) ≤ ((k : Nat) : Int)
      omega
    · show ((k : Nat) : Int) ≤ (n : Int)
      omega
    · exact hp
  · rintro ⟨h1, h2, hp⟩
    refine ⟨p.toNat, ⟨⟨by omega, by omega⟩, hp⟩, ?_⟩
    show ((p.toNat : Nat) : Int) = p
    omega

theorem primesUpTo_pairwise (n : Nat) : (primesUpTo n).Pairwise (· < ·) := by
  unfold primesUpTo
  refine List.Pairwise.map _ ?_ (List.Pairwise.filter _ (List.pairwise_lt_range' 2 (n - 1)))
  intro a b hab
  show ((a : Nat) : Int) < ((b : Nat) : Int)
  exact_mod_cast hab

/-! ## Classic sieve (claim C17) -/

theorem sieveOfEratosthenes_at_max (fuel : Nat) :
    sieveOfEratosthenes fuel 9223372036854775807 = .error .makeLenOutOfRange := by
  unfold sieveOfEratosthenes
  have h : goAdd 9223372036854775807 1 = -9223372036854775808 := by decide
  rw [h]
  rfl

/-- C17, for `2 ≤ n < 3037000499²`: with more than `n` units of fuel,
`sieveOfEratosthenes(n)` returns a list that is strictly increasing, has no
repetition, and whose members are exactly the primes `p` with `2 ≤ p ≤ n`. -/
theorem sieveOfEratosthenes_primes (fuel : Nat) (n : Int) (h2 : 2 ≤ n)
    (hB : n < 9223372030926249001) (hf : n < (fuel : Int)) :
    ∃ primes, sieveOfEratosthenes fuel n = .ok primes ∧
      primes.Pairwise (· < ·) ∧ primes.Nodup ∧
      ∀ p : Int, p ∈ primes ↔ 2 ≤ p ∧ p ≤ n ∧ Nat.Prime p.toNat := by
  obtain ⟨t, rfl⟩ : ∃ t : Nat, n = (t : Int) := ⟨n.toNat, by omega⟩
  refine ⟨primesUpTo t, sieve_eq_primesUpTo fuel t (by omega) (by omega) (by omega),
    primesUpTo_pairwise t, ?_, mem_primesUpTo t⟩
  exact (primesUpTo_pairwise t).imp (fun h => ne_of_lt h)

/-- C17 at `n = 100` with 101 units of fuel. -/
theorem sieveOfEratosthenes_primes_witness :
    (2 : Int) ≤ 100 ∧ (100 : Int) < 9223372030926249001 ∧ (100 : Int) < ((101 : Nat) : Int) ∧
    ∃ primes, sieveOfEratosthenes 101 100 = .ok primes ∧
      primes.Pairwise (· < ·) ∧ primes.Nodup ∧
      ∀ p : Int, p ∈ primes ↔ 2 ≤ p ∧ p ≤ 100 ∧ Nat.Prime p.toNat :=
  ⟨by decide, by decide, by decide,
    sieveOfEratosthenes_primes 101 100 (by decide) (by decide) (by decide)⟩

/-- C17 as stated fails at `n = 2^63 - 1`: `n + 1` wraps to `-2^63` and
`make([]bool, n+1)` panics, whatever the fuel. -/
theorem sieveOfEratosthenes_fails_at_max :
    (2 : Int) ≤ 9223372036854775807 ∧
    ∀ fuel, sieveOfEratosthenes fuel 9223372036854775807 = .error .makeLenOutOfRange :=
  ⟨by decide, sieveOfEratosthenes_at_max⟩

/-- For `n < 3037000499²` the loop test squares numbers up to `3037000499`,
which fits; the square of `3037000500` no longer fits in an `int`. -/
theorem goMul_wraps_past_bound :
    goMul 3037000499 3037000499 = 9223372030926249001 ∧
    goMul 3037000500 3037000500 = -9223372036709301616 := by
  constructor <;> decide

/-! ## Arithmetic of the odd-only sieve -/

theorem odd_index_dvd (i k : Nat) (h : 2 * i * (i + 1) ≤ k) :
    (2 * i + 1) ∣ k - 2 * i * (i + 1) ↔ (2 * i + 1) ∣ 2 * k + 1 := by
  have e : 2 * k + 1 = 2 * (k - 2 * i * (i + 1)) + (2 * i + 1) * (2 * i + 1) := by
    have e1 : (2 * i + 1) * (2 * i + 1) = 2 * (2 * i * (i + 1)) + 1 := by ring
    rw [e1]
    omega
  constructor
  · intro h1
    rw [e]
    exact Dvd.dvd.add (Dvd.dvd.mul_left h1 2) (Dvd.intro _ rfl)
  · intro h1
    rw [e] at h1
    have h2 : (2 * i + 1) ∣ 2 * (k - 2 * i * (i + 1)) :=
      (Nat.dvd_add_left (Dvd.intro _ rfl)).1 h1
    have hc : Nat.Coprime (2 * i + 1) 2 :=
      Nat.Coprime.symm (Nat.coprime_two_left.2 (Nat.odd_iff.2 (by omega)))
    exact Nat.Coprime.dvd_of_dvd_mul_left hc h2

theorem unmarkedOdd_one (k : Nat) : UnmarkedOdd 1 k := by
  intro e h1 h2
  omega

theorem unmarkedOdd_succ (i k : Nat) :
    UnmarkedOdd (i + 1) k ↔
      UnmarkedOdd i k ∧ ¬ (1 ≤ i ∧ 2 * i * (i + 1) ≤ k ∧ (2 * i + 1) ∣ k - 2 * i * (i + 1)) := by
  constructor
  · intro h
    refine ⟨fun e h1 h2 => h e h1 (by omega), ?_⟩
    rintro ⟨h1, h2, h3⟩
    exact h i h1 (by omega) h2 ((odd_index_dvd i k h2).1 h3)
  · rintro ⟨h, hn⟩ e h1 h2 h3 h4
    rcases Nat.lt_or_ge e i with hlt | hge
    · exact h e h1 hlt h3 h4
    · have : e = i := by omega
      subst this
      exact hn ⟨h1, h3, (odd_index_dvd e k h3).2 h4⟩

theorem unmarkedOdd_succ_of_marked (i k : Nat) (hm : ¬ UnmarkedOdd i i) :
    UnmarkedOdd (i + 1) k ↔ UnmarkedOdd i k := by
  rw [unmarkedOdd_succ]
  constructor
  · exact fun h => h.1
  · intro h
    refine ⟨h, ?_⟩
    rintro ⟨h1, h2, h3⟩
    apply hm
    intro e he1 he2 he3 he4
    have hik : (2 * i + 1) ∣ 2 * k + 1 := (odd_index_dvd i k h2).1 h3
    have hii : i ≤ 2 * i * (i + 1) := by nlinarith
    exact h e he1 he2 (by omega) (Dvd.dvd.trans he4 hik)

/-- Once the outer loop has passed `⌊√(L/2)⌋`, the entries `1..L` still `true`
stand for the odd primes. -/
theorem unmarkedOdd_final (L k : Nat) (hk1 : 1 ≤ k) (hkL : k ≤ L) :
    UnmarkedOdd (Nat.sqrt (L / 2) + 1) k ↔ Nat.Prime (2 * k + 1) := by
  constructor
  · intro h
    by_contra hp
    have hq : Nat.Prime (Nat.minFac (2 * k + 1)) := Nat.minFac_prime (by omega)
    have hd : Nat.minFac (2 * k + 1) ∣ 2 * k + 1 := Nat.minFac_dvd _
    have hsq : Nat.minFac (2 * k + 1) ^ 2 ≤ 2 * k + 1 := Nat.minFac_sq_le_self (by omega) hp
    generalize Nat.minFac (2 * k + 1) = q at hq hd hsq
    have hodd : q % 2 = 1 := by
      rcases Nat.Prime.eq_two_or_odd hq with h2 | h2
      · subst h2
        omega
      · exact h2
    have hq2 := Nat.Prime.two_le hq
    obtain ⟨e, rfl⟩ : ∃ e, q = 2 * e + 1 := ⟨q / 2, by omega⟩
    have e1 : (2 * e + 1) ^ 2 = 2 * (2 * e * (e + 1)) + 1 := by ring
    have e2 : 2 * e * (e + 1) = e * e * 2 + 2 * e := by ring
    have h3 : 2 * e * (e + 1) ≤ k := by omega
    have h4 : e ≤ Nat.sqrt (L / 2) := by
      rw [Nat.le_sqrt, Nat.le_div_iff_mul_le (by decide)]
      omega
    exact h e (by omega) (by omega) h3 hd
  · intro hp e he1 _ he3 he4
    rcases Nat.Prime.eq_one_or_self_of_dvd hp _ he4 with h1 | h1
    · omega
    · have : e = k := by omega
      subst this
      have : e < 2 * e * (e + 1) := by nlinarith
      omega

/-! ## The odd-only sieve -/

theorem goMul_two_nat {a : Nat} (h : 2 * a < 2 ^ 63) :
    goMul 2 (a : Int) = ((2 * a : Nat) : Int) := goMul_nat h

theorem goSub_one_nat {a : Nat} (h1 : 1 ≤ a) (h : a < 2 ^ 63) :
    goSub (a : Int) 1 = ((a - 1 : Nat) : Int) := by
  unfold Hamming.goSub
  rw [Hamming.wrapInt_of_range (by omega) (by omega)]
  omega

theorem goDiv_two_nat {a : Nat} (h : a < 2 ^ 63) :
    goDiv (a : Int) 2 = .ok ((a / 2 : Nat) : Int) := by
  have e : Int.tdiv (a : Int) 2 = ((a / 2 : Nat) : Int) := rfl
  unfold goDiv
  rw [if_neg (by decide), e, Hamming.wrapInt_of_range (by omega) (by omega)]

theorem sqrt_half_lt {L : Nat} (hL : L < 2 ^ 62) : Nat.sqrt (L / 2) < 1518500250 :=
  Nat.sqrt_lt.2 (by omega)

/-- The outer loop of `optimizedSieveOfEratosthenes`: from the state at `1` it
reaches the state at `⌊√(L/2)⌋ + 1`. -/
theorem optimized_outer (fuel L : Nat) (hL : L < 2 ^ 62) (hf : L < fuel)
    (a : List Bool) (ha : OddInv L 1 a) :
    ∃ b, forCond (fun i => decide (goMul (goMul 2 i) i ≤ (L : Int))) (fun i => goAdd i 1)
      (fun i isPrime => do
        if (← goGet isPrime i) then
          let p := goAdd (goMul 2 i) 1
          forCond (fun j => decide (j ≤ (L : Int))) (fun j => goAdd j p)
            (fun j isPrime => goSet isPrime j false) fuel
            (goMul (goMul 2 i) (goAdd i 1)) isPrime
        else pure isPrime) fuel 1 a = .ok b ∧ OddInv L (Nat.sqrt (L / 2) + 1) b := by
  have hs := sqrt_half_lt hL
  have hsL : Nat.sqrt (L / 2) ≤ L := le_trans (Nat.sqrt_le_self _) (Nat.div_le_self L 2)
  have hsq : ∀ i, i ≤ Nat.sqrt (L / 2) → 2 * i * i ≤ L := by
    intro i hi
    have h1 : i * i ≤ L / 2 := Nat.le_sqrt.1 hi
    have h2 : i * i * 2 ≤ L := (Nat.le_div_iff_mul_le (by decide)).1 h1
    have e : 2 * i * i = i * i * 2 := by ring
    omega
  refine forCond_eq _ _ _ (fun t => ((t + 1 : Nat) : Int)) (Nat.sqrt (L / 2))
    (fun t s => OddInv L (t + 1) s) fuel a 1 rfl (by omega) ?_ ?_ ?_ ha ?_
  · intro t ht
    exact goAdd_nat (show t + 1 + 1 < 2 ^ 63 by omega)
  · intro t ht
    have h1 := hsq (t + 1) (by omega)
    show decide (goMul (goMul 2 ((t + 1 : Nat) : Int)) ((t + 1 : Nat) : Int) ≤ (L : Int)) = true
    rw [decide_eq_true_eq, goMul_two_nat (by omega), goMul_nat (by omega)]
    exact_mod_cast h1
  · have h1 : L / 2 < (Nat.sqrt (L / 2) + 1) * (Nat.sqrt (L / 2) + 1) := Nat.lt_succ_sqrt _
    have h3 : (Nat.sqrt (L / 2) + 1) * (Nat.sqrt (L / 2) + 1) ≤ 1518500250 * 1518500250 :=
      Nat.mul_le_mul (by omega) (by omega)
    have e : 2 * (Nat.sqrt (L / 2) + 1) * (Nat.sqrt (L / 2) + 1) =
        (Nat.sqrt (L / 2) + 1) * (Nat.sqrt (L / 2) + 1) * 2 := by ring
    show decide (goMul (goMul 2 ((Nat.sqrt (L / 2) + 1 : Nat) : Int))
      ((Nat.sqrt (L / 2) + 1 : Nat) : Int) ≤ (L : Int)) = false
    rw [decide_eq_false_iff_not, goMul_two_nat (by omega), goMul_nat (by omega)]
    intro h
    have : 2 * (Nat.sqrt (L / 2) + 1) * (Nat.sqrt (L / 2) + 1) ≤ L := by exact_mod_cast h
    omega
  · intro t ht s hinv
    obtain ⟨hlen, hk⟩ := hinv
    have h1 := hsq (t + 1) (by omega)
    have hii : t + 1 ≤ 2 * (t + 1) * (t + 1) := by nlinarith
    have e2 : 2 * (t + 1) * (t + 1 + 1) = 2 * (t + 1) * (t + 1) + 2 * (t + 1) := by ring
    show ∃ s', (goGet s ((t + 1 : Nat) : Int) >>= _) = _ ∧ _
    rw [sieve_goGet_getD s (t + 1) (by omega), sieve_ok_bind]
    cases hg : s.getD (t + 1) false
    · refine ⟨s, rfl, hlen, fun k hk1 hkn => ?_⟩
      rw [hk k hk1 hkn]
      have hm : ¬ UnmarkedOdd (t + 1) (t + 1) := by
        rw [← hk (t + 1) (by omega) (by omega), hg]
        exact Bool.false_ne_true
      exact (unmarkedOdd_succ_of_marked (t + 1) k hm).symm
    · obtain ⟨b, hb, hbl, hbk⟩ := cross_loop L (2 * (t + 1) + 1) (by omega) (by omega) fuel
        (2 * (t + 1) * (t + 1 + 1)) s hlen (by omega)
      refine ⟨b, ?_, hbl, fun k hk1 hkn => ?_⟩
      · simp only [if_true, goMul_two_nat (show 2 * (t + 1) < 2 ^ 63 by omega),
          goAdd_one_nat (show t + 1 + 1 < 2 ^ 63 by omega),
          goAdd_one_nat (show 2 * (t + 1) + 1 < 2 ^ 63 by omega),
          goMul_nat (show 2 * (t + 1) * (t + 1 + 1) < 2 ^ 63 by omega)]
        exact hb
      · rw [hbk k, hk k hk1 hkn, unmarkedOdd_succ (t + 1) k]
        constructor
        · rintro ⟨h3, h4⟩
          exact ⟨h3, fun h5 => h4 ⟨h5.2.1, h5.2.2⟩⟩
        · rintro ⟨h3, h4⟩
          exact ⟨h3, fun h5 => h4 ⟨by omega, h5.1, h5.2⟩⟩

/-- The collecting loop of `optimizedSieveOfEratosthenes`: `2`, then `2i + 1`
for the indices `1..L` whose entry is `true`, in increasing order. -/
theorem optimized_collect (fuel L : Nat) (hL : L < 2 ^ 62) (hf : L < fuel)
    (a : List Bool) (hlen : a.length = L + 1) :
    forCond (fun i => decide (i ≤ (L : Int))) (fun i => goAdd i 1)
      (fun i primes => do
        if (← goGet a i) then pure (primes ++ [goAdd (goMul 2 i) 1]) else pure primes)
      fuel 1 [2] =
      .ok (2 :: ((List.range' 1 L).filter (fun k => a.getD k false)).map
        (fun k => ((2 * k + 1 : Nat) : Int))) := by
  have key : ∃ r, forCond (fun i => decide (i ≤ (L : Int))) (fun i => goAdd i 1)
      (fun i primes => do
        if (← goGet a i) then pure (primes ++ [goAdd (goMul 2 i) 1]) else pure primes)
      fuel 1 [2] = .ok r ∧
      r = 2 :: ((List.range' 1 L).filter (fun k => a.getD k false)).map
        (fun k => ((2 * k + 1 : Nat) : Int)) := by
    refine forCond_eq _ _ _ (fun t => ((t + 1 : Nat) : Int)) L
      (fun t primes =>
        primes = 2 :: ((List.range' 1 t).filter (fun k => a.getD k false)).map
          (fun k => ((2 * k + 1 : Nat) : Int)))
      fuel [2] 1 rfl (by omega) ?_ ?_ ?_ rfl ?_
    · intro t ht
      exact goAdd_nat (show t + 1 + 1 < 2 ^ 63 by omega)
    · intro t ht
      rw [decide_eq_true_eq]
      show ((t + 1 : Nat) : Int) ≤ (L : Int)
      exact_mod_cast (show t + 1 ≤ L by omega)
    · rw [decide_eq_false_iff_not]
      show ¬ ((L + 1 : Nat) : Int) ≤ (L : Int)
      intro h
      have : L + 1 ≤ L := by exact_mod_cast h
      omega
    · intro t ht s hs
      show ∃ s', (goGet a ((t + 1 : Nat) : Int) >>= _) = _ ∧
        s' = 2 :: ((List.range' 1 (t + 1)).filter (fun k => a.getD k false)).map
          (fun k => ((2 * k + 1 : Nat) : Int))
      have hs2 : s = 2 :: ((List.range' 1 t).filter (fun k => a.getD k false)).map
          (fun k => ((2 * k + 1 : Nat) : Int)) := hs
      rw [sieve_goGet_getD a (t + 1) (by omega), sieve_ok_bind, hs2, List.range'_1_concat,
        Nat.add_comm 1 t, List.filter_append, List.map_append,
        goMul_two_nat (show 2 * (t + 1) < 2 ^ 63 by omega),
        goAdd_one_nat (show 2 * (t + 1) + 1 < 2 ^ 63 by omega)]
      cases hg : a.getD (t + 1) false
      · refine ⟨_, rfl, ?_⟩
        simp only [List.filter_cons, List.filter_nil, hg, Bool.false_eq_true, if_false,
          List.map_nil, List.append_nil]
      · refine ⟨_, rfl, ?_⟩
        simp only [List.filter_cons, List.filter_nil, hg, if_true, List.map_cons, List.map_nil]
        rfl
  obtain ⟨r, hr, hinv⟩ := key
  rw [hr, hinv]

/-- Two strictly increasing lists with the same members are equal. -/
theorem pairwise_lt_ext {l₁ l₂ : List Int} (h1 : l₁.Pairwise (· < ·)) (h2 : l₂.Pairwise (· < ·))
    (h : ∀ p, p ∈ l₁ ↔ p ∈ l₂) : l₁ = l₂ := by
  have n1 : l₁.Nodup := h1.imp (fun h => ne_of_lt h)
  have n2 : l₂.Nodup := h2.imp (fun h => ne_of_lt h)
  exact List.eq_of_perm_of_sorted ((List.perm_ext_iff_of_nodup n1 n2).2 h) h1 h2

/-- The list `2, 2k + 1 (k = 1..L, 2k + 1 prime)` is the list of the primes up
to `n` when `L = (n - 1) / 2`. -/
theorem odd_list_eq_primesUpTo (n : Nat) (h3 : 3 ≤ n) :
    (2 :: ((List.range' 1 ((n - 1) / 2)).filter (fun k => decide (Nat.Prime (2 * k + 1)))).map
      (fun k => ((2 * k + 1 : Nat) : Int))) = primesUpTo n := by
  apply pairwise_lt_ext
  · rw [List.pairwise_cons]
    constructor
    · intro p hp
      simp only [List.mem_map, List.mem_filter, List.mem_range'_1] at hp
      obtain ⟨k, ⟨⟨hk1, _⟩, _⟩, rfl⟩ := hp
      show (2 : Int) < ((2 * k + 1 : Nat) : Int)
      omega
    · refine List.Pairwise.map _ ?_
        (List.Pairwise.filter _ (List.pairwise_lt_range' 1 ((n - 1) / 2)))
      intro a b hab
      show ((2 * a + 1 : Nat) : Int) < ((2 * b + 1 : Nat) : Int)
      omega
  · exact primesUpTo_pairwise n
  · intro p
    rw [mem_primesUpTo]
    simp only [List.mem_cons, List.mem_map, List.mem_filter, List.mem_range'_1,
      decide_eq_true_eq]
    constructor
    · rintro (rfl | ⟨k, ⟨⟨hk1, hk2⟩, hp⟩, rfl⟩)
      · exact ⟨le_refl 2, by omega, Nat.prime_two⟩
      · refine ⟨?_, ?_, ?_⟩
        · show (2 : Int) ≤ ((2 * k + 1 : Nat) : Int)
          omega
        · show ((2 * k + 1 : Nat) : Int) ≤ (n : Int)
          omega
        · exact hp
    · rintro ⟨h1, h2, hp⟩
      obtain ⟨q, rfl⟩ : ∃ q : Nat, p = (q : Int) := ⟨p.toNat, by omega⟩
      rw [Int.toNat_ofNat] at hp
      rcases Nat.Prime.eq_two_or_odd hp with e | e
      · left
        rw [e]
        rfl
      · right
        refine ⟨q / 2, ⟨⟨by omega, by omega⟩, ?_⟩, ?_⟩
        · have e2 : 2 * (q / 2) + 1 = q := by omega
          rw [e2]
          exact hp
        · show ((2 * (q / 2) + 1 : Nat) : Int) = (q : Int)
          omega

/-- For `2 ≤ n < 2^63` and more than `n` units of fuel,
`optimizedSieveOfEratosthenes(n)` returns the primes up to `n` in increasing
order; no step of it overflows. -/
theorem optimized_eq_primesUpTo (fuel n : Nat) (h2 : 2 ≤ n) (hB : n < 2 ^ 63) (hf : n < fuel) :
    optimizedSieveOfEratosthenes fuel (n : Int) = .ok (primesUpTo n) := by
  unfold optimizedSieveOfEratosthenes
  dsimp only []
  rw [if_neg (show ¬ ((n : Int) < 2) by omega)]
  by_cases hn2 : n = 2
  · subst hn2
    rfl
  · have hne : ¬ ((n : Int) = 2) := by
      intro h
      exact hn2 (by exact_mod_cast h)
    rw [if_neg hne]
    have hL : (n - 1) / 2 < 2 ^ 62 := by omega
    have hLf : (n - 1) / 2 < fuel := by omega
    rw [sieve_pure_eq_ok, sieve_ok_bind, sieve_ok_bind, goSub_one_nat (by omega) hB,
      goDiv_two_nat (show n - 1 < 2 ^ 63 by omega), sieve_ok_bind,
      goAdd_one_nat (show (n - 1) / 2 + 1 < 2 ^ 63 by omega), sieve_goMake_nat, sieve_ok_bind]
    obtain ⟨a1, h1, hl1, hk1⟩ := init_loop (List.replicate ((n - 1) / 2 + 1) false)
    rw [List.length_replicate] at hl1 hk1
    rw [h1, sieve_ok_bind]
    have hinv : OddInv ((n - 1) / 2) 1 a1 :=
      ⟨hl1, fun k _ hk => ⟨fun _ => unmarkedOdd_one k, fun _ => hk1 k (by omega)⟩⟩
    obtain ⟨b, hb, hbl, hbk⟩ := optimized_outer fuel ((n - 1) / 2) hL hLf a1 hinv
    dsimp only [] at hb
    rw [hb, sieve_ok_bind, optimized_collect fuel ((n - 1) / 2) hL hLf b hbl,
      ← odd_list_eq_primesUpTo n (by omega)]
    congr 3
    apply List.filter_congr
    intro k hk
    rw [List.mem_range'_1] at hk
    have hiff := (hbk k (by omega) (by omega)).trans
      (unmarkedOdd_final ((n - 1) / 2) k (by omega) (by omega))
    show b.getD k false = decide (Nat.Prime (2 * k + 1))
    by_cases hp : Nat.Prime (2 * k + 1)
    · rw [hiff.2 hp, decide_eq_true hp]
    · have hne : ¬ b.getD k false = true := fun h => hp (hiff.1 h)
      simp only [Bool.not_eq_true] at hne
      simp only [hne, hp, decide_False]

/-! ## The segmented sieve on a longer segment buffer

A pass of the segment loop touches only the first `high - low + 1` entries of
the buffer, so a run on a buffer `pre` is also a run on `pre ++ rest`. -/

theorem sieve_bind_ok {α β : Type} {x : Except Stop α} {f : α → Except Stop β} {b : β}
    (h : (x >>= f) = .ok b) : ∃ a, x = .ok a ∧ f a = .ok b := by
  cases x with
  | error e => cases h
  | ok a => exact ⟨a, rfl, h⟩

theorem goSet_append {α : Type} (pre rest : List α) (i : Int) (x : α) (pre' : List α)
    (h : goSet pre i x = .ok pre') : goSet (pre ++ rest) i x = .ok (pre' ++ rest) := by
  unfold goSet at h ⊢
  by_cases hi : i < 0
  · rw [if_pos hi] at h
    cases h
  · by_cases hl : i.toNat < pre.length
    · rw [if_neg hi, if_pos hl] at h
      cases h
      have hl2 : i.toNat < (pre ++ rest).length := by
        rw [List.length_append]
        omega
      rw [if_neg hi, if_pos hl2, List.set_append_left _ _ hl]
    · rw [if_neg hi, if_neg hl] at h
      cases h

theorem goGet_append {α : Type} (pre rest : List α) (i : Int) (x : α)
    (h : goGet pre i = .ok x) : goGet (pre ++ rest) i = .ok x := by
  unfold goGet at h ⊢
  by_cases hi : i < 0
  · rw [if_pos hi] at h
    cases h
  · rw [if_neg hi] at h ⊢
    rw [List.get?_eq_getElem?] at h ⊢
    by_cases hl : i.toNat < pre.length
    · rw [List.getElem?_append_left hl]
      exact h
    · rw [List.getElem?_eq_none (by omega)] at h
      cases h

/-- Two runs of a conditional loop whose bodies keep a relation between the
states end in related states. -/
theorem forCond_sim {σ τ : Type} (R : σ → τ → Prop) (cond : Int → Bool) (post : Int → Int)
    (body1 : Int → σ → Except Stop σ) (body2 : Int → τ → Except Stop τ) :
    ∀ (fuel : Nat) (i : Int) (s : σ) (t : τ) (s' : σ), R s t →
      forCond cond post body1 fuel i s = .ok s' →
      (∀ i s t s', R s t → body1 i s = .ok s' → ∃ t', body2 i t = .ok t' ∧ R s' t') →
      ∃ t', forCond cond post body2 fuel i t = .ok t' ∧ R s' t' := by
  intro fuel
  induction fuel with
  | zero =>
    intro i s t s' _ h
    cases h
  | succ f ih =>
    intro i s t s' hR h hsim
    unfold forCond at h ⊢
    by_cases hc : cond i = true
    · rw [if_pos hc] at h ⊢
      cases hb : body1 i s with
      | error e =>
        rw [hb] at h
        cases h
      | ok s1 =>
        rw [hb] at h
        obtain ⟨t1, hb2, hR1⟩ := hsim i s t s1 hR hb
        rw [hb2]
        exact ih _ s1 t1 s' hR1 h hsim
    · rw [if_neg hc] at h ⊢
      cases h
      exact ⟨t, rfl, hR⟩

theorem forRange_sim {σ τ : Type} (R : σ → τ → Prop)
    (body1 : Int → σ → Except Stop σ) (body2 : Int → τ → Except Stop τ) :
    ∀ (k : Nat) (i : Int) (s : σ) (t : τ) (s' : σ), R s t →
      forRange body1 k i s = .ok s' →
      (∀ i s t s', R s t → body1 i s = .ok s' → ∃ t', body2 i t = .ok t' ∧ R s' t') →
      ∃ t', forRange body2 k i t = .ok t' ∧ R s' t' := by
  intro k
  induction k with
  | zero =>
    intro i s t s' hR h _
    cases h
    exact ⟨t, rfl, hR⟩
  | succ k ih =>
    intro i s t s' hR h hsim
    unfold forRange at h ⊢
    cases hb : body1 i s with
    | error e =>
      rw [hb] at h
      cases h
    | ok s1 =>
      rw [hb] at h
      obtain ⟨t1, hb2, hR1⟩ := hsim i s t s1 hR hb
      rw [hb2]
      exact ih _ s1 t1 s' hR1 h hsim

theorem foldlM_sim {σ τ β : Type} (R : σ → τ → Prop)
    (f1 : σ → β → Except Stop σ) (f2 : τ → β → Except Stop τ) :
    ∀ (l : List β) (s : σ) (t : τ) (s' : σ), R s t →
      l.foldlM f1 s = .ok s' →
      (∀ p s t s', R s t → f1 s p = .ok s' → ∃ t', f2 t p = .ok t' ∧ R s' t') →
      ∃ t', l.foldlM f2 t = .ok t' ∧ R s' t' := by
  intro l
  induction l with
  | nil =>
    intro s t s' hR h _
    cases h
    exact ⟨t, rfl, hR⟩
  | cons p l ih =>
    intro s t s' hR h hsim
    rw [List.foldlM_cons] at h ⊢
    obtain ⟨s1, hb, h⟩ := sieve_bind_ok h
    obtain ⟨t1, hb2, hR1⟩ := hsim p s t s1 hR hb
    rw [hb2, sieve_ok_bind]
    exact ih s1 t1 s' hR1 h hsim

/-- A pass of the segment loop on the buffer `pre` is also a pass on the
longer buffer `pre ++ rest`, with the same bounds and the same primes. -/
theorem segmentPass_append (fuel : Nat) (n : Int) (basePrimes : List Int) (segmentSize : Int)
    (low high : Int) (primes : List Int) (pre rest : List Bool) (st : SegState)
    (h : segmentPass fuel n basePrimes segmentSize ⟨low, high, primes, pre⟩ = .ok st) :
    segmentPass fuel n basePrimes segmentSize ⟨low, high, primes, pre ++ rest⟩ =
      .ok ⟨st.low, st.high, st.primes, st.segment ++ rest⟩ := by
  unfold segmentPass at h ⊢
  dsimp only [] at h ⊢
  generalize (if high > n then n else high) = hi at h ⊢
  generalize goAdd (goSub hi low) 1 = count at h ⊢
  by_cases hc : count < 0 ∨ count > goLen pre
  · rw [if_pos hc] at h
    cases h
  · have hc2 : ¬ (count < 0 ∨ count > goLen (pre ++ rest)) := by
      intro hc3
      apply hc
      rcases hc3 with h1 | h1
      · exact Or.inl h1
      · right
        simp only [goLen, List.length_append, Nat.cast_add] at h1 ⊢
        omega
    rw [if_neg hc, sieve_pure_eq_ok, sieve_ok_bind] at h
    rw [if_neg hc2, sieve_pure_eq_ok, sieve_ok_bind]
    obtain ⟨s1, h1, h⟩ := sieve_bind_ok h
    obtain ⟨s2, h2, h⟩ := sieve_bind_ok h
    obtain ⟨s3, h3, h⟩ := sieve_bind_ok h
    obtain ⟨t1, e1, rfl⟩ := forRange_sim (fun s t => t = s ++ rest) _
      (fun i segment => goSet segment i true) _ _ pre (pre ++ rest) s1 rfl h1
      (fun i s t s' hR hb => by
        subst hR
        exact ⟨_, goSet_append s rest i true s' hb, rfl⟩)
    obtain ⟨t2, e2, rfl⟩ := foldlM_sim (fun s t => t = s ++ rest) _
      (fun segment p => do
        let q ← goDiv low p
        forCond (fun j => decide (j ≤ hi)) (fun j => goAdd j p)
          (fun j segment => goSet segment (goSub j low) false) fuel
          (if (if goMul q p < low then goAdd (goMul q p) p else goMul q p) = p then
            goAdd (if goMul q p < low then goAdd (goMul q p) p else goMul q p) p
          else if goMul q p < low then goAdd (goMul q p) p else goMul q p)
          segment)
      basePrimes s1 (s1 ++ rest) s2 rfl h2
      (fun p s t s' hR hb => by
        subst hR
        obtain ⟨q, hq, hb⟩ := sieve_bind_ok hb
        beta_reduce
        rw [hq, sieve_ok_bind]
        exact forCond_sim (fun s t => t = s ++ rest) _ _ _
          (fun j segment => goSet segment (goSub j low) false) _ _ s (s ++ rest) s' rfl hb
          (fun j s t s' hR hb => by
            subst hR
            exact ⟨_, goSet_append s rest _ false s' hb, rfl⟩))
    obtain ⟨t3, e3, rfl⟩ := forCond_sim (fun (s t : List Int) => t = s) _ _ _
      (fun i primes => do
        if (← goGet (s2 ++ rest) (goSub i low)) then pure (primes ++ [i]) else pure primes)
      _ _ primes primes s3 rfl h3
      (fun i s t s' hR hb => by
        subst hR
        obtain ⟨q, hq, hb⟩ := sieve_bind_ok hb
        refine ⟨s', ?_, rfl⟩
        beta_reduce
        rw [goGet_append s2 rest _ q hq, sieve_ok_bind]
        exact hb)
    rw [e1, sieve_ok_bind, e2, sieve_ok_bind, e3, sieve_ok_bind]
    cases h
    rfl

theorem whileLoop_one_pass {σ : Type} (cond : σ → Bool) (body : σ → Except Stop σ)
    (fuel : Nat) (s s' : σ) (h1 : cond s = true) (h2 : body s = .ok s')
    (h3 : cond s' = false) : whileLoop cond body (fuel + 2) s = .ok s' := by
  simp only [whileLoop, h1, h2, h3, if_true]
  rfl

set_option maxRecDepth 100000

theorem isqrt_100 : isqrt 100 = 10 := by
  unfold isqrt
  rw [show (100 : Int).toNat = 10 * 10 from rfl, Nat.sqrt_eq]
  rfl

theorem simpleSieve_11 : simpleSieve 101 11 = .ok [2, 3, 5, 7, 11] := by decide!

theorem sieveOfEratosthenes_100 :
    sieveOfEratosthenes 101 100 =
      .ok [2, 3, 5, 7, 11, 13, 17, 19, 23, 29, 31, 37, 41, 43, 47, 53, 59, 61, 67, 71, 73, 79,
        83, 89, 97] := by decide!

/-- The one pass of the segment loop of `segmentedSieve(100)`, on a buffer cut
down to the 90 entries the pass uses. -/
theorem segmentPass_100 :
    (segmentPass 101 100 [2, 3, 5, 7, 11] 32768
        ⟨11, 32778, [2, 3, 5, 7, 11], List.replicate 90 false⟩).map
      (fun st => (st.low, st.primes)) =
      .ok (32779, [2, 3, 5, 7, 11, 11, 13, 17, 19, 23, 29, 31, 37, 41, 43, 47, 53, 59, 61, 67,
        71, 73, 79, 83, 89, 97]) := by decide!

theorem segmentedSieve_100 :
    segmentedSieve 101 100 =
      .ok [2, 3, 5, 7, 11, 11, 13, 17, 19, 23, 29, 31, 37, 41, 43, 47, 53, 59, 61, 67, 71, 73,
        79, 83, 89, 97] := by
  have hlimit : goAdd 10 1 = 11 := by decide
  have hhigh : goSub (goAdd 11 32768) 1 = 32778 := by decide
  have hmake : goMake false (32768 : Int) =
      .ok (List.replicate 90 false ++ List.replicate 32678 false) := by
    rw [List.append_replicate_replicate]
    exact sieve_goMake_nat false 32768
  obtain ⟨st, hst, hlow, hprimes⟩ : ∃ st, segmentPass 101 100 [2, 3, 5, 7, 11] 32768
      ⟨11, 32778, [2, 3, 5, 7, 11], List.replicate 90 false⟩ = .ok st ∧ st.low = 32779 ∧
      st.primes = [2, 3, 5, 7, 11, 11, 13, 17, 19, 23, 29, 31, 37, 41, 43, 47, 53, 59, 61, 67,
        71, 73, 79, 83, 89, 97] := by
    have h := segmentPass_100
    cases hs : segmentPass 101 100 [2, 3, 5, 7, 11] 32768
      ⟨11, 32778, [2, 3, 5, 7, 11], List.replicate 90 false⟩ with
    | error e =>
      rw [hs] at h
      cases h
    | ok st =>
      rw [hs] at h
      have h2 : (st.low, st.primes) = (32779, [2, 3, 5, 7, 11, 11, 13, 17, 19, 23, 29, 31, 37,
          41, 43, 47, 53, 59, 61, 67, 71, 73, 79, 83, 89, 97]) := Except.ok.inj h
      exact ⟨st, rfl, congrArg Prod.fst h2, congrArg Prod.snd h2⟩
  have hpass := segmentPass_append 101 100 [2, 3, 5, 7, 11] 32768 11 32778 [2, 3, 5, 7, 11]
    (List.replicate 90 false) (List.replicate 32678 false) st hst
  unfold segmentedSieve
  dsimp only []
  rw [if_neg (by decide), sieve_pure_eq_ok, sieve_ok_bind, isqrt_100, hlimit, simpleSieve_11,
    sieve_ok_bind, hmake, sieve_ok_bind, hhigh, List.nil_append,
    whileLoop_one_pass _ _ 99 _ _ (by decide) hpass (by
      show decide (st.low ≤ 100) = false
      rw [hlow]
      decide),
    sieve_ok_bind]
  show Except.ok st.primes = _
  rw [hprimes]

theorem isqrt_2 : isqrt 2 = 1 := by
  unfold isqrt
  have h : Nat.sqrt 2 = 1 := by
    apply le_antisymm
    · exact Nat.le_of_lt_succ (Nat.sqrt_lt.2 (by decide))
    · exact Nat.le_sqrt.2 (by decide)
  rw [show (2 : Int).toNat = 2 from rfl, h]
  rfl

theorem simpleSieve_2 : simpleSieve 3 2 = .ok [2] := by decide!

theorem segmentPass_2 :
    (segmentPass 3 2 [2] 32768 ⟨2, 32769, [2], List.replicate 1 false⟩).map
      (fun st => (st.low, st.primes)) = .ok (32770, [2, 2]) := by decide!

/-- The smallest run that goes wrong: `segmentedSieve(2)` returns `[2, 2]`. -/
theorem segmentedSieve_2 : segmentedSieve 3 2 = .ok [2, 2] := by
  have hlimit : goAdd 1 1 = 2 := by decide
  have hhigh : goSub (goAdd 2 32768) 1 = 32769 := by decide
  have hmake : goMake false (32768 : Int) =
      .ok (List.replicate 1 false ++ List.replicate 32767 false) := by
    rw [List.append_replicate_replicate]
    exact sieve_goMake_nat false 32768
  obtain ⟨st, hst, hlow, hprimes⟩ : ∃ st, segmentPass 3 2 [2] 32768
      ⟨2, 32769, [2], List.replicate 1 false⟩ = .ok st ∧ st.low = 32770 ∧
      st.primes = [2, 2] := by
    have h := segmentPass_2
    cases hs : segmentPass 3 2 [2] 32768 ⟨2, 32769, [2], List.replicate 1 false⟩ with
    | error e =>
      rw [hs] at h
      cases h
    | ok st =>
      rw [hs] at h
      have h2 : (st.low, st.primes) = (32770, [2, 2]) := Except.ok.inj h
      exact ⟨st, rfl, congrArg Prod.fst h2, congrArg Prod.snd h2⟩
  have hpass := segmentPass_append 3 2 [2] 32768 2 32769 [2]
    (List.replicate 1 false) (List.replicate 32767 false) st hst
  unfold segmentedSieve
  dsimp only []
  rw [if_neg (by decide), sieve_pure_eq_ok, sieve_ok_bind, isqrt_2, hlimit, simpleSieve_2,
    sieve_ok_bind, hmake, sieve_ok_bind, hhigh, List.nil_append,
    whileLoop_one_pass _ _ 1 _ _ (by decide) hpass (by
      show decide (st.low ≤ 2) = false
      rw [hlow]
      decide),
    sieve_ok_bind]
  show Except.ok st.primes = _
  rw [hprimes]

/-- For `n < 2` the segmented sieve returns the empty list. -/
theorem segmentedSieve_below_two (fuel : Nat) (n : Int) (h : n < 2) :
    segmentedSieve fuel n = .ok [] := by
  unfold segmentedSieve
  dsimp only []
  rw [if_pos h]
  rfl

/-! ## Segmented sieve (claim C18) -/

/-- C18 fails at its own witness `n = 100`: `⌊√100⌋ + 1 = 11` is prime, so it
is among the base primes and is collected again from the first segment, which
starts at 11 and skips the multiple `start == p`. `segmentedSieve(100)`
therefore lists 11 twice, while `sieveOfEratosthenes(100)` lists every prime
once. -/
theorem segmentedSieve_repeats_limit :
    segmentedSieve 101 100 =
      .ok [2, 3, 5, 7, 11, 11, 13, 17, 19, 23, 29, 31, 37, 41, 43, 47, 53, 59, 61, 67, 71, 73,
        79, 83, 89, 97] ∧
    sieveOfEratosthenes 101 100 =
      .ok [2, 3, 5, 7, 11, 13, 17, 19, 23, 29, 31, 37, 41, 43, 47, 53, 59, 61, 67, 71, 73, 79,
        83, 89, 97] ∧
    segmentedSieve 101 100 ≠ sieveOfEratosthenes 101 100 := by
  refine ⟨segmentedSieve_100, sieveOfEratosthenes_100, ?_⟩
  rw [segmentedSieve_100, sieveOfEratosthenes_100]
  decide

/-! ## Odd-only sieve (claim C19) -/

/-- C19, with the bound the classic sieve needs: for `n < 2`
`optimizedSieveOfEratosthenes(n)` returns the empty list, and for
`2 ≤ n < 3037000499²`, with more than `n` units of fuel, it returns the same
list as `sieveOfEratosthenes(n)`: strictly increasing, with exactly the primes
`p` with `2 ≤ p ≤ n` as members. -/
theorem optimized_agrees_with_classic (fuel : Nat) (n : Int) :
    (n < 2 → optimizedSieveOfEratosthenes fuel n = .ok []) ∧
    (2 ≤ n → n < 9223372030926249001 → n < (fuel : Int) →
      ∃ primes, optimizedSieveOfEratosthenes fuel n = .ok primes ∧
        sieveOfEratosthenes fuel n = .ok primes ∧
        primes.Pairwise (· < ·) ∧
        ∀ p : Int, p ∈ primes ↔ 2 ≤ p ∧ p ≤ n ∧ Nat.Prime p.toNat) := by
  constructor
  · intro h
    unfold optimizedSieveOfEratosthenes
    dsimp only []
    rw [if_pos h]
    rfl
  · intro h2 hB hf
    obtain ⟨t, rfl⟩ : ∃ t : Nat, n = (t : Int) := ⟨n.toNat, by omega⟩
    exact ⟨primesUpTo t, optimized_eq_primesUpTo fuel t (by omega) (by omega) (by omega),
      sieve_eq_primesUpTo fuel t (by omega) (by omega) (by omega),
      primesUpTo_pairwise t, mem_primesUpTo t⟩

/-- C19 at `n = 1` and at `n = 100` with 101 units of fuel. -/
theorem optimized_agrees_with_classic_witness :
    optimizedSieveOfEratosthenes 0 1 = .ok [] ∧
    ∃ primes, optimizedSieveOfEratosthenes 101 100 = .ok primes ∧
      sieveOfEratosthenes 101 100 = .ok primes ∧
      primes.Pairwise (· < ·) ∧
      ∀ p : Int, p ∈ primes ↔ 2 ≤ p ∧ p ≤ 100 ∧ Nat.Prime p.toNat :=
  ⟨(optimized_agrees_with_classic 0 1).1 (by decide),
    (optimized_agrees_with_classic 101 100).2 (by decide) (by decide) (by decide)⟩

/-- C19 as stated fails at `n = 2^63 - 1`: the classic sieve panics in
`make([]bool, n+1)`, so there is no list for the odd-only sieve to agree with,
although with enough fuel the odd-only sieve itself returns the primes. -/
theorem optimized_disagrees_at_max :
    (2 : Int) ≤ 9223372036854775807 ∧
    (∀ fuel, ¬ ∃ primes, optimizedSieveOfEratosthenes fuel 9223372036854775807 = .ok primes ∧
      sieveOfEratosthenes fuel 9223372036854775807 = .ok primes) ∧
    optimizedSieveOfEratosthenes 9223372036854775808 9223372036854775807 =
      .ok (primesUpTo 9223372036854775807) := by
  refine ⟨by decide, fun fuel => ?_, ?_⟩
  · rintro ⟨primes, _, h⟩
    rw [sieveOfEratosthenes_at_max fuel] at h
    cases h
  · exact optimized_eq_primesUpTo 9223372036854775808 9223372036854775807 (by decide)
      (by decide) (by decide)

end Sieve
